import Mathlib

/-!
# go-sero exchange: wallet-side index, input selection and transaction assembly

A shallow embedding of `zero/exchange/exchange.go`.

* Byte strings (`[]byte`, Go `string`) are lists of bytes; the fixed-size arrays
  `keys.Uint256`, `keys.Uint512`, `keys.PKr` carry their length in the type.
* `*big.Int` is `Int`; `uint64` is `Nat`.
* Go maps are association lists iterated in insertion order (Go leaves the
  iteration order unspecified).
* The key-value store is an association list kept in key order by `Store.put`,
  so that prefix iteration is a filter.
* A `nil` pointer dereference or an out-of-range index is a panic, which the
  model reports as `none`.
* Collaborators outside the file (chain reader, local chain database, curve
  library, RLP codec, `sort.Sort`, `strings.ToUpper`) are fields of `Env`.
-/

namespace Sero

/-! ## Bytes and fixed-size arrays -/

abbrev Byte := Fin 256
abbrev Bytes := List Byte

/-- The array type `keys.Uint256` (`[32]byte`). -/
structure Uint256 where
  val : Bytes
  len : val.length = 32
deriving DecidableEq

/-- The array type `keys.Uint512` (`[64]byte`). -/
structure Uint512 where
  val : Bytes
  len : val.length = 64
deriving DecidableEq

/-- The array type `keys.PKr` (`[96]byte`). -/
structure PKr where
  val : Bytes
  len : val.length = 96
deriving DecidableEq

/-- Go `copy(dst[:], src)` into a zeroed array of `n` bytes. -/
def copyInto (n : Nat) (src : Bytes) : Bytes :=
  src.take n ++ List.replicate (n - src.length) 0

def Uint256.ofCopy (src : Bytes) : Uint256 :=
  ⟨copyInto 32 src, by
    simp only [copyInto, List.length_append, List.length_take, List.length_replicate]; omega⟩

def Uint512.ofCopy (src : Bytes) : Uint512 :=
  ⟨copyInto 64 src, by
    simp only [copyInto, List.length_append, List.length_take, List.length_replicate]; omega⟩

def PKr.ofCopy (src : Bytes) : PKr :=
  ⟨copyInto 96 src, by
    simp only [copyInto, List.length_append, List.length_take, List.length_replicate]; omega⟩

def Uint256.zero : Uint256 := ⟨List.replicate 32 0, by simp⟩

/-- Modelled from the spec: `common.LeftPadBytes` is not among the sources; the spec
calls its result the "left-padded" form (`left_pad("SERO",32)`): zero bytes are put in
front of the slice up to length `l`, and a slice of length `l` or more is returned as is. -/
def leftPadBytes (slice : Bytes) (l : Nat) : Bytes :=
  if l ≤ slice.length then slice else List.replicate (l - slice.length) 0 ++ slice

/-- Modelled from the spec: `common.BytesToHash(..).HashToUint256()` is not among the
sources; it stores a byte string in a 32-byte identifier, right-aligned (left-padded with
zero bytes), keeping the last 32 bytes of a longer string. -/
def bytesToHash (b : Bytes) : Uint256 :=
  ⟨List.replicate (32 - (b.drop (b.length - 32)).length) 0 ++ b.drop (b.length - 32), by
    simp only [List.length_append, List.length_replicate, List.length_drop]; omega⟩

/-- Go `strings.Trim(s, "\x00")`: zero bytes removed at both ends. -/
def trimZero (s : Bytes) : Bytes :=
  ((s.dropWhile (fun b => b == 0)).reverse.dropWhile (fun b => b == 0)).reverse

/-- The currency name `"SERO"`. -/
def SERO : Bytes := [83, 69, 82, 79]

/-! ## Numbers and hexadecimal strings -/

/-- Big-endian encoding of a `uint64` in 8 bytes (`binary.BigEndian.PutUint64`). -/
def encodeNumber (number : Nat) : Bytes :=
  [Fin.ofNat (number / 2 ^ 56), Fin.ofNat (number / 2 ^ 48), Fin.ofNat (number / 2 ^ 40),
   Fin.ofNat (number / 2 ^ 32), Fin.ofNat (number / 2 ^ 24), Fin.ofNat (number / 2 ^ 16),
   Fin.ofNat (number / 2 ^ 8), Fin.ofNat number]

/-- Reading of a big-endian `uint64` (`binary.BigEndian.Uint64`), which panics on a slice of
fewer than 8 bytes and reads the first 8 bytes otherwise. -/
def decodeNumber (data : Bytes) : Option Nat :=
  match data with
  | b0 :: b1 :: b2 :: b3 :: b4 :: b5 :: b6 :: b7 :: _ =>
    some (b0.val * 2 ^ 56 + b1.val * 2 ^ 48 + b2.val * 2 ^ 40 + b3.val * 2 ^ 32
      + b4.val * 2 ^ 24 + b5.val * 2 ^ 16 + b6.val * 2 ^ 8 + b7.val)
  | _ => none

def hexDigit (d : Nat) : Byte := if d < 10 then Fin.ofNat (48 + d) else Fin.ofNat (87 + d)

/-- Modelled from the spec: `common.Bytes2Hex` is not among the sources and the specification
does not describe it; it is taken to be the lower-case hexadecimal text of a byte string, two
characters per byte. -/
def bytes2Hex : Bytes → Bytes
  | [] => []
  | b :: rest => hexDigit (b.val / 16) :: hexDigit (b.val % 16) :: bytes2Hex rest

def fromHexChar (c : Byte) : Option Nat :=
  if 48 ≤ c.val ∧ c.val ≤ 57 then some (c.val - 48)
  else if 97 ≤ c.val ∧ c.val ≤ 102 then some (c.val - 87)
  else if 65 ≤ c.val ∧ c.val ≤ 70 then some (c.val - 55)
  else none

/-- Modelled from the spec: `common.Hex2Bytes` is not among the sources and the specification
does not describe it; it is taken to read a hexadecimal text back into bytes and to keep what
was read before the first bad character. -/
def hex2Bytes : Bytes → Bytes
  | c1 :: c2 :: rest =>
    match fromHexChar c1, fromHexChar c2 with
    | some h, some l => Fin.ofNat (h * 16 + l) :: hex2Bytes rest
    | _, _ => []
  | _ => []

/-! ## Go maps -/

/-- Lookup `m[k]`. -/
def mapGet {κ ν : Type} [DecidableEq κ] (m : List (κ × ν)) (k : κ) : Option ν :=
  match m with
  | [] => none
  | (k', v) :: rest => if k' = k then some v else mapGet rest k

/-- Assignment `m[k] = v`. -/
def mapSet {κ ν : Type} [DecidableEq κ] (m : List (κ × ν)) (k : κ) (v : ν) : List (κ × ν) :=
  match m with
  | [] => [(k, v)]
  | (k', v') :: rest => if k' = k then (k, v) :: rest else (k', v') :: mapSet rest k v

/-- Removal `delete(m, k)`. -/
def mapDel {κ ν : Type} [DecidableEq κ] (m : List (κ × ν)) (k : κ) : List (κ × ν) :=
  m.filter (fun e => decide (e.1 ≠ k))

/-! ## The key-value store -/

/-- Lexicographic order of byte strings, the key order of the store. -/
def bytesLt : Bytes → Bytes → Bool
  | [], [] => false
  | [], _ :: _ => true
  | _ :: _, [] => false
  | a :: as, b :: bs => decide (a < b) || (decide (a = b) && bytesLt as bs)

abbrev Store := List (Bytes × Bytes)

def Store.get (s : Store) (k : Bytes) : Option Bytes := mapGet s k

def Store.delete (s : Store) (k : Bytes) : Store := mapDel s k

def Store.insertSorted (k v : Bytes) : Store → Store
  | [] => [(k, v)]
  | (k', v') :: rest =>
    if bytesLt k k' then (k, v) :: (k', v') :: rest else (k', v') :: Store.insertSorted k v rest

def Store.put (s : Store) (k v : Bytes) : Store := Store.insertSorted k v (s.delete k)

/-- The entries of `NewIteratorWithPrefix(prefix)`, in key order. -/
def Store.iterPrefix (s : Store) (pre : Bytes) : List (Bytes × Bytes) :=
  s.filter (fun e => pre.isPrefixOf e.1)

inductive BatchOp where
  | put (k v : Bytes)
  | del (k : Bytes)
deriving DecidableEq

abbrev Batch := List BatchOp

def BatchOp.apply (s : Store) : BatchOp → Store
  | .put k v => s.put k v
  | .del k => s.delete k

/-- The effect of `batch.Write()`: the operations are applied in the order they were added. -/
def Batch.write (b : Batch) (s : Store) : Store := b.foldl BatchOp.apply s

/-! ## Key layout -/

def numPrefix : Bytes := [78, 85, 77]
def pkPrefix : Bytes := [80, 75]
def pkrPrefix : Bytes := [80, 75, 82]
def rootPrefix : Bytes := [82, 79, 79, 84]
def nilPrefix : Bytes := [78, 73, 76]

def numKey (pk : Uint512) : Bytes := numPrefix ++ pk.val

def nilKey (n : Uint256) : Bytes := nilPrefix ++ n.val

def rootKey (root : Uint256) : Bytes := rootPrefix ++ root.val

def uxtoPkKey (pk : Uint512) (currency : Bytes) (root : Option Uint256) : Bytes :=
  let key := pkPrefix ++ pk.val
  let key := if currency.length > 0 then key ++ currency else key
  match root with
  | some r => key ++ r.val
  | none => key

def uxtoPkrKey (pkr : PKr) (number : Nat) : Bytes :=
  pkrPrefix ++ (pkr.val ++ encodeNumber number)

/-! ## Data model -/

/-- The fungible part of an asset (`assets.Token`); `Value` is a `utils.U256`, a `big.Int`. -/
structure Token where
  Currency : Uint256
  Value : Int
deriving DecidableEq

/-- The non-fungible part of an asset (`assets.Ticket`). -/
structure Ticket where
  Category : Uint256
  Value : Uint256
deriving DecidableEq

/-- An asset (`assets.Asset`): two pointers, each of which may be `nil`. -/
structure Asset where
  Tkn : Option Token
  Tkt : Option Ticket
deriving DecidableEq

structure Uxto where
  Root : Uint256
  TxHash : Uint256
  Nil : Uint256
  Num : Nat
  Asset : Asset
  flag : Int
deriving DecidableEq

/-- The zero value of `Uxto`. -/
def Uxto.zero : Uxto :=
  { Root := Uint256.zero, TxHash := Uint256.zero, Nil := Uint256.zero, Num := 0,
    Asset := { Tkn := none, Tkt := none }, flag := 0 }

structure Reception where
  Addr : PKr
  Currency : Bytes
  Value : Int
deriving DecidableEq

structure TxParam where
  From : Uint512
  Receptions : List Reception
  Gas : Nat
  GasPrice : Nat
  Roots : List Uint256
deriving DecidableEq

structure Account where
  wallet : Nat
  pk : Uint512
  tk : Uint512
  sk : Option PKr
  skr : PKr
  mainPkr : PKr
deriving DecidableEq

structure Out_O where
  Addr : PKr
  Asset : Asset
  Memo : Uint512
deriving DecidableEq

structure Out_Z where
  PKr : PKr
  RPK : Uint256
  EInfo : Bytes
deriving DecidableEq

/-- The output state `OutState`: nullable fields for the plain and the encrypted form. -/
structure OutState where
  Out_O : Option Out_O
  Out_Z : Option Out_Z
  RootCM : Option Uint256
deriving DecidableEq

/-- The record `localdb.RootState`. -/
structure RootState where
  OS : OutState
  TxHash : Uint256
  Num : Nat
deriving DecidableEq

/-- The chain output `light_types.Out`. -/
structure Out where
  Root : Uint256
  State : RootState
deriving DecidableEq

structure Witness where
  data : Bytes
deriving DecidableEq

structure GIn where
  SKr : PKr
  Out : Out
  Witness : Witness
deriving DecidableEq

structure GOut where
  PKr : PKr
  Asset : Asset
deriving DecidableEq

structure Kr where
  SKr : PKr
  PKr : PKr
deriving DecidableEq

structure GenTxParam where
  Gas : Nat
  GasPrice : Int
  From : Kr
  Ins : List GIn
  Outs : List GOut
deriving DecidableEq

/-- A block as returned by the chain reader. -/
structure Block where
  Num : Nat
  Hash : Uint256
  Outs : List Out
  Nils : List Uint256
deriving DecidableEq

structure PkrKey where
  account : Account
  pkr : PKr
  num : Nat
deriving DecidableEq

/-- The decrypted output `light_types.DOut` (asset and nullifier). -/
structure DOut where
  Asset : Asset
  Nil : Uint256
deriving DecidableEq

/-- A key of the `sync.Map` `usedFlag`, whose keys are `interface{}` values: an array key and
a string key are never equal. -/
inductive FlagKey where
  | u256 (k : Uint256)
  | str (s : Bytes)
deriving DecidableEq

/-- The cached balance of a subaddress, `PkrAccount`. -/
structure PkrAccount where
  Pkr : PKr
  balances : List (Bytes × Int)
  num : Nat
deriving DecidableEq

/-- The signed transaction `light_types.GTx` as far as `commitTx` reads it. -/
structure GTx where
  Gas : Nat
  GasPrice : Int
  Tx : GenTxParam
deriving DecidableEq

/-- The state of an `Exchange` that the modelled operations read and write. The field `pool`
lists the transactions handed to `txPool.AddLocal` and accepted by it. -/
structure Exchange where
  db : Store
  accounts : List (Uint512 × Account)
  usedFlag : List (FlagKey × Int)
  numbers : List (Uint512 × Nat)
  pkrAccounts : List (PKr × PkrAccount) := []
  pool : List GTx := []

/-- Collaborators of the exchange that live outside `exchange.go`. -/
structure Env where
  /-- Go `strings.ToUpper`. -/
  toUpper : Bytes → Bytes
  /-- Go `sort.Sort` on a `UxtoList`; `none` when `Less` dereferences a `nil` token. -/
  sortUxtos : List Uxto → Option (List Uxto)
  /-- The chain reader call `sri.GetAnchor`; `none` is an error. -/
  getAnchor : List Uint256 → Option (List Witness)
  /-- The lookup `localdb.GetRoot` in the chain database. -/
  getRoot : Uint256 → Option RootState
  /-- The curve operation `keys.Addr2PKr`. -/
  addr2PKr : Uint512 → Uint256 → PKr
  /-- The codec call `rlp.Decode` into a `Uxto`; `none` is an error. -/
  decodeUxto : Bytes → Option Uxto
  /-- The codec call `rlp.EncodeToBytes` on a `Uxto`; `none` is an error. -/
  encodeUxto : Uxto → Option Bytes
  /-- The codec call `rlp.EncodeToBytes` on a list of roots; `none` is an error. -/
  encodeRoots : List Uint256 → Option Bytes
  /-- The chain reader call `sri.GetBlocksInfo`; `none` is an error. -/
  getBlocksInfo : Nat → Nat → Option (List Block)
  /-- The curve operation `keys.IsMyPKr`. -/
  isMyPKr : Uint512 → PKr → Bool
  /-- The nullifier derivation `cpt.GenTil` from a key and the output commitment. -/
  genTil : Uint512 → Option Uint256 → Uint256
  /-- Trial decryption of an encrypted output (`keys.FetchKey`, `cpt.DecOutput`,
  `stx.ConfirmOut_Z`, `assets.NewAsset`); `none` when `ConfirmOut_Z` fails. -/
  decryptOutZ : Uint512 → Out_Z → Option Asset
  /-- The conversion `common.BytesToString` of a currency tag to a currency name. -/
  bytesToString : Bytes → Bytes
  /-- The codec call `rlp.Decode` into a list of roots; `none` is an error. -/
  decodeRoots : Bytes → Option (List Uint256)
  /-- The calls `wallet.GetSeed` and `keys.Seed2Sk` on a wallet; `none` is an error. -/
  walletSk : Nat → Option Uint512
  /-- The signer call `sli.GenTx`; `none` is an error. -/
  sliGenTx : GenTxParam → Option GTx
  /-- The call `txPool.AddLocal`: whether the pool accepts the transaction. -/
  addLocal : GTx → Bool

/-! ## Reading a UTXO record -/

/-- The method `Exchange.getUxto`. A failing `db.Get` returns with the named results untouched:
the zero `Uxto` and a `nil` error. The unexported field `flag` is not part of the encoding. -/
def getUxto (env : Env) (ex : Exchange) (root : Uint256) : Except String Uxto :=
  match ex.db.get (rootKey root) with
  | none => .ok Uxto.zero
  | some data =>
    match env.decodeUxto data with
    | none => .error "rlp: decode"
    | some dec =>
      let uxto := { dec with flag := 0 }
      match mapGet ex.usedFlag (FlagKey.u256 uxto.Nil) with
      | some value => .ok { uxto with flag := value }
      | none => .ok uxto

/-! ## Input selection -/

/-- The root read from a `PK` key: `copy(root[:], key[98:130])`. -/
def keyRoot (key : Bytes) : Uint256 := Uint256.ofCopy ((key.drop 98).take 32)

/-- The iteration prefix of `findUxtos`: `"PK" || pk || left_pad(upper(currency), 32)`. -/
def findPrefix (env : Env) (pk : Uint512) (currency : Bytes) : Bytes :=
  pkPrefix ++ (pk.val ++ leftPadBytes (env.toUpper currency) 32)

/-- One pass of the first loop of `findUxtos`, before the test that ends the loop. The slice
`key[98:130]` of a key shorter than 130 bytes is taken to panic (capacity equal to length). -/
def findUxtosStep (env : Env) (ex : Exchange) (key : Bytes)
    (uxtos list : List Uxto) (amount : Int) : Option (List Uxto × List Uxto × Int) :=
  if key.length < 130 then none
  else
    match getUxto env ex (keyRoot key) with
    | .ok uxto =>
      match mapGet ex.usedFlag (FlagKey.u256 uxto.Nil) with
      | none =>
        match uxto.Asset.Tkn with
        | none => none
        | some tkn => some (uxtos ++ [uxto], list, amount - tkn.Value)
      | some _ => some (uxtos, list ++ [uxto], amount)
    | .error _ => some (uxtos, list, amount)

/-- The first loop of `findUxtos` over the entries under the prefix. -/
def findUxtosScan (env : Env) (ex : Exchange) :
    List (Bytes × Bytes) → List Uxto → List Uxto → Int → Option (List Uxto × List Uxto × Int)
  | [], uxtos, list, amount => some (uxtos, list, amount)
  | (key, _) :: rest, uxtos, list, amount =>
    match findUxtosStep env ex key uxtos list amount with
    | none => none
    | some (uxtos1, list1, amount1) =>
      if amount1 ≤ 0 then some (uxtos1, list1, amount1)
      else findUxtosScan env ex rest uxtos1 list1 amount1

/-- The second loop of `findUxtos`, over the sorted reserved list. -/
def takeReserved : List Uxto → List Uxto → Int → Option (List Uxto × Int)
  | [], uxtos, amount => some (uxtos, amount)
  | uxto :: rest, uxtos, amount =>
    match uxto.Asset.Tkn with
    | none => none
    | some tkn =>
      if amount - tkn.Value ≤ 0 then some (uxtos ++ [uxto], amount - tkn.Value)
      else takeReserved rest (uxtos ++ [uxto]) (amount - tkn.Value)

/-- The method `Exchange.findUxtos`: the selected UTXOs and the error, or `none` on a panic. -/
def findUxtos (env : Env) (ex : Exchange) (pk : Uint512) (currency : Bytes) (amount : Int) :
    Option (List Uxto × Option String) :=
  match findUxtosScan env ex (ex.db.iterPrefix (findPrefix env pk currency)) [] [] amount with
  | none => none
  | some (uxtos, list, amount) =>
    let second : Option (List Uxto × Int) :=
      if amount > 0 ∧ list.length > 0 then
        match env.sortUxtos list with
        | none => none
        | some sorted => takeReserved sorted uxtos amount
      else some (uxtos, amount)
    match second with
    | none => none
    | some (uxtos, amount) =>
      some (uxtos, if amount > 0 then some "not enough token" else none)

/-- The `amounts` map that `preGenTx` builds before it calls `findUxtos` for each entry. When
no reception names `"SERO"` the fee is assigned to the variable `amount` of the `if` statement
only, and the map is left as it is. -/
def preGenTxAmounts (param : TxParam) : List (Bytes × Int) :=
  let amounts := param.Receptions.foldl (fun (amounts : List (Bytes × Int)) each =>
    match mapGet amounts each.Currency with
    | some amount => mapSet amounts each.Currency (amount + each.Value)
    | none => mapSet amounts each.Currency each.Value) []
  match mapGet amounts SERO with
  | some amount => mapSet amounts SERO (amount + (param.Gas : Int) * (param.GasPrice : Int))
  | none => amounts

/-- The loop of `preGenTx` over explicit roots. -/
def preGenTxRoots (env : Env) (ex : Exchange) : List Uint256 → List Uxto → List Uxto × Option String
  | [], uxtos => (uxtos, none)
  | root :: rest, uxtos =>
    match getUxto env ex root with
    | .error e => (uxtos, some e)
    | .ok uxto => preGenTxRoots env ex rest (uxtos ++ [uxto])

/-- The loop of `preGenTx` over the `amounts` map. -/
def preGenTxFind (env : Env) (ex : Exchange) (pk : Uint512) :
    List (Bytes × Int) → List Uxto → Option (List Uxto × Option String)
  | [], uxtos => some (uxtos, none)
  | (currency, amount) :: rest, uxtos =>
    match findUxtos env ex pk currency amount with
    | none => none
    | some (_, some e) => some (uxtos, some e)
    | some (list, none) => preGenTxFind env ex pk rest (uxtos ++ list)

/-- The method `Exchange.preGenTx`. -/
def preGenTx (env : Env) (ex : Exchange) (param : TxParam) : Option (List Uxto × Option String) :=
  if param.Roots.length > 0 then some (preGenTxRoots env ex param.Roots [])
  else preGenTxFind env ex param.From (preGenTxAmounts param) []

/-! ## Transaction assembly -/

/-- Go conversion `int64(x)` of a `uint64`. -/
def toInt64 (x : Nat) : Int :=
  if x % 2 ^ 64 < 2 ^ 63 then ((x % 2 ^ 64 : Nat) : Int) else ((x % 2 ^ 64 : Nat) : Int) - 2 ^ 64

/-- The method `Exchange.isPk`: the last 32 bytes of the address are zero. -/
def isPk (addr : PKr) : Bool :=
  decide (List.replicate 32 (0 : Byte) = (addr.val.drop 64).take 32)

/-- Modelled from the spec: `PKr.ToUint512` belongs to the key library and is not among the
sources; a subaddress is "a 96-byte structure" whose last 32 bytes mark a bare public key, and
the conversion is taken to copy its first 64 bytes. -/
def PKr.toUint512 (addr : PKr) : Uint512 := Uint512.ofCopy addr.val

/-- The method `Exchange.createPkr`. -/
def createPkr (env : Env) (pk : Uint512) (index : Nat) : PKr :=
  env.addr2PKr pk (Uint256.ofCopy (leftPadBytes (encodeNumber index) 32))

/-- The token output that `buildTxParam` emits for a currency name and a value. -/
def tokenOut (pkr : PKr) (currency : Bytes) (value : Int) : GOut :=
  { PKr := pkr,
    Asset := { Tkn := some { Currency := bytesToHash (leftPadBytes currency 32), Value := value },
               Tkt := none } }

/-- The first loop of `buildTxParam`: inputs, currency buckets and tickets. An index beyond
the witnesses returned by `GetAnchor` is a panic. -/
def buildIns (env : Env) (wits : List Witness) :
    List Uxto → Nat → List GIn → List (Bytes × Int) → List (Uint256 × Uint256) →
    Option (List GIn × List (Bytes × Int) × List (Uint256 × Uint256))
  | [], _, Ins, amounts, ticekts => some (Ins, amounts, ticekts)
  | uxto :: rest, index, Ins, amounts, ticekts =>
    match env.getRoot uxto.Root with
    | none => buildIns env wits rest (index + 1) Ins amounts ticekts
    | some out =>
      match wits[index]? with
      | none => none
      | some wit =>
        let Ins1 := Ins ++ [{ SKr := PKr.ofCopy [], Out := { Root := uxto.Root, State := out },
                              Witness := wit }]
        let amounts1 :=
          match uxto.Asset.Tkn with
          | some tkn =>
            let currency := trimZero tkn.Currency.val
            match mapGet amounts currency with
            | some amount => mapSet amounts currency (amount + tkn.Value)
            | none => mapSet amounts currency tkn.Value
          | none => amounts
        let ticekts1 :=
          match uxto.Asset.Tkt with
          | some tkt => mapSet ticekts tkt.Value tkt.Category
          | none => ticekts
        buildIns env wits rest (index + 1) Ins1 amounts1 ticekts1

/-- The second loop of `buildTxParam`: one output per reception that its bucket covers. -/
def buildOuts (env : Env) :
    List Reception → List GOut → List (Bytes × Int) → List GOut × List (Bytes × Int)
  | [], Outs, amounts => (Outs, amounts)
  | reception :: rest, Outs, amounts =>
    let currency := env.toUpper reception.Currency
    match mapGet amounts currency with
    | some amount =>
      if amount ≥ reception.Value then
        let pkr := if isPk reception.Addr then createPkr env reception.Addr.toUint512 1
                   else reception.Addr
        let Outs1 := Outs ++ [tokenOut pkr currency reception.Value]
        let amounts1 :=
          if amount - reception.Value = 0 then mapDel amounts currency
          else mapSet amounts currency (amount - reception.Value)
        buildOuts env rest Outs1 amounts1
      else buildOuts env rest Outs amounts
    | none => buildOuts env rest Outs amounts

/-- The passthrough output for a ticket. -/
def ticketOut (pkr : PKr) (value category : Uint256) : GOut :=
  { PKr := pkr, Asset := { Tkn := none, Tkt := some { Category := category, Value := value } } }

/-- The last loop of `buildTxParam`: every selected nullifier is stored in `usedFlag`. -/
def markUsed (usedFlag : List (FlagKey × Int)) (uxtos : List Uxto) : List (FlagKey × Int) :=
  uxtos.foldl (fun m uxto => mapSet m (FlagKey.u256 uxto.Nil) 1) usedFlag

/-- The method `Exchange.buildTxParam`: the parameter, the error and the reserved-spent set
afterwards, or `none` on a panic. -/
def buildTxParam (env : Env) (usedFlag : List (FlagKey × Int)) (uxtos : List Uxto)
    (account : Account) (receptions : List Reception) (gas gasPrice : Nat) :
    Option (GenTxParam × Option String × List (FlagKey × Int)) :=
  let txParam : GenTxParam :=
    { Gas := gas, GasPrice := toInt64 gasPrice,
      From := { SKr := PKr.ofCopy [], PKr := account.mainPkr }, Ins := [], Outs := [] }
  let roots := uxtos.map (fun uxto => uxto.Root)
  match env.getAnchor roots with
  | none => some (txParam, some "GetAnchor", usedFlag)
  | some wits =>
    match buildIns env wits uxtos 0 [] [] [] with
    | none => none
    | some (Ins, amounts, ticekts) =>
      match buildOuts env receptions [] amounts with
      | (Outs, amounts) =>
        let fee : Int := (gas : Int) * (gasPrice : Int)
        match mapGet amounts SERO with
        | none => some (txParam, some "SSI GenTx Error: not enough", usedFlag)
        | some amount =>
          if amount < fee then some (txParam, some "SSI GenTx Error: not enough", usedFlag)
          else
            let amounts :=
              if amount - fee = 0 then mapDel amounts SERO else mapSet amounts SERO (amount - fee)
            let Outs := Outs ++ amounts.map (fun e => tokenOut account.mainPkr e.1 e.2)
            let Outs := Outs ++ ticekts.map (fun e => ticketOut account.mainPkr e.1 e.2)
            some ({ txParam with Ins := Ins, Outs := Outs }, none, markUsed usedFlag uxtos)

/-- The method `Exchange.GenTx`: the returned pair and the exchange afterwards, or `none` on
a panic. -/
def GenTx (env : Env) (ex : Exchange) (param : TxParam) :
    Option ((Option GenTxParam × Option String) × Exchange) :=
  match preGenTx env ex param with
  | none => none
  | some (_, some err) => some ((none, some err), ex)
  | some (uxtos, none) =>
    match mapGet ex.accounts param.From with
    | none => some ((none, some "not found Pk"), ex)
    | some account =>
      match buildTxParam env ex.usedFlag uxtos account param.Receptions param.Gas param.GasPrice with
      | none => none
      | some (txParam, e, usedFlag) => some ((some txParam, e), { ex with usedFlag := usedFlag })

/-! ## Indexing a scan window -/

/-- The comparison `UxtoList.Less`; `none` when it dereferences a `nil` token. -/
def UxtoList.Less (a b : Uxto) : Option Bool :=
  if a.flag = b.flag then
    match a.Asset.Tkn, b.Asset.Tkn with
    | some ta, some tb => some (decide (ta.Value < tb.Value))
    | _, _ => none
  else some (decide (a.flag < b.flag))

/-- The `PK` key that `indexBlocks` builds for a UTXO; the empty slice when the asset has
neither token nor ticket. -/
def indexPkKey (pk : Uint512) (uxto : Uxto) : Bytes :=
  match uxto.Asset.Tkn with
  | some tkn => uxtoPkKey pk tkn.Currency.val (some uxto.Root)
  | none =>
    match uxto.Asset.Tkt with
    | some tkt => uxtoPkKey pk tkt.Value.val (some uxto.Root)
    | none => []

/-- The inner loop of `indexBlocks` over the UTXOs of one `PkrKey`. The call of `log.Info`
that ends a pass reads `uxto.Asset.Tkn.Value` and panics on a `nil` token. -/
def indexList (env : Env) (pk : Uint512) :
    List Uxto → Batch → List (Bytes × Bytes) → List Uint256 →
    Option (Option String × Batch × List (Bytes × Bytes) × List Uint256)
  | [], batch, ops, roots => some (none, batch, ops, roots)
  | uxto :: rest, batch, ops, roots =>
    match env.encodeUxto uxto with
    | none => some (some "rlp: encode", batch, ops, roots)
    | some data =>
      let batch := batch ++ [BatchOp.put (rootKey uxto.Root) data]
      let pkKey := indexPkKey pk uxto
      let ops := mapSet ops (bytes2Hex pkKey) (bytes2Hex [0])
      let ops := mapSet ops (bytes2Hex (nilKey uxto.Nil)) (bytes2Hex pkKey)
      let ops := mapSet ops (bytes2Hex (nilKey uxto.Root)) (bytes2Hex pkKey)
      match uxto.Asset.Tkn with
      | none => none
      | some _ => indexList env pk rest batch ops (roots ++ [uxto.Root])

/-- The first loop of `indexBlocks` over the `uxtos` map. -/
def indexGroups (env : Env) :
    List (PkrKey × List Uxto) → Batch → List (Bytes × Bytes) →
    Option (Option String × Batch × List (Bytes × Bytes))
  | [], batch, ops => some (none, batch, ops)
  | (key, list) :: rest, batch, ops =>
    match indexList env key.account.pk list batch ops [] with
    | none => none
    | some (some e, batch, ops, _) => some (some e, batch, ops)
    | some (none, batch, ops, roots) =>
      match env.encodeRoots roots with
      | none => some (some "rlp: encode", batch, ops)
      | some data =>
        indexGroups env rest (batch ++ [BatchOp.put (uxtoPkrKey key.pkr key.num) data]) ops

/-- The second loop of `indexBlocks` over the published nullifiers. `usedFlag.Delete` is
called with the hexadecimal string of the nullifier as its key. -/
def indexNils (db : Store) :
    List Uint256 → Batch → List (Bytes × Bytes) → List (FlagKey × Int) →
    Batch × List (Bytes × Bytes) × List (FlagKey × Int)
  | [], batch, ops, usedFlag => (batch, ops, usedFlag)
  | n :: rest, batch, ops, usedFlag =>
    let key := nilKey n
    let hex := bytes2Hex key
    let usedFlag1 := mapDel usedFlag (FlagKey.str (bytes2Hex n.val))
    match mapGet ops hex with
    | some value => indexNils db rest batch (mapDel (mapDel ops hex) value) usedFlag1
    | none =>
      match db.get key with
      | some data =>
        indexNils db rest (batch ++ [BatchOp.del data, BatchOp.del (nilKey n)]) ops usedFlag1
      | none => indexNils db rest batch ops usedFlag1

/-- The method `Exchange.indexBlocks`: the error, the batch and the reserved-spent set
afterwards, or `none` on a panic. -/
def indexBlocks (env : Env) (ex : Exchange) (batch : Batch)
    (uxtos : List (PkrKey × List Uxto)) (nils : List Uint256) :
    Option (Option String × Batch × List (FlagKey × Int)) :=
  match indexGroups env uxtos batch [] with
  | none => none
  | some (some e, batch, _) => some (some e, batch, ex.usedFlag)
  | some (none, batch, ops) =>
    match indexNils ex.db nils batch ops ex.usedFlag with
    | (batch, ops, usedFlag) =>
      some (none, batch ++ ops.map (fun e => BatchOp.put (hex2Bytes e.1) (hex2Bytes e.2)),
        usedFlag)

/-- The method `Exchange.ownPkr`. -/
def ownPkr (env : Env) (ex : Exchange) : List Uint512 → PKr → Option Account
  | [], _ => none
  | pk :: rest, pkr =>
    match mapGet ex.accounts pk with
    | none => ownPkr env ex rest pkr
    | some account => if env.isMyPKr account.tk pkr then some account else ownPkr env ex rest pkr

/-- The function `DecOuts`; `none` when an output has neither a plain nor an encrypted form. -/
def DecOuts (env : Env) (outs : List Out) (skr : PKr) : Option (List DOut) :=
  let sk := Uint512.ofCopy skr.val
  outs.foldl (fun acc out =>
    match acc with
    | none => none
    | some douts =>
      match out.State.OS.Out_O with
      | some o => some (douts ++ [{ Asset := o.Asset, Nil := env.genTil sk out.State.OS.RootCM }])
      | none =>
        match out.State.OS.Out_Z with
        | none => none
        | some z =>
          match env.decryptOutZ sk z with
          | some asset =>
            some (douts ++ [{ Asset := asset, Nil := env.genTil sk out.State.OS.RootCM }])
          | none => some (douts ++ [{ Asset := { Tkn := none, Tkt := none }, Nil := Uint256.zero }]))
    (some [])

/-- The grouping of a block's outputs by `PkrKey` in `fetchAndIndexUxto`. -/
def collectOuts (env : Env) (ex : Exchange) (pks : List Uint512) :
    List Out → List (PkrKey × List Out) → List (PkrKey × List Out)
  | [], outs => outs
  | out :: rest, outs =>
    let pkr0 : PKr := PKr.ofCopy []
    let pkr1 := match out.State.OS.Out_Z with
      | some z => z.PKr
      | none => pkr0
    let pkr := match out.State.OS.Out_O with
      | some o => o.Addr
      | none => pkr1
    match ownPkr env ex pks pkr with
    | none => collectOuts env ex pks rest outs
    | some account =>
      let key : PkrKey := { account := account, pkr := pkr, num := out.State.Num }
      match mapGet outs key with
      | some list => collectOuts env ex pks rest (mapSet outs key (list ++ [out]))
      | none => collectOuts env ex pks rest (mapSet outs key [out])

/-- The loop of `fetchAndIndexUxto` over the blocks of the window. -/
def collectBlocks (env : Env) (ex : Exchange) (pks : List Uint512) :
    List Block → List (PkrKey × List Out) → List Uint256 →
    List (PkrKey × List Out) × List Uint256
  | [], outs, nils => (outs, nils)
  | block :: rest, outs, nils =>
    collectBlocks env ex pks rest (collectOuts env ex pks block.Outs outs) (nils ++ block.Nils)

/-- The decryption loop of `fetchAndIndexUxto`. -/
def decryptGroups (env : Env) :
    List (PkrKey × List Out) → List (PkrKey × List Uxto) → Option (List (PkrKey × List Uxto))
  | [], uxtos => some uxtos
  | (key, outs) :: rest, uxtos =>
    match DecOuts env outs key.account.skr with
    | none => none
    | some douts =>
      let list := (douts.zip outs).map (fun p =>
        ({ Root := p.2.Root, TxHash := p.2.State.TxHash, Nil := p.1.Nil, Num := p.2.State.Num,
           Asset := p.1.Asset, flag := 0 } : Uxto))
      decryptGroups env rest (mapSet uxtos key list)

/-- The tail of `fetchAndIndexUxto` once the window is decrypted: `indexBlocks` is called, its
error is logged, the cursor is written for every `pk` and the batch is committed. -/
def commitWindow (env : Env) (ex : Exchange) (pks : List Uint512) (num : Nat)
    (uxtos : List (PkrKey × List Uxto)) (nils : List Uint256) : Option Exchange :=
  let indexed : Option (Batch × List (FlagKey × Int)) :=
    if uxtos.length > 0 ∨ nils.length > 0 then
      match indexBlocks env ex [] uxtos nils with
      | none => none
      | some (_, batch, usedFlag) => some (batch, usedFlag)
    else some ([], ex.usedFlag)
  match indexed with
  | none => none
  | some (batch, usedFlag) =>
    let data := encodeNumber num
    let batch := batch ++ pks.map (fun pk => BatchOp.put (numKey pk) data)
    let numbers := pks.foldl (fun m pk => mapSet m pk num) ex.numbers
    some { ex with db := batch.write ex.db, usedFlag := usedFlag, numbers := numbers }

/-- The method `Exchange.fetchAndIndexUxto`: the count and the exchange afterwards, or `none`
on a panic (nothing is written then). -/
def fetchAndIndexUxto (env : Env) (ex : Exchange) (start : Nat) (pks : List Uint512) :
    Option (Nat × Exchange) :=
  match env.getBlocksInfo start 1000 with
  | none => some (0, ex)
  | some blocks =>
    match blocks.getLast? with
    | none => some (0, ex)
    | some last =>
      match collectBlocks env ex pks blocks [] [] with
      | (outs, nils) =>
        match decryptGroups env outs [] with
        | none => none
        | some uxtos =>
          match commitWindow env ex pks ((last.Num + 1) % 2 ^ 64) uxtos nils with
          | none => none
          | some ex1 => some (blocks.length, ex1)

/-! ## A concrete environment and concrete scenarios -/

/-- Upper-casing of the ASCII letters, which is what `strings.ToUpper` does on ASCII text. -/
def asciiToUpper (s : Bytes) : Bytes :=
  s.map (fun b => if 97 ≤ b.val ∧ b.val ≤ 122 then Fin.ofNat (b.val - 32) else b)

/-- Token value of a UTXO, `0` without a token. -/
def uxtoValue (u : Uxto) : Int :=
  match u.Asset.Tkn with
  | some tkn => tkn.Value
  | none => 0

/-- The order `(flag asc, amount asc)` of `UxtoList.Less`, made total. -/
def uxtoLe (a b : Uxto) : Bool :=
  decide (a.flag < b.flag) || (decide (a.flag = b.flag) && decide (uxtoValue a ≤ uxtoValue b))

def insertUxto (u : Uxto) : List Uxto → List Uxto
  | [] => [u]
  | v :: rest => if uxtoLe u v then u :: v :: rest else v :: insertUxto u rest

/-- An insertion sort standing for `sort.Sort`: it panics when two or more elements are
compared and one of them has no token. -/
def demoSort (l : List Uxto) : Option (List Uxto) :=
  if 2 ≤ l.length ∧ l.any (fun u => u.Asset.Tkn.isNone) then none
  else some (l.foldr insertUxto [])

def be32 (v : Nat) : Bytes := (List.range 32).map (fun i => Fin.ofNat (v / 256 ^ (31 - i)))

def readBe (b : Bytes) : Nat := b.foldl (fun acc x => acc * 256 + x.val) 0

/-- A fixed-layout codec standing for RLP. Like RLP it refuses a negative integer. -/
def demoEncodeUxto (u : Uxto) : Option Bytes :=
  let head := u.Root.val ++ u.TxHash.val ++ u.Nil.val ++ encodeNumber u.Num
  let tkt : Bytes := match u.Asset.Tkt with
    | some k => [1] ++ k.Category.val ++ k.Value.val
    | none => [0]
  match u.Asset.Tkn with
  | some t =>
    if t.Value < 0 then none
    else some (head ++ [1] ++ t.Currency.val ++ be32 t.Value.toNat ++ tkt)
  | none => some (head ++ [0] ++ tkt)

def demoDecodeTkt (b : Bytes) : Option (Option Ticket) :=
  match b with
  | [0] => some none
  | 1 :: r =>
    if r.length = 64 then
      some (some { Category := Uint256.ofCopy (r.take 32), Value := Uint256.ofCopy (r.drop 32) })
    else none
  | _ => none

def demoDecodeUxto (b : Bytes) : Option Uxto :=
  match decodeNumber (b.drop 96) with
  | none => none
  | some num =>
    let mk (tkn : Option Token) (tkt : Option Ticket) : Uxto :=
      { Root := Uint256.ofCopy (b.take 32), TxHash := Uint256.ofCopy ((b.drop 32).take 32),
        Nil := Uint256.ofCopy ((b.drop 64).take 32), Num := num,
        Asset := { Tkn := tkn, Tkt := tkt }, flag := 0 }
    match b.drop 104 with
    | 0 :: r => (demoDecodeTkt r).map (fun tkt => mk none tkt)
    | 1 :: r =>
      if r.length < 64 then none
      else (demoDecodeTkt (r.drop 64)).map (fun tkt =>
        mk (some { Currency := Uint256.ofCopy (r.take 32),
                   Value := (readBe ((r.drop 32).take 32) : Nat) }) tkt)
    | _ => none

/-- A chain state in which every root is known. -/
def demoRootState : RootState :=
  { OS := { Out_O := none, Out_Z := none, RootCM := none }, TxHash := Uint256.zero, Num := 0 }

/-- The loop of `demoDecodeRoots`; the first argument bounds the number of roots. -/
def demoDecodeRootsAux : Nat → Bytes → Option (List Uint256)
  | _, [] => some []
  | 0, _ :: _ => none
  | n + 1, b :: rest =>
    if (b :: rest).length < 32 then none
    else (demoDecodeRootsAux n ((b :: rest).drop 32)).map
      (fun l => Uint256.ofCopy ((b :: rest).take 32) :: l)

/-- The inverse of the list encoding of `demoEnv`: the data is cut into 32-byte roots. -/
def demoDecodeRoots (data : Bytes) : Option (List Uint256) :=
  demoDecodeRootsAux data.length data

def demoEnv : Env :=
  { toUpper := asciiToUpper
    sortUxtos := demoSort
    getAnchor := fun roots => some (roots.map (fun r => { data := r.val }))
    getRoot := fun _ => some demoRootState
    addr2PKr := fun pk r => PKr.ofCopy (pk.val ++ r.val)
    decodeUxto := demoDecodeUxto
    encodeUxto := demoEncodeUxto
    encodeRoots := fun roots => some (roots.map (fun r => r.val)).flatten
    getBlocksInfo := fun _ _ => some []
    isMyPKr := fun tk pkr => decide (pkr.val.take 64 = tk.val)
    genTil := fun _ cm => cm.getD Uint256.zero
    decryptOutZ := fun _ _ => none
    bytesToString := trimZero
    decodeRoots := demoDecodeRoots
    walletSk := fun _ => some (Uint512.ofCopy [])
    sliGenTx := fun p => some { Gas := p.Gas, GasPrice := p.GasPrice, Tx := p }
    addLocal := fun _ => true }

def fill256 (b : Byte) : Uint256 := ⟨List.replicate 32 b, by simp⟩
def fill512 (b : Byte) : Uint512 := ⟨List.replicate 64 b, by simp⟩
def fillPKr (b : Byte) : PKr := ⟨List.replicate 96 b, by simp⟩

/-- The 32-byte currency tag of `"SERO"`. -/
def seroCurrency : Uint256 := bytesToHash (leftPadBytes SERO 32)

def alicePk : Uint512 := fill512 1

def alice : Account :=
  { wallet := 0, pk := alicePk, tk := alicePk, sk := none, skr := PKr.ofCopy alicePk.val,
    mainPkr := createPkr demoEnv alicePk 1 }

def bob : PKr := fillPKr 2

/-- An exchange with the account of `alice`, an empty index and nothing reserved. -/
def ex0 : Exchange :=
  { db := [], accounts := [(alicePk, alice)], usedFlag := [], numbers := [(alicePk, 1)] }

def mkUxto (root nil_ : Byte) (cur : Uint256) (value : Int) : Uxto :=
  { Root := fill256 root, TxHash := fill256 0, Nil := fill256 nil_, Num := 5,
    Asset := { Tkn := some { Currency := cur, Value := value }, Tkt := none }, flag := 0 }

def aliceKey : PkrKey := { account := alice, pkr := alice.mainPkr, num := 5 }

/-- The exchange after the scan of a window that holds the given UTXOs of `alice` and the
given published nullifiers. -/
def scanned (uxtos : List Uxto) (nils : List Uint256) (ex : Exchange) : Exchange :=
  (commitWindow demoEnv ex [alicePk] 6 (if uxtos = [] then [] else [(aliceKey, uxtos)])
    nils).getD ex

def ABC : Bytes := [65, 66, 67]

/-- The 32-byte currency tag of `"ABC"`. -/
def abcCurrency : Uint256 := bytesToHash (leftPadBytes ABC 32)

/-- A request whose only reception is in the currency `"ABC"`. -/
def paramC1 : TxParam :=
  { From := alicePk, Receptions := [{ Addr := bob, Currency := ABC, Value := 5 }],
    Gas := 21000, GasPrice := 1000000000, Roots := [] }

/-- An index in which `alice` holds 5 `ABC` and no `SERO`. -/
def exC1 : Exchange := scanned [mkUxto 7 9 abcCurrency 5] [] ex0

/-- An index in which `alice` holds two `SERO` UTXOs of values 3 and 4. -/
def exC4 : Exchange := scanned [mkUxto 7 9 seroCurrency 3, mkUxto 10 11 seroCurrency 4] [] ex0

/-- A request with explicit roots worth 7 for a reception of 100 and a fee of 5. -/
def paramC4 : TxParam :=
  { From := alicePk, Receptions := [{ Addr := bob, Currency := SERO, Value := 100 }],
    Gas := 1, GasPrice := 5, Roots := [fill256 7, fill256 10] }

/-- The single UTXO of scenario 3 of the specification: `1000 + 21000 * 10^9` of `SERO`. -/
def uxtoC5 : Uxto := mkUxto 7 9 seroCurrency (1000 + 21000 * 1000000000)

def exC5 : Exchange := scanned [uxtoC5] [] ex0

def paramC5 : TxParam :=
  { From := alicePk, Receptions := [{ Addr := bob, Currency := SERO, Value := 600 }],
    Gas := 21000, GasPrice := 1000000000, Roots := [] }

/-- The exchange after `GenTx` has built the transaction of scenario 3. -/
def exC6 : Exchange := ((GenTx demoEnv exC5 paramC5).map (fun r => r.2)).getD exC5

/-- A store whose only entry is a `NIL` alias that holds a `ROOT` key. -/
def exC9 : Exchange :=
  { db := [(nilKey (fill256 12), rootKey (fill256 7))], accounts := [(alicePk, alice)],
    usedFlag := [], numbers := [(alicePk, 1)] }

/-- A plain output of block 5 addressed to the main subaddress of `alice`. -/
def outC10 (root : Byte) (value : Int) : Out :=
  { Root := fill256 root,
    State :=
      { OS := { Out_O := some { Addr := alice.mainPkr,
                                Asset := { Tkn := some { Currency := seroCurrency, Value := value },
                                           Tkt := none },
                                Memo := fill512 0 },
                Out_Z := none, RootCM := some (fill256 (root + 1)) },
        TxHash := fill256 0, Num := 5 } }

/-- A chain reader that serves one block at height 5; the second output of the block carries a
value that the codec refuses to encode. -/
def envC10 : Env :=
  { demoEnv with
    getBlocksInfo := fun start _ =>
      if start = 5 then
        some [{ Num := 5, Hash := fill256 0, Outs := [outC10 7 10, outC10 10 (-1)], Nils := [] }]
      else some [] }

def exC10 : Exchange :=
  { db := [], accounts := [(alicePk, alice)], usedFlag := [], numbers := [(alicePk, 5)] }

/-! ## Notions used in the statements -/

/-- Sum of the token values of a list of UTXOs. -/
def sumValues (l : List Uxto) : Int := (l.map uxtoValue).sum

/-- Test that the root listed by a `PK` key has a decodable token record: the key has its
130 bytes, `getUxto` returns a UTXO with a token, and the token value (a `U256`) is not
negative. -/
def tokenRecord (env : Env) (ex : Exchange) (key : Bytes) : Bool :=
  decide (130 ≤ key.length) &&
    match getUxto env ex (keyRoot key) with
    | .ok u =>
      match u.Asset.Tkn with
      | some tkn => decide (0 ≤ tkn.Value)
      | none => false
    | .error _ => false

/-- The root listed by a `PK` key has a decodable token record. -/
def TokenRecord (env : Env) (ex : Exchange) (key : Bytes) : Prop :=
  tokenRecord env ex key = true

instance (env : Env) (ex : Exchange) (key : Bytes) : Decidable (TokenRecord env ex key) :=
  inferInstanceAs (Decidable (tokenRecord env ex key = true))

/-- Token value of the record that a `PK` key lists. -/
def entryValue (env : Env) (ex : Exchange) (key : Bytes) : Int :=
  match getUxto env ex (keyRoot key) with
  | .ok u => uxtoValue u
  | .error _ => 0

/-- Total value of the records listed by a sequence of index entries. -/
def entriesTotal (env : Env) (ex : Exchange) (entries : List (Bytes × Bytes)) : Int :=
  (entries.map (fun e => entryValue env ex e.1)).sum

/-- Total value of all UTXOs, free and reserved, under an iteration prefix. -/
def prefixTotal (env : Env) (ex : Exchange) (pre : Bytes) : Int :=
  entriesTotal env ex (ex.db.iterPrefix pre)

/-- The UTXOs for which `buildTxParam` emits an input: those whose root state is found by
`localdb.GetRoot`. -/
def emittedUxtos (env : Env) (uxtos : List Uxto) : List Uxto :=
  uxtos.filter (fun u => (env.getRoot u.Root).isSome)

/-- Token value of a UTXO in the currency `c`, `0` for another currency or without a token. -/
def inValue (c : Uint256) (u : Uxto) : Int :=
  match u.Asset.Tkn with
  | some tkn => if tkn.Currency = c then tkn.Value else 0
  | none => 0

/-- Sum of the token values of the UTXOs of currency `c`. -/
def inSum (c : Uint256) (uxtos : List Uxto) : Int := (uxtos.map (inValue c)).sum

/-- Token value of an output in the currency `c`. -/
def outValue (c : Uint256) (o : GOut) : Int :=
  match o.Asset.Tkn with
  | some tkn => if tkn.Currency = c then tkn.Value else 0
  | none => 0

/-- Sum of the token values of the outputs of currency `c`. -/
def outSum (c : Uint256) (outs : List GOut) : Int := (outs.map (outValue c)).sum

/-- A currency tag held as a left-padded name: trimming the zero bytes and padding the name
again gives the tag back. -/
def Canonical (cur : Uint256) : Prop :=
  bytesToHash (leftPadBytes (trimZero cur.val) 32) = cur

instance (cur : Uint256) : Decidable (Canonical cur) :=
  inferInstanceAs (Decidable (bytesToHash (leftPadBytes (trimZero cur.val) 32) = cur))

/-- What the buckets of a currency map are worth in the currency `c` once they are emitted as
outputs. -/
def bucketSum (c : Uint256) (amounts : List (Bytes × Int)) : Int :=
  (amounts.map (fun e => if bytesToHash (leftPadBytes e.1 32) = c then e.2 else 0)).sum

/-- The transaction parameter that `buildTxParam` returns in scenario 3: one input, 600 to
`bob` and a change of 400 to the main subaddress of `alice`. -/
def txC5 : GenTxParam :=
  { Gas := 21000, GasPrice := 1000000000,
    From := { SKr := PKr.ofCopy [], PKr := alice.mainPkr },
    Ins := [{ SKr := PKr.ofCopy [], Out := { Root := fill256 7, State := demoRootState },
              Witness := { data := (fill256 7).val } }],
    Outs := [tokenOut bob SERO 600, tokenOut alice.mainPkr SERO 400] }

/-- The request of scenario 3 of the specification: 600 `SERO` to `addr`, gas 21000 at a gas
price of `10^9`, inputs left to the selection. -/
def scenario3Param (pk : Uint512) (addr : PKr) : TxParam :=
  { From := pk, Receptions := [{ Addr := addr, Currency := SERO, Value := 600 }],
    Gas := 21000, GasPrice := 1000000000, Roots := [] }

/-! ## Notions used in the statements about the index -/

/-- Index stores reachable from the empty store: each step is the commit that
`fetchAndIndexUxto` makes for a scan window (decrypted UTXOs and published nullifiers), with
the batch built by `indexBlocks`. -/
inductive Reachable (env : Env) : Store → Prop
  | empty : Reachable env []
  | commit (ex ex1 : Exchange) (pks : List Uint512) (num : Nat)
      (uxtos : List (PkrKey × List Uxto)) (nils : List Uint256) :
      Reachable env ex.db → commitWindow env ex pks num uxtos nils = some ex1 →
      Reachable env ex1.db

/-- Referential integrity of the index: every entry `PK || pk || asset || root` has a record
`ROOT || root`, and every alias `NIL || x` holds a key `PK || pk || asset || root` whose record
`ROOT || root` exists. -/
def IndexSound (s : Store) : Prop :=
  (∀ (pk : Uint512) (cur root : Uint256),
      s.get (uxtoPkKey pk cur.val (some root)) ≠ none → s.get (rootKey root) ≠ none) ∧
  (∀ (n : Uint256) (v : Bytes), s.get (nilKey n) = some v →
      ∃ (pk : Uint512) (cur root : Uint256),
        v = uxtoPkKey pk cur.val (some root) ∧ s.get (rootKey root) ≠ none)

/-- Every alias `NIL || x` of the store holds a key of the form `PK || pk || asset || root`. -/
def NilsHoldPkKeys (s : Store) : Prop :=
  ∀ (n : Uint256) (v : Bytes), s.get (nilKey n) = some v →
    ∃ (pk : Uint512) (cur root : Uint256), v = uxtoPkKey pk cur.val (some root)

/-- The published nullifiers that the second loop of `indexBlocks` does not find in `ops` and
looks up in the store. -/
def nilsElse : List Uint256 → List (Bytes × Bytes) → List Uint256
  | [], _ => []
  | n :: rest, ops =>
    match mapGet ops (bytes2Hex (nilKey n)) with
    | some value => nilsElse rest (mapDel (mapDel ops (bytes2Hex (nilKey n))) value)
    | none => n :: nilsElse rest ops

/-- The map `ops` after the second loop of `indexBlocks`. -/
def nilsOps : List Uint256 → List (Bytes × Bytes) → List (Bytes × Bytes)
  | [], ops => ops
  | n :: rest, ops =>
    match mapGet ops (bytes2Hex (nilKey n)) with
    | some value => nilsOps rest (mapDel (mapDel ops (bytes2Hex (nilKey n))) value)
    | none => nilsOps rest ops

/-- The deletions that the second loop of `indexBlocks` adds to the batch for the nullifiers
it looks up in the store. -/
def delsOf (db : Store) : List Uint256 → Batch
  | [] => []
  | n :: rest =>
    match db.get (nilKey n) with
    | some data => BatchOp.del data :: BatchOp.del (nilKey n) :: delsOf db rest
    | none => delsOf db rest

/-- The writes of the last loop of `indexBlocks`. -/
def opsPuts (ops : List (Bytes × Bytes)) : Batch :=
  ops.map (fun e => BatchOp.put (hex2Bytes e.1) (hex2Bytes e.2))

/-- The writes of the cursor in `fetchAndIndexUxto`. -/
def numPuts (pks : List Uint512) (num : Nat) : Batch :=
  pks.map (fun pk => BatchOp.put (numKey pk) (encodeNumber num))

/-- The first of two optional values that is present. -/
def firstSome {α : Type} (a b : Option α) : Option α :=
  match a with
  | some r => some r
  | none => b

/-- The effect of one operation on a key: `none` when it names another key. -/
def BatchOp.effectOn (op : BatchOp) (k : Bytes) : Option (Option Bytes) :=
  match op with
  | .put k' v => if k' = k then some (some v) else none
  | .del k' => if k' = k then some none else none

/-- The effect of a batch on a key: `none` when no operation names the key, otherwise what the
last operation on the key leaves there. -/
def Batch.effect : Batch → Bytes → Option (Option Bytes)
  | [], _ => none
  | op :: rest, k => firstSome (Batch.effect rest k) (op.effectOn k)

/-- A write of the first loop of `indexBlocks`: a `ROOT` record or a `PKR` list. -/
def IsIndexPut (op : BatchOp) : Prop :=
  (∃ (r : Uint256) (data : Bytes), op = BatchOp.put (rootKey r) data) ∨
  (∃ (pkr : PKr) (n : Nat) (data : Bytes), op = BatchOp.put (uxtoPkrKey pkr n) data)

/-- An entry of the map `ops` of `indexBlocks`: the hexadecimal text of a `PK` key with the
marker, or of an alias with its `PK` key, for a root whose record the batch writes. -/
def OpsEntryOk (batch : Batch) (e : Bytes × Bytes) : Prop :=
  ∃ (pk : Uint512) (cur root : Uint256) (data : Bytes),
    BatchOp.put (rootKey root) data ∈ batch ∧
    ((e.1 = bytes2Hex (uxtoPkKey pk cur.val (some root)) ∧ e.2 = bytes2Hex [0]) ∨
     (∃ n : Uint256, e.1 = bytes2Hex (nilKey n) ∧
        e.2 = bytes2Hex (uxtoPkKey pk cur.val (some root))))

/-- The decrypted window of the block served by `envC10`. -/
def windowC10 : List (PkrKey × List Uxto) :=
  [(aliceKey,
    [{ Root := fill256 7, TxHash := fill256 0, Nil := fill256 8, Num := 5,
       Asset := { Tkn := some { Currency := seroCurrency, Value := 10 }, Tkt := none }, flag := 0 },
     { Root := fill256 10, TxHash := fill256 0, Nil := fill256 11, Num := 5,
       Asset := { Tkn := some { Currency := seroCurrency, Value := -1 }, Tkt := none },
       flag := 0 }])]

/-- The index after the UTXO of scenario 3 is scanned (window of block 5) and its nullifier
is published (window of block 6). -/
def exC8 : Exchange := (commitWindow demoEnv exC5 [alicePk] 7 [] [fill256 9]).getD exC5

/-- The roots whose `ROOT` record a batch writes are present in a store. -/
def RootsPresent (b : Batch) (t : Store) : Prop :=
  ∀ (root : Uint256) (data : Bytes), BatchOp.put (rootKey root) data ∈ b →
    t.get (rootKey root) ≠ none

/-- The key that an operation of a batch names. -/
def BatchOp.key : BatchOp → Bytes
  | .put k _ => k
  | .del k => k

/-- The batch that `indexBlocks` builds for a window on a store, as `fetchAndIndexUxto` calls
it: nothing for an empty window, the writes made before an encoding error, and otherwise the
`ROOT` and `PKR` writes, the deletions for the published nullifiers and the writes of `ops`.
`none` on a panic. -/
def windowBatch (env : Env) (db : Store) (uxtos : List (PkrKey × List Uxto))
    (nils : List Uint256) : Option Batch :=
  if uxtos.length > 0 ∨ nils.length > 0 then
    match indexGroups env uxtos [] [] with
    | none => none
    | some (some _, b1, _) => some b1
    | some (none, b1, ops) =>
      some (b1 ++ delsOf db (nilsElse nils ops) ++ opsPuts (nilsOps nils ops))
  else some []

/-- The window of C9: one UTXO with root `fill256 7` and the published nullifier `fill256 12`. -/
def windowC9 : List (PkrKey × List Uxto) := [(aliceKey, [mkUxto 7 9 seroCurrency 10])]

/-- The store of `exC9` after the window of C9 is committed once. -/
def exC9once : Exchange :=
  (commitWindow demoEnv exC9 [alicePk] 6 windowC9 [fill256 12]).getD exC9

/-- The store of `exC9` after the window of C9 is committed twice. -/
def exC9twice : Exchange :=
  (commitWindow demoEnv exC9once [alicePk] 6 windowC9 [fill256 12]).getD exC9once

/-- The index of scenario 3 after a window that brings a second UTXO and publishes the
nullifier of the first. -/
def exC9next : Exchange :=
  (commitWindow demoEnv exC5 [alicePk] 7 [(aliceKey, [mkUxto 10 11 seroCurrency 4])]
    [fill256 9]).getD exC5

/-! ## Subaddresses, wallet events and balances -/

/-- The method `Exchange.GetPkr`: the subaddress and the error. -/
def GetPkr (env : Env) (ex : Exchange) (pk : Uint512) (index : Nat) : PKr × Option String :=
  if index < 100 then (PKr.ofCopy [], some "index must > 100")
  else
    match mapGet ex.accounts pk with
    | none => (PKr.ofCopy [], some "not found Pk")
    | some _ => (createPkr env pk index, none)

/-- A wallet as the exchange reads it: its handle, and the address and the viewing key of its
first account, both already converted by `ToUint512`. -/
structure Wallet where
  handle : Nat
  address : Uint512
  tk : Uint512
deriving DecidableEq

/-- The wallet events of the account manager. -/
inductive WalletEvent where
  | arrived (w : Wallet)
  | opened (w : Wallet)
  | dropped (w : Wallet)
deriving DecidableEq

/-- The method `Exchange.initWallet`. -/
def initWallet (env : Env) (ex : Exchange) (w : Wallet) : Exchange :=
  let account : Account :=
    { wallet := w.handle, pk := w.address, tk := w.tk, sk := none, skr := PKr.ofCopy w.tk.val,
      mainPkr := createPkr env w.address 1 }
  { ex with accounts := mapSet ex.accounts w.address account,
            numbers := mapSet ex.numbers w.address 1 }

/-- One turn of the loop of `Exchange.updateAccount` on a wallet event. -/
def updateAccount (env : Env) (ex : Exchange) : WalletEvent → Exchange
  | WalletEvent.arrived w => initWallet env ex w
  | WalletEvent.dropped w => { ex with numbers := mapDel ex.numbers w.address }
  | WalletEvent.opened _ => ex

/-- The update of a balance map by a token value, as in `GetBalances` and `initAccount`. -/
def addBalance (balances : List (Bytes × Int)) (currency : Bytes) (value : Int) :
    List (Bytes × Int) :=
  match mapGet balances currency with
  | some amount => mapSet balances currency (amount + value)
  | none => mapSet balances currency value

/-- The loop of the first branch of `GetBalances` over the entries under `"PK" ++ pk`; `none`
when the slice `key[98:130]` is out of range. A key shorter than 130 bytes is taken to panic
(capacity equal to length). -/
def balancesLoop (env : Env) (ex : Exchange) :
    List (Bytes × Bytes) → List (Bytes × Int) → Option (List (Bytes × Int))
  | [], balances => some balances
  | (key, _) :: rest, balances =>
    if key.length < 130 then none
    else
      match getUxto env ex (keyRoot key) with
      | .error _ => balancesLoop env ex rest balances
      | .ok uxto =>
        match uxto.Asset.Tkn with
        | none => balancesLoop env ex rest balances
        | some tkn =>
          balancesLoop env ex rest
            (addBalance balances (env.bytesToString tkn.Currency.val) tkn.Value)

/-- The method `Exchange.isMyPkr`. -/
def isMyPkr (env : Env) (ex : Exchange) (pkr : PKr) : Option Account :=
  (ex.accounts.find? (fun e => env.isMyPKr e.2.tk pkr)).map (fun e => e.2)

/-- The inner loop of `iteratorUxto` over the roots of one list: the handled UTXOs and whether
the iteration goes on (an error of `getUxto` ends it). -/
def iteratorRoots (env : Env) (ex : Exchange) : List Uint256 → List Uxto → List Uxto × Bool
  | [], handled => (handled, true)
  | root :: rest, handled =>
    match getUxto env ex root with
    | .error _ => (handled, false)
    | .ok uxto => iteratorRoots env ex rest (handled ++ [uxto])

/-- The loop of `iteratorUxto` over the entries from the sought key on: the UTXOs passed to the
handler, in order, and the error; `none` when the slice `key[99:107]` is out of range. -/
def iteratorLoop (env : Env) (ex : Exchange) (end_ : Nat) :
    List (Bytes × Bytes) → List Uxto → Option (List Uxto × Option String)
  | [], handled => some (handled, none)
  | (key, value) :: rest, handled =>
    match decodeNumber ((key.drop 99).take 8) with
    | none => none
    | some num =>
      if num > end_ then some (handled, none)
      else
        match env.decodeRoots value with
        | none => some (handled, some "rlp: decode")
        | some roots =>
          match iteratorRoots env ex roots handled with
          | (handled, false) => some (handled, none)
          | (handled, true) => iteratorLoop env ex end_ rest handled

/-- The method `Exchange.iteratorUxto`, with the handler calls returned as a list. -/
def iteratorUxto (env : Env) (ex : Exchange) (pkr : PKr) (begin_ end_ : Nat) :
    Option (List Uxto × Option String) :=
  let entries := ex.db.iterPrefix (pkrPrefix ++ pkr.val)
  let sought := uxtoPkrKey pkr begin_
  iteratorLoop env ex end_ (entries.dropWhile (fun e => bytesLt e.1 sought)) []

/-- The handler that `initAccount` passes to `iteratorUxto`. -/
def initHandler (env : Env) (account : PkrAccount) (uxto : Uxto) : PkrAccount :=
  match uxto.Asset.Tkn with
  | none => account
  | some tkn =>
    { account with
      balances :=
        addBalance account.balances (env.toUpper (env.bytesToString tkn.Currency.val)) tkn.Value,
      num := uxto.Num }

/-- The method `Exchange.initAccount`: the exchange afterwards, or `none` on a panic. -/
def initAccount (env : Env) (ex : Exchange) (pkr : PKr) : Option Exchange :=
  match isMyPkr env ex pkr with
  | none => some ex
  | some _ =>
    let account : PkrAccount :=
      match mapGet ex.pkrAccounts pkr with
      | some value => value
      | none => { Pkr := pkr, balances := [], num := 0 }
    match iteratorUxto env ex pkr ((account.num + 1) % 2 ^ 64) (2 ^ 64 - 1) with
    | none => none
    | some (handled, _) =>
      some { ex with
             pkrAccounts := mapSet ex.pkrAccounts pkr (handled.foldl (initHandler env) account) }

/-- The method `Exchange.GetBalances`: the balances and the exchange afterwards, or `none` on a
panic. The guard `inits` only keeps two calls for one subaddress from running `initAccount` at
the same time; one call alone always runs it. -/
def GetBalances (env : Env) (ex : Exchange) (pkr : PKr) :
    Option (List (Bytes × Int) × Exchange) :=
  match mapGet ex.accounts pkr.toUint512 with
  | some account =>
    (balancesLoop env ex (ex.db.iterPrefix (pkPrefix ++ account.pk.val)) []).map
      (fun balances => (balances, ex))
  | none =>
    match initAccount env ex pkr with
    | none => none
    | some ex1 =>
      match mapGet ex1.pkrAccounts pkr with
      | some value => some (value.balances, ex1)
      | none => some ([], ex1)
/-! ## The scanner tick -/

/-- How a run of a loop of the scanner ends: it returns, it panics, or the given number of
turns does not suffice. -/
inductive Tick where
  | done (ex : Exchange)
  | panicked
  | outOfFuel

/-- The grouping of the cursors by value at the head of `fetchBlockInfo`. -/
def groupByCursor :
    List (Uint512 × Nat) → List (Nat × List Uint512) → List (Nat × List Uint512)
  | [], indexs => indexs
  | (pk, num) :: rest, indexs =>
    match mapGet indexs num with
    | some list => groupByCursor rest (mapSet indexs num (list ++ [pk]))
    | none => groupByCursor rest (mapSet indexs num [pk])

/-- The inner loop `for { if self.fetchAndIndexUxto(num, pks) < 1000 { break } }` of
`fetchBlockInfo`, run for at most the given number of turns. Every turn passes the same `num`:
the loop variable is not assigned in the body. -/
def scanGroup (env : Env) : Nat → Exchange → Nat → List Uint512 → Tick
  | 0, _, _, _ => Tick.outOfFuel
  | fuel + 1, ex, num, pks =>
    match fetchAndIndexUxto env ex num pks with
    | none => Tick.panicked
    | some (count, ex1) => if count < 1000 then Tick.done ex1 else scanGroup env fuel ex1 num pks

/-- The outer loop of `fetchBlockInfo` over the cursor groups. -/
def scanGroups (env : Env) (fuel : Nat) : Exchange → List (Nat × List Uint512) → Tick
  | ex, [] => Tick.done ex
  | ex, (num, pks) :: rest =>
    match scanGroup env fuel ex num pks with
    | Tick.done ex1 => scanGroups env fuel ex1 rest
    | Tick.panicked => Tick.panicked
    | Tick.outOfFuel => Tick.outOfFuel

/-- The method `Exchange.fetchBlockInfo`, with at most `fuel` turns of the inner loop for each
group. -/
def fetchBlockInfo (env : Env) (fuel : Nat) (ex : Exchange) : Tick :=
  scanGroups env fuel ex (groupByCursor ex.numbers [])

/-- The starts of the windows that the inner loop of `fetchBlockInfo` fetches in its first
turns, in order. -/
def windowStarts (env : Env) : Nat → Exchange → Nat → List Uint512 → List Nat
  | 0, _, _, _ => []
  | fuel + 1, ex, num, pks =>
    match fetchAndIndexUxto env ex num pks with
    | none => [num]
    | some (count, ex1) => if count < 1000 then [num] else num :: windowStarts env fuel ex1 num pks

/-! ## The merge job -/

/-- The method `Exchange.genTx`: the pair it returns, the reserved-spent set and the account
afterwards (the spending key is fetched once and kept), or `none` on a panic. -/
def genTx (env : Env) (usedFlag : List (FlagKey × Int)) (uxtos : List Uxto) (account : Account)
    (receptions : List Reception) (gas gasPrice : Nat) :
    Option ((Option GTx × Option String) × List (FlagKey × Int) × Account) :=
  match buildTxParam env usedFlag uxtos account receptions gas gasPrice with
  | none => none
  | some (_, some err, usedFlag) => some ((none, some err), usedFlag, account)
  | some (txParam, none, usedFlag) =>
    let fetched : Option PKr :=
      match account.sk with
      | some sk => some sk
      | none => (env.walletSk account.wallet).map (fun sk => PKr.ofCopy sk.val)
    match fetched with
    | none => some ((none, some "GetSeed"), usedFlag, account)
    | some sk =>
      let account := { account with sk := some sk }
      let txParam :=
        { txParam with From := { txParam.From with SKr := sk },
                       Ins := txParam.Ins.map (fun i => { i with SKr := sk }) }
      match env.sliGenTx txParam with
      | none => some ((none, some "GenTx"), usedFlag, account)
      | some gtx => some ((some gtx, none), usedFlag, account)

/-- The method `Exchange.commitTx`: the pool afterwards. -/
def commitTx (env : Env) (pool : List GTx) (tx : GTx) : List GTx :=
  if env.addLocal tx then pool ++ [tx] else pool

/-- The candidate loop of `merge` over the entries under `"PK" ++ pk ++ "SERO"`; `none` when
the slice `key[98:130]` is out of range. A key shorter than 130 bytes is taken to panic
(capacity equal to length). -/
def mergeCollect (env : Env) (ex : Exchange) :
    List (Bytes × Bytes) → List Uxto → Option (List Uxto)
  | [], uxtos => some uxtos
  | (key, _) :: rest, uxtos =>
    if key.length < 130 then none
    else
      let uxtos :=
        match getUxto env ex (keyRoot key) with
        | .ok uxto => uxtos ++ [uxto]
        | .error _ => uxtos
      if uxtos.length > 150 then some uxtos else mergeCollect env ex rest uxtos

/-- The sum of the token values of the inputs in `merge`; `none` on a `nil` token. -/
def mergeAmount : List Uxto → Option Int
  | [] => some 0
  | uxto :: rest =>
    match uxto.Asset.Tkn with
    | none => none
    | some tkn => (mergeAmount rest).map (fun amount => tkn.Value + amount)

/-- The arguments of the call of `genTx` in `merge`. -/
structure MergeCall where
  uxtos : List Uxto
  receptions : List Reception
  gas : Nat
  gasPrice : Nat
deriving DecidableEq

/-- The part of the body of the loop of `merge` that prepares the call of `genTx` for the
account under the map key `key`: `some none` when the account is passed over, `none` on a
panic. -/
def mergeCall (env : Env) (ex : Exchange) (key : Uint512) (account : Account) :
    Option (Option MergeCall) :=
  match mergeCollect env ex (ex.db.iterPrefix (uxtoPkKey key (leftPadBytes SERO 32) none)) []
    with
  | none => none
  | some uxtos =>
    if uxtos.length ≤ 10 then some none
    else
      match env.sortUxtos uxtos with
      | none => none
      | some sorted =>
        let uxtos := sorted.take (sorted.length - 8)
        if uxtos.length > 1 then
          match mergeAmount uxtos with
          | none => none
          | some amount =>
            some (some
              { uxtos := uxtos,
                receptions :=
                  [{ Addr := account.mainPkr, Currency := SERO,
                     Value := amount - 25000 * 1000000000 }],
                gas := 25000, gasPrice := 1000000000 })
        else some none

/-- The loop of `merge` over the accounts. -/
def mergeLoop (env : Env) : List (Uint512 × Account) → Exchange → Option Exchange
  | [], ex => some ex
  | (key, account) :: rest, ex =>
    match mergeCall env ex key account with
    | none => none
    | some none => mergeLoop env rest ex
    | some (some call) =>
      match genTx env ex.usedFlag call.uxtos account call.receptions call.gas call.gasPrice with
      | none => none
      | some ((gtx, _), usedFlag, account) =>
        let ex := { ex with usedFlag := usedFlag, accounts := mapSet ex.accounts key account }
        match gtx with
        | none => mergeLoop env rest ex
        | some gtx => mergeLoop env rest { ex with pool := commitTx env ex.pool gtx }

/-- The method `Exchange.merge`: the exchange afterwards, or `none` on a panic. -/
def merge (env : Env) (ex : Exchange) : Option Exchange :=
  mergeLoop env ex.accounts ex

/-! ## The command `Confirm` -/

/-- What `Confirm` hands to `OUTPUT_RESULT` or to `OUTPUT_ERROR` (the tag of the error). -/
inductive ConfirmOut where
  | result (s : Bytes)
  | error (tag : String)
deriving DecidableEq

/-- Collaborators of `Confirm` that live outside `confirm.go`. -/
structure ConfirmEnv where
  /-- The call `hexutil.Decode`; `none` is an error. -/
  hexDecode : Bytes → Option Bytes
  /-- The call `json.Unmarshal` into an `Out_Z`; `none` is an error. -/
  unmarshal : Bytes → Option Out_Z
  /-- The call `flight.ConfirmOutZ`; `none` is the `nil` result. -/
  confirmOutZ : Uint256 → Out_Z → Option DOut
  /-- The call `json.Marshal`; `none` is an error. -/
  marshal : DOut → Option Bytes

/-- Go `strings.Trim(s, cutset)` for a cutset of one byte. -/
def stringsTrim (s : Bytes) (c : Byte) : Bytes :=
  ((s.dropWhile (fun b => b = c)).reverse.dropWhile (fun b => b = c)).reverse

/-- An argument of `Confirm` that is read from the standard input when it is empty; the input
is the list of the results of the successive calls of `ReadString`, `none` for an error. -/
def readArg (stdin : List (Option Bytes)) (arg : Bytes) : Option Bytes × List (Option Bytes) :=
  if arg.length = 0 then
    match stdin with
    | some line :: rest => (some (stringsTrim line 10), rest)
    | _ => (none, stdin.tail)
  else (some arg, stdin)

/-- The function `Confirm`: what it outputs, or `none` when it panics (the index expression
`key_str[1]` on a string of fewer than two bytes). -/
def Confirm (cenv : ConfirmEnv) (stdin : List (Option Bytes)) (key_str out_str : Bytes) :
    Option ConfirmOut :=
  match readArg stdin key_str with
  | (none, _) => some (ConfirmOut.error "TK READ ERROR")
  | (some key_str, stdin) =>
    match readArg stdin out_str with
    | (none, _) => some (ConfirmOut.error "OUT READ ERROR")
    | (some out_str, _) =>
      let key_str := stringsTrim key_str 39
      let out_str := stringsTrim out_str 39
      match key_str with
      | _ :: c :: _ =>
        let key_str := if c ≠ 120 then [48, 120] ++ key_str else key_str
        match cenv.hexDecode key_str with
        | none => some (ConfirmOut.error "KeyDecode-")
        | some key_bs =>
          if key_bs.length = 32 then
            match cenv.unmarshal out_str with
            | none => some (ConfirmOut.error "Unmarshal-")
            | some out =>
              match cenv.confirmOutZ (Uint256.ofCopy key_bs) out with
              | none => some (ConfirmOut.error "Confirm OutZ Failed")
              | some dout =>
                match cenv.marshal dout with
                | some dout_bs => some (ConfirmOut.result dout_bs)
                | none => some (ConfirmOut.error "Marshal-")
          else some (ConfirmOut.error "key must 32 bytes")
      | _ => none

/-! ## Scenarios for wallet events, missing records, the tick and failed confirmations -/

/-- The wallet of `alice`. -/
def aliceWallet : Wallet := { handle := 0, address := alicePk, tk := alicePk }

/-- An index in which the root `7` is listed under the `SERO` prefix of `alice` and has no
`ROOT` record. -/
def exC19 : Exchange :=
  { db := [(uxtoPkKey alicePk seroCurrency.val (some (fill256 7)), [0])],
    accounts := [(alicePk, alice)], usedFlag := [], numbers := [(alicePk, 1)] }

/-- A request that names its input by a root. -/
def paramC19 (root : Uint256) : TxParam :=
  { From := alicePk, Receptions := [{ Addr := bob, Currency := SERO, Value := 0 }],
    Gas := 0, GasPrice := 0, Roots := [root] }

/-- A block without outputs and nullifiers. -/
def emptyBlock (num : Nat) : Block :=
  { Num := num, Hash := Uint256.zero, Outs := [], Nils := [] }

/-- A chain reader that serves a chain of 2500 empty blocks, of heights 1 to 2500: at most
`count` blocks from the height `start` on. -/
def envC18 : Env :=
  { demoEnv with
    getBlocksInfo := fun start count =>
      some ((List.range (min count (2501 - start))).map (fun i => emptyBlock (start + i))) }

/-- The encrypted form of an output addressed to the main subaddress of `alice`. -/
def zC20 : Out_Z := { PKr := alice.mainPkr, RPK := fill256 0, EInfo := [] }

/-- An encrypted output of block 5 addressed to the main subaddress of `alice`. -/
def outZC20 : Out :=
  { Root := fill256 12,
    State :=
      { OS := { Out_O := none, Out_Z := some zC20, RootCM := some (fill256 13) },
        TxHash := fill256 0, Num := 5 } }

/-- A chain reader that serves one block at height 5 with the given outputs; the trial
decryption of `demoEnv` fails on every encrypted output. -/
def envC20 (outs : List Out) : Env :=
  { demoEnv with
    getBlocksInfo := fun start _ =>
      if start = 5 then some [{ Num := 5, Hash := fill256 0, Outs := outs, Nils := [] }]
      else some [] }

/-- The UTXO that `fetchAndIndexUxto` makes of `outZC20` after the failed confirmation. -/
def uxtoC20 : Uxto :=
  { Root := fill256 12, TxHash := fill256 0, Nil := Uint256.zero, Num := 5,
    Asset := { Tkn := none, Tkt := none }, flag := 0 }

/-! ## Scenario and notions for the balances -/

/-- An environment whose subaddress derivation does not leave the public key in the first 64
bytes of the subaddress: the 32 bytes of the randomness come first. -/
def envC11 : Env :=
  { demoEnv with
    addr2PKr := fun pk r => PKr.ofCopy (r.val ++ pk.val)
    isMyPKr := fun tk pkr => decide (pkr.val.drop 32 = tk.val) }

def carolPk : Uint512 := fill512 3

def carol : Account :=
  { wallet := 1, pk := carolPk, tk := carolPk, sk := none, skr := PKr.ofCopy carolPk.val,
    mainPkr := createPkr envC11 carolPk 1 }

def carolKey : PkrKey := { account := carol, pkr := carol.mainPkr, num := 5 }

/-- The exchange after `carol` has received 1000 `SERO` at her main subaddress in block 5. -/
def exC11 : Exchange :=
  (commitWindow envC11
    { db := [], accounts := [(carolPk, carol)], usedFlag := [], numbers := [(carolPk, 1)] }
    [carolPk] 6 [(carolKey, [mkUxto 7 9 seroCurrency 1000])] []).getD
    { db := [], accounts := [], usedFlag := [], numbers := [] }

/-- The exchange after the nullifier of that UTXO has been scanned in block 6. -/
def exC11spent : Exchange :=
  (commitWindow envC11 exC11 [carolPk] 7 [] [fill256 9]).getD exC11

/-- The token value that the entry `key` under `"PK" ++ pk` adds to the balance of the currency
name `name` in the first branch of `GetBalances`: `0` unless the record of its root decodes to
a token whose currency tag reads as `name`. -/
def nameValue (env : Env) (ex : Exchange) (name : Bytes) (key : Bytes) : Int :=
  match getUxto env ex (keyRoot key) with
  | .error _ => 0
  | .ok uxto =>
    match uxto.Asset.Tkn with
    | none => 0
    | some tkn => if env.bytesToString tkn.Currency.val = name then tkn.Value else 0

/-- The total of `nameValue` over a list of entries. -/
def nameTotal (env : Env) (ex : Exchange) (name : Bytes) (entries : List (Bytes × Bytes)) : Int :=
  (entries.map (fun e => nameValue env ex name e.1)).sum

/-- The balance that a balance map gives for a name, `0` when the name is absent. -/
def balanceOf (balances : List (Bytes × Int)) (name : Bytes) : Int :=
  (mapGet balances name).getD 0

/-! ## Scenario and notions for the merge job -/

/-- The UTXO that `getUxto` returns for the root of a key, the zero UTXO on an error. -/
def candidate (env : Env) (ex : Exchange) (key : Bytes) : Uxto :=
  match getUxto env ex (keyRoot key) with
  | .ok uxto => uxto
  | .error _ => Uxto.zero

/-- The token value of the entry `key` when it is a free candidate of `merge`: the key has 130
bytes or more, the record of its root decodes to a token and the UTXO is not reserved. -/
def freeValue (env : Env) (ex : Exchange) (key : Bytes) : Option Int :=
  if key.length < 130 then none
  else
    match getUxto env ex (keyRoot key) with
    | .ok uxto => if uxto.flag = 0 then uxto.Asset.Tkn.map (fun tkn => tkn.Value) else none
    | .error _ => none

/-- The contract of `sort.Sort` on UTXOs with tokens: it returns a permutation of its input in
which no later element is `Less` than an earlier one. -/
def SortsByLess (env : Env) : Prop :=
  ∀ l : List Uxto, (∀ u ∈ l, u.Asset.Tkn ≠ none) →
    ∃ s, env.sortUxtos l = some s ∧ s.Perm l ∧
      s.Pairwise (fun a b => UxtoList.Less b a ≠ some true)

/-- The entries that `merge` iterates for the account under the map key `key`. -/
def mergeEntries (ex : Exchange) (key : Uint512) : List (Bytes × Bytes) :=
  ex.db.iterPrefix (uxtoPkKey key (leftPadBytes SERO 32) none)

/-- The root of the `i`-th UTXO of the merge scenario. -/
def rootC14 (i : Nat) : Uint256 := Uint256.ofCopy [Fin.ofNat i]

/-- The `i`-th UTXO of the merge scenario: the first 8 hold `10^9`, the other ones hold 1. -/
def uxtoC14 (i : Nat) : Uxto :=
  { Root := rootC14 i, TxHash := fill256 0, Nil := Uint256.ofCopy [1, Fin.ofNat i], Num := 5,
    Asset := { Tkn := some { Currency := seroCurrency,
                             Value := if i < 8 then 1000000000 else 1 },
               Tkt := none },
    flag := 0 }

/-- An exchange whose `SERO` index of `alice` holds 8 UTXOs of amount `10^9` and 150 UTXOs of
amount 1, none of them reserved. -/
def exC14 : Exchange :=
  { db := (List.range 158).map (fun i =>
            (uxtoPkKey alicePk seroCurrency.val (some (rootC14 i)), [0]))
          ++ (List.range 158).map (fun i =>
            (rootKey (rootC14 i), (demoEncodeUxto (uxtoC14 i)).getD [])),
    accounts := [(alicePk, alice)], usedFlag := [], numbers := [(alicePk, 6)] }

/-- The reception of the self-transfer that `merge` asks for in the merge scenario. -/
def receptionC14 (account : Account) : Reception :=
  { Addr := account.mainPkr, Currency := SERO, Value := 143 - 25000 * 1000000000 }

/-! ## Scenarios for the gas price, tickets and the key namespaces -/

/-- A UTXO of `2^63` `SERO`. -/
def uxtoC27 : Uxto := mkUxto 7 9 seroCurrency 9223372036854775808

/-- A UTXO whose asset carries only a ticket. -/
def uxtoC25 : Uxto :=
  { Root := fill256 7, TxHash := fill256 0, Nil := fill256 9, Num := 5,
    Asset := { Tkn := none, Tkt := some { Category := fill256 3, Value := fill256 4 } },
    flag := 0 }

/-- A public key whose first byte is the letter `R` and whose other bytes are `5`. -/
def pkC26 : Uint512 := ⟨82 :: List.replicate 63 5, by simp⟩

/-- The account of the public key `pkC26`. -/
def daveC26 : Account :=
  { wallet := 2, pk := pkC26, tk := pkC26, sk := none, skr := PKr.ofCopy pkC26.val,
    mainPkr := createPkr demoEnv pkC26 1 }

/-- An index that holds one `PKR` list, of the subaddress `fillPKr 5` at block 6, and the
account of `pkC26`. -/
def exC26 : Exchange :=
  { db := [(uxtoPkrKey (fillPKr 5) 6, [])], accounts := [(pkC26, daveC26)], usedFlag := [],
    numbers := [(pkC26, 7)] }

/-! ## Scenario for the coins that the merge job keeps -/

/-- The `i`-th UTXO of the scenario: the first 8 hold 1, the other ones hold 100. -/
def uxtoC24 (i : Nat) : Uxto :=
  { Root := rootC14 i, TxHash := fill256 0, Nil := Uint256.ofCopy [1, Fin.ofNat i], Num := 5,
    Asset := { Tkn := some { Currency := seroCurrency, Value := if i < 8 then 1 else 100 },
               Tkt := none },
    flag := 0 }

/-- An exchange whose `SERO` index of `alice` holds 8 reserved UTXOs of amount 1 and 3 free
UTXOs of amount 100. -/
def exC24 : Exchange :=
  { db := (List.range 11).map (fun i =>
            (uxtoPkKey alicePk seroCurrency.val (some (rootC14 i)), [0]))
          ++ (List.range 11).map (fun i =>
            (rootKey (rootC14 i), (demoEncodeUxto (uxtoC24 i)).getD [])),
    accounts := [(alicePk, alice)],
    usedFlag := (List.range 8).map (fun i => (FlagKey.u256 (uxtoC24 i).Nil, 1)),
    numbers := [(alicePk, 6)] }

/-- The candidates that `merge` collects for the account under the map key `key`. -/
def mergeCandidates (env : Env) (ex : Exchange) (key : Uint512) : List Uxto :=
  ((mergeEntries ex key).take 151).map (fun e => candidate env ex e.1)

/-! ## Notions for the selection order of `findUxtos` -/

/-- The UTXOs of the listed entries that are not in the reserved-spent set, in iteration
order. -/
def freeOf (env : Env) (ex : Exchange) (entries : List (Bytes × Bytes)) : List Uxto :=
  entries.filterMap (fun e =>
    match getUxto env ex (keyRoot e.1) with
    | .ok uxto =>
      match mapGet ex.usedFlag (FlagKey.u256 uxto.Nil) with
      | none => some uxto
      | some _ => none
    | .error _ => none)

/-- The UTXOs of the listed entries that are in the reserved-spent set, in iteration order. -/
def reservedOf (env : Env) (ex : Exchange) (entries : List (Bytes × Bytes)) : List Uxto :=
  entries.filterMap (fun e =>
    match getUxto env ex (keyRoot e.1) with
    | .ok uxto =>
      match mapGet ex.usedFlag (FlagKey.u256 uxto.Nil) with
      | none => none
      | some _ => some uxto
    | .error _ => none)

/-- The entries that `findUxtos` iterates for a public key and a currency name. -/
def findEntries (env : Env) (ex : Exchange) (pk : Uint512) (currency : Bytes) :
    List (Bytes × Bytes) :=
  ex.db.iterPrefix (findPrefix env pk currency)

/-- The index of scenario 3 with three UTXOs of 3, 4 and 5 `SERO`, the last two reserved. -/
def exC23 : Exchange :=
  { scanned [mkUxto 7 9 seroCurrency 3, mkUxto 10 11 seroCurrency 4,
             mkUxto 13 14 seroCurrency 5] [] ex0 with
    usedFlag := [(FlagKey.u256 (fill256 11), 1), (FlagKey.u256 (fill256 14), 1)] }

/-! ## Notions for the index entries of scanned UTXOs -/

/-- The UTXOs of a window, each with the public key of the account it is indexed for. -/
def windowUxtos (uxtos : List (PkrKey × List Uxto)) : List (Uint512 × Uxto) :=
  (uxtos.map (fun g => g.2.map (fun u => (g.1.account.pk, u)))).flatten

/-- Two UTXOs have a root or a nullifier in common. -/
def SharesId (u v : Uxto) : Prop :=
  u.Nil = v.Nil ∨ u.Nil = v.Root ∨ u.Root = v.Nil ∨ u.Root = v.Root

instance (u v : Uxto) : Decidable (SharesId u v) :=
  inferInstanceAs (Decidable (u.Nil = v.Nil ∨ u.Nil = v.Root ∨ u.Root = v.Nil ∨ u.Root = v.Root))

/-- Roots and nullifiers identify outputs: two scanned UTXOs that have a root or a nullifier in
common are one output, with the same root and nullifier and indexed under the same `PK` key. -/
def IdsUnique (l : List (Uint512 × Uxto)) : Prop :=
  ∀ a ∈ l, ∀ b ∈ l, SharesId a.2 b.2 →
    indexPkKey a.1 a.2 = indexPkKey b.1 b.2 ∧ a.2.Nil = b.2.Nil ∧ a.2.Root = b.2.Root

instance (l : List (Uint512 × Uxto)) : Decidable (IdsUnique l) :=
  inferInstanceAs (Decidable (∀ a ∈ l, ∀ b ∈ l, SharesId a.2 b.2 →
    indexPkKey a.1 a.2 = indexPkKey b.1 b.2 ∧ a.2.Nil = b.2.Nil ∧ a.2.Root = b.2.Root))

/-- Index stores reachable from the empty store, with their history: the UTXOs scanned so far
and the nullifiers published so far. Each step is the commit that `fetchAndIndexUxto` makes for
a scan window which `indexBlocks` indexes without an error, and roots and nullifiers identify
the outputs of the history. -/
inductive Scanned (env : Env) : Store → List (Uint512 × Uxto) → List Uint256 → Prop
  | empty : Scanned env [] [] []
  | commit (ex ex1 : Exchange) (pks : List Uint512) (num : Nat)
      (uxtos : List (PkrKey × List Uxto)) (nils : List Uint256)
      (seen : List (Uint512 × Uxto)) (published : List Uint256) :
      Scanned env ex.db seen published →
      commitWindow env ex pks num uxtos nils = some ex1 →
      (indexBlocks env ex [] uxtos nils).map (fun r => r.1) = some none →
      IdsUnique (seen ++ windowUxtos uxtos) →
      Scanned env ex1.db (seen ++ windowUxtos uxtos) (published ++ nils)

/-- An entry that the first loop of `indexBlocks` sets in `ops` for a UTXO: the `PK` key with
the marker, or one of the two aliases with the `PK` key. -/
def OpsOf (pk : Uint512) (u : Uxto) (e : Bytes × Bytes) : Prop :=
  e = (bytes2Hex (indexPkKey pk u), bytes2Hex [0]) ∨
  e = (bytes2Hex (nilKey u.Nil), bytes2Hex (indexPkKey pk u)) ∨
  e = (bytes2Hex (nilKey u.Root), bytes2Hex (indexPkKey pk u))

/-- The index entries of a scanned UTXO `a.2` of the account `a.1`: its record `ROOT || root`,
its entry `PK || pk || currency || root`, which is the only `PK` entry for that root, and the
aliases `NIL || nil` and `NIL || root`, which both hold that `PK` key. -/
def Indexed (s : Store) (a : Uint512 × Uxto) : Prop :=
  s.get (rootKey a.2.Root) ≠ none ∧
  (∃ tkn, a.2.Asset.Tkn = some tkn ∧
    s.get (uxtoPkKey a.1 tkn.Currency.val (some a.2.Root)) ≠ none ∧
    (∀ (pk : Uint512) (cur : Uint256),
      s.get (uxtoPkKey pk cur.val (some a.2.Root)) ≠ none →
      uxtoPkKey pk cur.val (some a.2.Root) = uxtoPkKey a.1 tkn.Currency.val (some a.2.Root)) ∧
    s.get (nilKey a.2.Nil) = some (uxtoPkKey a.1 tkn.Currency.val (some a.2.Root)) ∧
    s.get (nilKey a.2.Root) = some (uxtoPkKey a.1 tkn.Currency.val (some a.2.Root)))

/-- The operations of the batch that `fetchAndIndexUxto` commits for a window with the UTXOs
`W` and the published nullifiers `nils` on the store `s`: the `ROOT` records and `PKR` lists,
the cursor, the `PK` entries and aliases kept in `ops`, and the deletions for the published
nullifiers. -/
def WindowOp (s : Store) (W : List (Uint512 × Uxto)) (nils : List Uint256) (op : BatchOp) :
    Prop :=
  (∃ a ∈ W, ∃ data, op = BatchOp.put (rootKey a.2.Root) data) ∨
  (∃ pkr n data, op = BatchOp.put (uxtoPkrKey pkr n) data) ∨
  (∃ pk v, op = BatchOp.put (numKey pk) v) ∨
  (∃ a ∈ W, op = BatchOp.put (indexPkKey a.1 a.2) [0]) ∨
  (∃ a ∈ W, ∃ x, (a.2.Nil = x ∨ a.2.Root = x) ∧
    op = BatchOp.put (nilKey x) (indexPkKey a.1 a.2)) ∨
  (∃ x ∈ nils, op = BatchOp.del (nilKey x)) ∨
  (∃ x ∈ nils, ∃ data, s.get (nilKey x) = some data ∧ op = BatchOp.del data)

/-- What the index holds for a history of scanned UTXOs and published nullifiers: roots and
nullifiers identify the scanned outputs, each of which has a token; every `ROOT` record, `PK`
entry and alias belongs to a scanned UTXO; and a scanned UTXO of which neither the nullifier
nor the root is published has its record, its `PK` entry and both aliases. -/
def LedgerInv (s : Store) (seen : List (Uint512 × Uxto)) (published : List Uint256) : Prop :=
  IdsUnique seen ∧
  (∀ a ∈ seen, a.2.Asset.Tkn ≠ none) ∧
  (∀ root, s.get (rootKey root) ≠ none → ∃ a ∈ seen, a.2.Root = root) ∧
  (∀ (pk : Uint512) (cur root : Uint256), s.get (uxtoPkKey pk cur.val (some root)) ≠ none →
    ∃ a ∈ seen, indexPkKey a.1 a.2 = uxtoPkKey pk cur.val (some root)) ∧
  (∀ (x : Uint256) (v : Bytes), s.get (nilKey x) = some v →
    ∃ a ∈ seen, v = indexPkKey a.1 a.2 ∧ (a.2.Nil = x ∨ a.2.Root = x)) ∧
  (∀ a ∈ seen, a.2.Nil ∉ published → a.2.Root ∉ published →
    s.get (rootKey a.2.Root) ≠ none ∧ s.get (indexPkKey a.1 a.2) ≠ none ∧
    s.get (nilKey a.2.Nil) = some (indexPkKey a.1 a.2) ∧
    s.get (nilKey a.2.Root) = some (indexPkKey a.1 a.2))

/-! ## Theorems: input selection -/

theorem sumValues_append (a b : List Uxto) : sumValues (a ++ b) = sumValues a + sumValues b := by
  simp [sumValues]

theorem sumValues_single (u : Uxto) : sumValues [u] = uxtoValue u := by
  simp [sumValues]

theorem TokenRecord.elim {env : Env} {ex : Exchange} {key : Bytes}
    (h : TokenRecord env ex key) :
    130 ≤ key.length ∧
      ∃ u tkn, getUxto env ex (keyRoot key) = .ok u ∧ u.Asset.Tkn = some tkn ∧ 0 ≤ tkn.Value := by
  unfold TokenRecord tokenRecord at h
  rw [Bool.and_eq_true] at h
  obtain ⟨h1, h2⟩ := h
  refine ⟨of_decide_eq_true h1, ?_⟩
  cases hg : getUxto env ex (keyRoot key) with
  | error e => rw [hg] at h2; cases h2
  | ok u =>
    rw [hg] at h2
    cases ht : u.Asset.Tkn with
    | none => simp [ht] at h2
    | some tkn =>
      simp only [ht] at h2
      exact ⟨u, tkn, rfl, ht, of_decide_eq_true h2⟩

theorem insertUxto_perm (u : Uxto) : ∀ l : List Uxto, (insertUxto u l).Perm (u :: l) := by
  intro l
  induction l with
  | nil => exact List.Perm.refl _
  | cons v rest ih =>
    unfold insertUxto
    by_cases h : uxtoLe u v = true
    · simp [h]
    · simp only [h]
      exact ((List.Perm.cons v ih).trans (List.Perm.swap u v rest))

theorem demoSort_perm (l : List Uxto) (h : ∀ u ∈ l, u.Asset.Tkn ≠ none) :
    ∃ s, demoSort l = some s ∧ s.Perm l := by
  have hany : l.any (fun u => u.Asset.Tkn.isNone) = false := by
    rw [List.any_eq_false]
    intro u hu
    have := h u hu
    cases ht : u.Asset.Tkn with
    | none => exact absurd ht this
    | some _ => simp
  refine ⟨l.foldr insertUxto [], by simp [demoSort, hany], ?_⟩
  clear hany h
  induction l with
  | nil => exact List.Perm.refl _
  | cons u rest ih =>
    simp only [List.foldr_cons]
    exact (insertUxto_perm u _).trans (List.Perm.cons u ih)

theorem entriesTotal_nonneg (env : Env) (ex : Exchange) :
    ∀ entries : List (Bytes × Bytes), (∀ e ∈ entries, TokenRecord env ex e.1) →
      0 ≤ entriesTotal env ex entries := by
  intro entries
  induction entries with
  | nil => intro _; simp [entriesTotal]
  | cons e rest ih =>
    intro h
    have h1 := h e (List.mem_cons_self _ _)
    have h2 := ih (fun x hx => h x (List.mem_cons_of_mem _ hx))
    obtain ⟨_, u, tkn, hu, ht, hv⟩ := h1.elim
    have : entryValue env ex e.1 = tkn.Value := by
      simp [entryValue, hu, uxtoValue, ht]
    simp only [entriesTotal, List.map_cons, List.sum_cons] at h2 ⊢
    omega

theorem findUxtosScan_spec (env : Env) (ex : Exchange) :
    ∀ (entries : List (Bytes × Bytes)) (uxtos list : List Uxto) (amount : Int),
      (∀ e ∈ entries, TokenRecord env ex e.1) →
      (∀ u ∈ list, u.Asset.Tkn ≠ none ∧ 0 ≤ uxtoValue u) →
      ∃ uxtos1 list1 amount1,
        findUxtosScan env ex entries uxtos list amount = some (uxtos1, list1, amount1) ∧
        amount1 = amount - (sumValues uxtos1 - sumValues uxtos) ∧
        sumValues uxtos1 + sumValues list1
          ≤ sumValues uxtos + sumValues list + entriesTotal env ex entries ∧
        (0 < amount1 → sumValues uxtos1 + sumValues list1
          = sumValues uxtos + sumValues list + entriesTotal env ex entries) ∧
        (∀ u ∈ list1, u.Asset.Tkn ≠ none ∧ 0 ≤ uxtoValue u) := by
  intro entries
  induction entries with
  | nil =>
    intro uxtos list amount _ hl
    exact ⟨uxtos, list, amount, rfl, by simp, by simp [entriesTotal], by simp [entriesTotal], hl⟩
  | cons e rest ih =>
    intro uxtos list amount h hl
    obtain ⟨key, v⟩ := e
    have hrest : ∀ x ∈ rest, TokenRecord env ex x.1 := fun x hx => h x (List.mem_cons_of_mem _ hx)
    have hnn := entriesTotal_nonneg env ex rest hrest
    obtain ⟨hlen, u, tkn, hu, ht, hv⟩ := (h (key, v) (List.mem_cons_self _ _)).elim
    have hev : entryValue env ex key = tkn.Value := by
      simp [entryValue, hu, uxtoValue, ht]
    have huv : uxtoValue u = tkn.Value := by simp [uxtoValue, ht]
    have htot : entriesTotal env ex ((key, v) :: rest)
        = tkn.Value + entriesTotal env ex rest := by
      simp [entriesTotal, hev]
    have hlen' : 130 ≤ key.length := hlen
    have hnlt : ¬ key.length < 130 := by omega
    cases hfl : mapGet ex.usedFlag (FlagKey.u256 u.Nil) with
    | none =>
      have hstep : findUxtosStep env ex key uxtos list amount
          = some (uxtos ++ [u], list, amount - tkn.Value) := by
        simp [findUxtosStep, hnlt, hu, hfl, ht]
      by_cases hstop : amount - tkn.Value ≤ 0
      · refine ⟨uxtos ++ [u], list, amount - tkn.Value, ?_, ?_, ?_, ?_, hl⟩
        · simp [findUxtosScan, hstep, hstop]
        · rw [sumValues_append, sumValues_single, huv]; ring
        · rw [sumValues_append, sumValues_single, huv, htot]; omega
        · intro hpos; omega
      · obtain ⟨u1, l1, a1, he, ha, hle, heq, hl1⟩ :=
          ih (uxtos ++ [u]) list (amount - tkn.Value) hrest hl
        refine ⟨u1, l1, a1, ?_, ?_, ?_, ?_, hl1⟩
        · simp [findUxtosScan, hstep, hstop, he]
        · rw [ha, sumValues_append, sumValues_single, huv]; ring
        · rw [sumValues_append, sumValues_single, huv] at hle; rw [htot]; omega
        · intro hpos
          have := heq hpos
          rw [sumValues_append, sumValues_single, huv] at this; rw [htot]; omega
    | some fl =>
      have hstep : findUxtosStep env ex key uxtos list amount
          = some (uxtos, list ++ [u], amount) := by
        simp [findUxtosStep, hnlt, hu, hfl]
      have hl' : ∀ x ∈ list ++ [u], x.Asset.Tkn ≠ none ∧ 0 ≤ uxtoValue x := by
        intro x hx
        rcases List.mem_append.mp hx with hx | hx
        · exact hl x hx
        · have : x = u := by simpa using hx
          subst this
          exact ⟨by simp [ht], by omega⟩
      by_cases hstop : amount ≤ 0
      · refine ⟨uxtos, list ++ [u], amount, ?_, ?_, ?_, ?_, hl'⟩
        · simp [findUxtosScan, hstep, hstop]
        · ring
        · rw [sumValues_append, sumValues_single, huv, htot]; omega
        · intro hpos; omega
      · obtain ⟨u1, l1, a1, he, ha, hle, heq, hl1⟩ :=
          ih uxtos (list ++ [u]) amount hrest hl'
        refine ⟨u1, l1, a1, ?_, ha, ?_, ?_, hl1⟩
        · simp [findUxtosScan, hstep, hstop, he]
        · rw [sumValues_append, sumValues_single, huv] at hle; rw [htot]; omega
        · intro hpos
          have := heq hpos
          rw [sumValues_append, sumValues_single, huv] at this; rw [htot]; omega

theorem takeReserved_spec :
    ∀ (sorted uxtos : List Uxto) (amount : Int),
      (∀ u ∈ sorted, u.Asset.Tkn ≠ none ∧ 0 ≤ uxtoValue u) →
      ∃ uxtos1 amount1,
        takeReserved sorted uxtos amount = some (uxtos1, amount1) ∧
        amount1 = amount - (sumValues uxtos1 - sumValues uxtos) ∧
        sumValues uxtos1 ≤ sumValues uxtos + sumValues sorted ∧
        (0 < amount1 → sumValues uxtos1 = sumValues uxtos + sumValues sorted) := by
  intro sorted
  induction sorted with
  | nil =>
    intro uxtos amount _
    exact ⟨uxtos, amount, rfl, by simp, by simp [sumValues], by simp [sumValues]⟩
  | cons u rest ih =>
    intro uxtos amount h
    obtain ⟨hne, hv⟩ := h u (List.mem_cons_self _ _)
    have hrest : ∀ x ∈ rest, x.Asset.Tkn ≠ none ∧ 0 ≤ uxtoValue x :=
      fun x hx => h x (List.mem_cons_of_mem _ hx)
    have hrnn : 0 ≤ sumValues rest := by
      unfold sumValues
      apply List.sum_nonneg
      intro x hx
      obtain ⟨y, hy, rfl⟩ := List.mem_map.mp hx
      exact (hrest y hy).2
    cases ht : u.Asset.Tkn with
    | none => exact absurd ht hne
    | some tkn =>
      have huv : uxtoValue u = tkn.Value := by simp [uxtoValue, ht]
      have hcons : sumValues (u :: rest) = tkn.Value + sumValues rest := by
        simp [sumValues, huv]
      rw [huv] at hv
      by_cases hstop : amount - tkn.Value ≤ 0
      · refine ⟨uxtos ++ [u], amount - tkn.Value, ?_, ?_, ?_, ?_⟩
        · simp [takeReserved, ht, hstop]
        · rw [sumValues_append, sumValues_single, huv]; ring
        · rw [sumValues_append, sumValues_single, huv, hcons]; omega
        · intro hpos; omega
      · obtain ⟨u1, a1, he, ha, hle, heq⟩ := ih (uxtos ++ [u]) (amount - tkn.Value) hrest
        refine ⟨u1, a1, ?_, ?_, ?_, ?_⟩
        · simp [takeReserved, ht, hstop, he]
        · rw [ha, sumValues_append, sumValues_single, huv]; ring
        · rw [sumValues_append, sumValues_single, huv] at hle; rw [hcons]; omega
        · intro hpos
          have := heq hpos
          rw [sumValues_append, sumValues_single, huv] at this; rw [hcons]; omega

/-- C1 (defect in the code): for the request `paramC1`, whose only reception is 5 `"ABC"`, the
amounts that `preGenTx` hands to `findUxtos` are `[("ABC", 5)]`: there is no `"SERO"` entry for
the fee `Gas * GasPrice`, and on an index without any `SERO` the selection succeeds with the
`ABC` UTXO alone. -/
theorem preGenTx_no_sero_fee_request :
    preGenTxAmounts paramC1 = [(ABC, 5)] ∧
    mapGet (preGenTxAmounts paramC1) SERO = none ∧
    (preGenTx demoEnv exC1 paramC1).map (fun r => (r.1.map uxtoValue, r.2))
      = some ([5], none) := by
  set_option maxRecDepth 1000000 in decide

/-- C2: when every root listed under the prefix has a decodable token record, `findUxtos`
returns, its error is "not enough token" exactly when the total value of all UTXOs under the
prefix (free and reserved) is less than the requested amount, and without an error the
returned UTXOs are worth at least the requested amount. -/
theorem findUxtos_not_enough_iff (env : Env) (ex : Exchange) (pk : Uint512) (currency : Bytes)
    (amount : Int)
    (hrec : ∀ e ∈ ex.db.iterPrefix (findPrefix env pk currency), TokenRecord env ex e.1)
    (hsort : ∀ l : List Uxto, (∀ u ∈ l, u.Asset.Tkn ≠ none) →
      ∃ s, env.sortUxtos l = some s ∧ s.Perm l) :
    ∃ uxtos e, findUxtos env ex pk currency amount = some (uxtos, e) ∧
      (e = some "not enough token" ↔ prefixTotal env ex (findPrefix env pk currency) < amount) ∧
      (e = none ∨ e = some "not enough token") ∧
      (e = none → amount ≤ sumValues uxtos) := by
  obtain ⟨u1, l1, a1, he, ha, hle, heq, hl1⟩ :=
    findUxtosScan_spec env ex (ex.db.iterPrefix (findPrefix env pk currency)) [] [] amount hrec
      (by simp)
  have hz : sumValues ([] : List Uxto) = 0 := by simp [sumValues]
  rw [hz] at ha hle heq
  have hl1nn : 0 ≤ sumValues l1 := by
    unfold sumValues
    apply List.sum_nonneg
    intro x hx
    obtain ⟨y, hy, rfl⟩ := List.mem_map.mp hx
    exact (hl1 y hy).2
  unfold prefixTotal
  by_cases hsecond : a1 > 0 ∧ l1.length > 0
  · obtain ⟨s, hs, hperm⟩ := hsort l1 (fun u hu => (hl1 u hu).1)
    have hsum : sumValues s = sumValues l1 := by
      unfold sumValues
      exact (hperm.map uxtoValue).sum_eq
    obtain ⟨u2, a2, he2, ha2, hle2, heq2⟩ :=
      takeReserved_spec s u1 a1 (fun u hu => hl1 u (hperm.subset hu))
    have hres : findUxtos env ex pk currency amount
        = some (u2, if a2 > 0 then some "not enough token" else none) := by
      simp [findUxtos, he, hsecond, hs, he2]
    refine ⟨u2, _, hres, ?_, ?_, ?_⟩
    · by_cases hpos : a2 > 0
      · have h1 := heq2 hpos
        have h2 := heq hsecond.1
        simp only [hpos, if_true, true_iff]
        omega
      · simp only [hpos, if_false]
        constructor
        · intro h; cases h
        · intro h; omega
    · by_cases hpos : a2 > 0 <;> simp [hpos]
    · by_cases hpos : a2 > 0
      · simp [hpos]
      · intro _; omega
  · have hres : findUxtos env ex pk currency amount
        = some (u1, if a1 > 0 then some "not enough token" else none) := by
      simp only [findUxtos, he, hsecond, if_false]
    have hl1z : 0 < a1 → sumValues l1 = 0 := by
      intro hpos
      have : ¬ l1.length > 0 := fun h => hsecond ⟨hpos, h⟩
      have : l1 = [] := by
        cases l1 with
        | nil => rfl
        | cons _ _ => simp at this
      simp [this, sumValues]
    refine ⟨u1, _, hres, ?_, ?_, ?_⟩
    · by_cases hpos : a1 > 0
      · have h2 := heq hpos
        have h3 := hl1z hpos
        simp only [hpos, if_true, true_iff]
        omega
      · simp only [hpos, if_false]
        constructor
        · intro h; cases h
        · intro h; omega
    · by_cases hpos : a1 > 0 <;> simp [hpos]
    · by_cases hpos : a1 > 0
      · simp [hpos]
      · intro _; omega

set_option maxRecDepth 1000000 in
theorem findUxtos_not_enough_iff_witness :
    (∀ e ∈ exC4.db.iterPrefix (findPrefix demoEnv alicePk SERO), TokenRecord demoEnv exC4 e.1) ∧
    ∃ uxtos e, findUxtos demoEnv exC4 alicePk SERO 5 = some (uxtos, e) ∧
      (e = some "not enough token" ↔ prefixTotal demoEnv exC4 (findPrefix demoEnv alicePk SERO) < 5) ∧
      (e = none ∨ e = some "not enough token") ∧
      (e = none → (5 : Int) ≤ sumValues uxtos) :=
  ⟨by decide, findUxtos_not_enough_iff demoEnv exC4 alicePk SERO 5 (by decide) demoSort_perm⟩

/-! ## Theorems: transaction assembly -/

theorem mapGet_mapSet {κ ν : Type} [DecidableEq κ] (m : List (κ × ν)) (k k' : κ) (v : ν) :
    mapGet (mapSet m k v) k' = if k = k' then some v else mapGet m k' := by
  induction m with
  | nil => simp [mapSet, mapGet]
  | cons e rest ih =>
    obtain ⟨k0, v0⟩ := e
    simp only [mapSet, mapGet]
    split_ifs <;> simp_all [mapGet]

theorem mapDel_cons {κ ν : Type} [DecidableEq κ] (e : κ × ν) (rest : List (κ × ν)) (k : κ) :
    mapDel (e :: rest) k = if e.1 = k then mapDel rest k else e :: mapDel rest k := by
  unfold mapDel
  by_cases h : e.1 = k <;> simp [List.filter_cons, h]

theorem mapGet_mapDel {κ ν : Type} [DecidableEq κ] (m : List (κ × ν)) (k k' : κ) :
    mapGet (mapDel m k) k' = if k = k' then none else mapGet m k' := by
  induction m with
  | nil => simp [mapDel, mapGet]
  | cons e rest ih =>
    obtain ⟨k0, v0⟩ := e
    rw [mapDel_cons]
    simp only [mapGet]
    split_ifs <;> simp_all [mapGet]

theorem mapGet_none_of_not_mem {κ ν : Type} [DecidableEq κ] (m : List (κ × ν)) (k : κ)
    (h : k ∉ m.map Prod.fst) : mapGet m k = none := by
  induction m with
  | nil => rfl
  | cons e rest ih =>
    obtain ⟨k0, v0⟩ := e
    simp only [List.map_cons, List.mem_cons, not_or] at h
    have h0 : ¬ k0 = k := fun h' => h.1 h'.symm
    simp [mapGet, h0, ih h.2]

theorem mapSet_keys {κ ν : Type} [DecidableEq κ] (m : List (κ × ν)) (k : κ) (v : ν) :
    (mapSet m k v).map Prod.fst
      = if k ∈ m.map Prod.fst then m.map Prod.fst else m.map Prod.fst ++ [k] := by
  induction m with
  | nil => simp [mapSet]
  | cons e rest ih =>
    obtain ⟨k0, v0⟩ := e
    by_cases h0 : k0 = k
    · subst h0; simp [mapSet]
    · have h0' : ¬ k = k0 := fun h => h0 h.symm
      by_cases hm : k ∈ rest.map Prod.fst
      · simp [mapSet, h0, ih, hm]
      · simp [mapSet, h0, h0', ih, hm]

theorem mapSet_nodup {κ ν : Type} [DecidableEq κ] (m : List (κ × ν)) (k : κ) (v : ν)
    (h : (m.map Prod.fst).Nodup) : ((mapSet m k v).map Prod.fst).Nodup := by
  rw [mapSet_keys]
  by_cases hm : k ∈ m.map Prod.fst
  · simpa [hm] using h
  · simp only [hm, if_false]
    rw [List.nodup_append]
    refine ⟨h, List.nodup_singleton k, ?_⟩
    intro a ha hb
    have : a = k := by simpa using hb
    subst this
    exact hm ha

theorem mapDel_nodup {κ ν : Type} [DecidableEq κ] (m : List (κ × ν)) (k : κ)
    (h : (m.map Prod.fst).Nodup) : ((mapDel m k).map Prod.fst).Nodup := by
  unfold mapDel
  exact h.sublist ((List.filter_sublist m).map Prod.fst)

theorem bucketSum_mapSet_none (c : Uint256) (m : List (Bytes × Int)) (k : Bytes) (v : Int)
    (h : mapGet m k = none) :
    bucketSum c (mapSet m k v)
      = bucketSum c m + (if bytesToHash (leftPadBytes k 32) = c then v else 0) := by
  induction m with
  | nil => simp [mapSet, bucketSum]
  | cons e rest ih =>
    obtain ⟨k0, v0⟩ := e
    by_cases h0 : k0 = k
    · simp [mapGet, h0] at h
    · have hr : mapGet rest k = none := by simpa [mapGet, h0] using h
      have := ih hr
      simp only [bucketSum, mapSet, h0, if_false, List.map_cons, List.sum_cons] at this ⊢
      omega

theorem bucketSum_mapSet_some (c : Uint256) (m : List (Bytes × Int)) (k : Bytes) (a v : Int)
    (h : mapGet m k = some a) :
    bucketSum c (mapSet m k v)
      = bucketSum c m + (if bytesToHash (leftPadBytes k 32) = c then v - a else 0) := by
  induction m with
  | nil => simp [mapGet] at h
  | cons e rest ih =>
    obtain ⟨k0, v0⟩ := e
    by_cases h0 : k0 = k
    · subst h0
      have : v0 = a := by simpa [mapGet] using h
      subst this
      simp only [bucketSum, mapSet, if_true, List.map_cons, List.sum_cons]
      split_ifs <;> omega
    · have hr : mapGet rest k = some a := by simpa [mapGet, h0] using h
      have := ih hr
      simp only [bucketSum, mapSet, h0, if_false, List.map_cons, List.sum_cons] at this ⊢
      omega

theorem bucketSum_mapDel (c : Uint256) (m : List (Bytes × Int)) (k : Bytes) (a : Int)
    (hn : (m.map Prod.fst).Nodup) (h : mapGet m k = some a) :
    bucketSum c (mapDel m k)
      = bucketSum c m - (if bytesToHash (leftPadBytes k 32) = c then a else 0) := by
  induction m with
  | nil => simp [mapGet] at h
  | cons e rest ih =>
    obtain ⟨k0, v0⟩ := e
    simp only [List.map_cons, List.nodup_cons] at hn
    by_cases h0 : k0 = k
    · subst h0
      have : v0 = a := by simpa [mapGet] using h
      subst this
      have hfil : mapDel ((k0, v0) :: rest) k0 = rest := by
        unfold mapDel
        rw [List.filter_cons_of_neg (by simp)]
        apply List.filter_eq_self.mpr
        intro x hx
        have : x.1 ≠ k0 := by
          intro hx1
          exact hn.1 (hx1 ▸ List.mem_map_of_mem Prod.fst hx)
        simpa using this
      rw [hfil]
      simp only [bucketSum, List.map_cons, List.sum_cons]
      omega
    · have hr : mapGet rest k = some a := by simpa [mapGet, h0] using h
      have := ih hn.2 hr
      have hfil : mapDel ((k0, v0) :: rest) k = (k0, v0) :: mapDel rest k := by
        unfold mapDel
        rw [List.filter_cons_of_pos (by simpa using h0)]
      rw [hfil]
      simp only [bucketSum, List.map_cons, List.sum_cons] at this ⊢
      omega

theorem outSum_append (c : Uint256) (a b : List GOut) :
    outSum c (a ++ b) = outSum c a + outSum c b := by
  simp [outSum]

theorem outSum_tokenOut (c : Uint256) (pkr : PKr) (k : Bytes) (v : Int) :
    outSum c [tokenOut pkr k v] = if bytesToHash (leftPadBytes k 32) = c then v else 0 := by
  simp [outSum, outValue, tokenOut]

theorem outSum_change (c : Uint256) (pkr : PKr) (amounts : List (Bytes × Int)) :
    outSum c (amounts.map (fun e => tokenOut pkr e.1 e.2)) = bucketSum c amounts := by
  induction amounts with
  | nil => simp [outSum, bucketSum]
  | cons e rest ih =>
    simp only [outSum, bucketSum, List.map_cons, List.sum_cons, List.map_map] at ih ⊢
    rw [ih]
    simp [outValue, tokenOut]

theorem outSum_tickets (c : Uint256) (pkr : PKr) (ticekts : List (Uint256 × Uint256)) :
    outSum c (ticekts.map (fun e => ticketOut pkr e.1 e.2)) = 0 := by
  induction ticekts with
  | nil => simp [outSum]
  | cons e rest ih =>
    simp only [outSum, List.map_cons, List.sum_cons, List.map_map] at ih ⊢
    rw [ih]
    simp [outValue, ticketOut]

theorem buildIns_spec (env : Env) (wits : List Witness) (c : Uint256) :
    ∀ (uxtos : List Uxto) (index : Nat) (Ins : List GIn) (amounts : List (Bytes × Int))
      (ticekts : List (Uint256 × Uint256)) (Ins1 : List GIn) (amounts1 : List (Bytes × Int))
      (ticekts1 : List (Uint256 × Uint256)),
      (∀ u ∈ uxtos, ∀ tkn, u.Asset.Tkn = some tkn → Canonical tkn.Currency) →
      (amounts.map Prod.fst).Nodup →
      buildIns env wits uxtos index Ins amounts ticekts = some (Ins1, amounts1, ticekts1) →
      (amounts1.map Prod.fst).Nodup ∧
      bucketSum c amounts1 = bucketSum c amounts + inSum c (emittedUxtos env uxtos) ∧
      Ins1.map (fun i => i.Out.Root)
        = Ins.map (fun i => i.Out.Root) ++ (emittedUxtos env uxtos).map (fun u => u.Root) := by
  intro uxtos
  induction uxtos with
  | nil =>
    intro index Ins amounts ticekts Ins1 amounts1 ticekts1 _ hn h
    simp only [buildIns, Option.some.injEq, Prod.mk.injEq] at h
    obtain ⟨rfl, rfl, rfl⟩ := h
    simp [emittedUxtos, inSum, hn]
  | cons u rest ih =>
    intro index Ins amounts ticekts Ins1 amounts1 ticekts1 hcur hn h
    have hcur' : ∀ x ∈ rest, ∀ tkn, x.Asset.Tkn = some tkn → Canonical tkn.Currency :=
      fun x hx => hcur x (List.mem_cons_of_mem _ hx)
    cases hroot : env.getRoot u.Root with
    | none =>
      have hem : emittedUxtos env (u :: rest) = emittedUxtos env rest := by
        simp [emittedUxtos, List.filter_cons, hroot]
      rw [hem]
      simp only [buildIns, hroot] at h
      exact ih _ _ _ _ _ _ _ hcur' hn h
    | some out =>
      have hem : emittedUxtos env (u :: rest) = u :: emittedUxtos env rest := by
        simp [emittedUxtos, List.filter_cons, hroot]
      rw [hem]
      cases hw : wits[index]? with
      | none => simp [buildIns, hroot, hw] at h
      | some wit =>
        simp only [buildIns, hroot, hw] at h
        cases ht : u.Asset.Tkn with
        | none =>
          simp only [ht] at h
          obtain ⟨h1, h2, h3⟩ := ih _ _ _ _ _ _ _ hcur' hn h
          refine ⟨h1, ?_, ?_⟩
          · rw [h2]; simp [inSum, inValue, ht]
          · rw [h3]; simp
        | some tkn =>
          simp only [ht] at h
          have hcan : bytesToHash (leftPadBytes (trimZero tkn.Currency.val) 32) = tkn.Currency :=
            hcur u (List.mem_cons_self _ _) tkn ht
          have hin : inSum c (u :: emittedUxtos env rest)
              = (if tkn.Currency = c then tkn.Value else 0) + inSum c (emittedUxtos env rest) := by
            simp [inSum, inValue, ht]
          cases hg : mapGet amounts (trimZero tkn.Currency.val) with
          | none =>
            simp only [hg] at h
            obtain ⟨h1, h2, h3⟩ := ih _ _ _ _ _ _ _ hcur' (mapSet_nodup _ _ _ hn) h
            refine ⟨h1, ?_, ?_⟩
            · rw [h2, bucketSum_mapSet_none c _ _ _ hg, hin, hcan]; ring
            · rw [h3]; simp
          | some a =>
            simp only [hg] at h
            obtain ⟨h1, h2, h3⟩ := ih _ _ _ _ _ _ _ hcur' (mapSet_nodup _ _ _ hn) h
            refine ⟨h1, ?_, ?_⟩
            · rw [h2, bucketSum_mapSet_some c _ _ a _ hg, hin, hcan]
              split_ifs <;> ring
            · rw [h3]; simp

theorem buildOuts_spec (env : Env) (c : Uint256) :
    ∀ (receptions : List Reception) (Outs : List GOut) (amounts : List (Bytes × Int)),
      (amounts.map Prod.fst).Nodup →
      ((buildOuts env receptions Outs amounts).2.map Prod.fst).Nodup ∧
      outSum c (buildOuts env receptions Outs amounts).1
          + bucketSum c (buildOuts env receptions Outs amounts).2
        = outSum c Outs + bucketSum c amounts := by
  intro receptions
  induction receptions with
  | nil => intro Outs amounts hn; exact ⟨hn, rfl⟩
  | cons r rest ih =>
    intro Outs amounts hn
    cases hg : mapGet amounts (env.toUpper r.Currency) with
    | none => simpa [buildOuts, hg] using ih Outs amounts hn
    | some a =>
      by_cases hge : a ≥ r.Value
      · by_cases hz : a - r.Value = 0
        · simp only [buildOuts, hg, hge, if_true, hz]
          obtain ⟨h1, h2⟩ := ih (Outs ++ [tokenOut
            (if isPk r.Addr then createPkr env r.Addr.toUint512 1 else r.Addr)
            (env.toUpper r.Currency) r.Value]) (mapDel amounts (env.toUpper r.Currency))
            (mapDel_nodup _ _ hn)
          refine ⟨h1, ?_⟩
          rw [h2, outSum_append, outSum_tokenOut, bucketSum_mapDel c _ _ a hn hg]
          split_ifs <;> omega
        · simp only [buildOuts, hg, hge, if_true, hz, if_false]
          obtain ⟨h1, h2⟩ := ih (Outs ++ [tokenOut
            (if isPk r.Addr then createPkr env r.Addr.toUint512 1 else r.Addr)
            (env.toUpper r.Currency) r.Value])
            (mapSet amounts (env.toUpper r.Currency) (a - r.Value))
            (mapSet_nodup _ _ _ hn)
          refine ⟨h1, ?_⟩
          rw [h2, outSum_append, outSum_tokenOut, bucketSum_mapSet_some c _ _ a _ hg]
          split_ifs <;> omega
      · simpa [buildOuts, hg, hge] using ih Outs amounts hn

/-- C3: when `buildTxParam` succeeds on UTXOs whose currency tags are left-padded names, the
inputs it emits are the UTXOs found by `localdb.GetRoot`, and for every currency `c` their
token values sum to the token values of all emitted outputs of currency `c`, plus
`gas * gasPrice` when `c` is `SERO`. -/
theorem buildTxParam_conserves_value (env : Env) (usedFlag : List (FlagKey × Int))
    (uxtos : List Uxto) (account : Account) (receptions : List Reception) (gas gasPrice : Nat)
    (txParam : GenTxParam) (used : List (FlagKey × Int))
    (h : buildTxParam env usedFlag uxtos account receptions gas gasPrice
      = some (txParam, none, used))
    (hcur : ∀ u ∈ uxtos, ∀ tkn, u.Asset.Tkn = some tkn → Canonical tkn.Currency)
    (c : Uint256) :
    txParam.Ins.map (fun i => i.Out.Root) = (emittedUxtos env uxtos).map (fun u => u.Root) ∧
    inSum c (emittedUxtos env uxtos)
      = outSum c txParam.Outs + (if c = seroCurrency then (gas : Int) * (gasPrice : Int) else 0) := by
  unfold buildTxParam at h
  cases ha : env.getAnchor (uxtos.map (fun uxto => uxto.Root)) with
  | none => simp [ha] at h
  | some wits =>
    simp only [ha] at h
    cases hb : buildIns env wits uxtos 0 [] [] [] with
    | none => simp [hb] at h
    | some r =>
      obtain ⟨Ins, amounts, ticekts⟩ := r
      simp only [hb] at h
      obtain ⟨hn1, hs1, hi1⟩ := buildIns_spec env wits c uxtos 0 [] [] [] Ins amounts ticekts hcur
        (by simp) hb
      obtain ⟨hn2, hs2⟩ := buildOuts_spec env c receptions [] amounts hn1
      generalize buildOuts env receptions [] amounts = r2 at h hn2 hs2
      obtain ⟨Outs, amounts2⟩ := r2
      simp only at h hn2 hs2
      have hb0 : bucketSum c ([] : List (Bytes × Int)) = 0 := by simp [bucketSum]
      have ho0 : outSum c ([] : List GOut) = 0 := by simp [outSum]
      rw [hb0] at hs1
      rw [ho0] at hs2
      cases hg : mapGet amounts2 SERO with
      | none => simp [hg] at h
      | some a =>
        simp only [hg] at h
        by_cases hlt : a < (gas : Int) * (gasPrice : Int)
        · simp [hlt] at h
        · simp only [hlt, if_false, Option.some.injEq, Prod.mk.injEq] at h
          obtain ⟨htx, _, _⟩ := h
          subst htx
          refine ⟨by simpa using hi1, ?_⟩
          simp only [outSum_append, outSum_change, outSum_tickets]
          have hsero : bytesToHash (leftPadBytes SERO 32) = seroCurrency := rfl
          by_cases hz : a - (gas : Int) * (gasPrice : Int) = 0
          · simp only [hz, if_true]
            rw [bucketSum_mapDel c _ _ a hn2 hg, hsero]
            have hcc : (seroCurrency = c) ↔ (c = seroCurrency) := eq_comm
            split_ifs at * <;> first | omega | (exfalso; simp_all)
          · simp only [hz, if_false]
            rw [bucketSum_mapSet_some c _ _ a _ hg, hsero]
            split_ifs at * <;> first | omega | (exfalso; simp_all)

set_option maxRecDepth 1000000 in
theorem buildTxParam_conserves_value_witness :
    buildTxParam demoEnv [] [uxtoC5] alice paramC5.Receptions 21000 1000000000
      = some (txC5, none, [(FlagKey.u256 (fill256 9), 1)]) ∧
    (txC5.Ins.map (fun i => i.Out.Root)
        = (emittedUxtos demoEnv [uxtoC5]).map (fun u => u.Root) ∧
      inSum seroCurrency (emittedUxtos demoEnv [uxtoC5])
        = outSum seroCurrency txC5.Outs
          + (if seroCurrency = seroCurrency then ((21000 : Nat) : Int) * ((1000000000 : Nat) : Int)
             else 0)) :=
  ⟨by decide,
   buildTxParam_conserves_value demoEnv [] [uxtoC5] alice paramC5.Receptions 21000 1000000000
     txC5 [(FlagKey.u256 (fill256 9), 1)] (by decide)
     (by
       intro u hu tkn ht
       have hu' : u = uxtoC5 := by simpa using hu
       subst hu'
       have : tkn = { Currency := seroCurrency, Value := 1000 + 21000 * 1000000000 } := by
         simpa [uxtoC5, mkUxto] using ht.symm
       subst this
       decide)
     seroCurrency⟩

/-- C4 (defect in the code): with explicit roots worth `3 + 4 = 7`, a reception of 100 `SERO`
and a fee of `1 * 5`, where `7 < 100 + 5`, `GenTx` returns no error: the reception is skipped
and the parameter holds both inputs and a single change output of 2 to the sender. -/
theorem GenTx_short_roots_no_error :
    (preGenTx demoEnv exC4 paramC4).map (fun r => (r.1.map uxtoValue, r.2)) = some ([3, 4], none) ∧
    (3 : Int) + 4 < 100 + ((paramC4.Gas : Int) * (paramC4.GasPrice : Int)) ∧
    (GenTx demoEnv exC4 paramC4).map (fun r => (r.1.1.map (fun t => (t.Ins.length, t.Outs)), r.1.2))
      = some (some (2, [tokenOut alice.mainPkr SERO 2]), none) := by
  set_option maxRecDepth 1000000 in decide

/-- C5 (counterexample): in scenario 3 `GenTx` returns the parameter `txC5`, whose change output
is 400 `SERO`; no output of 1000 `SERO` to the main subaddress is emitted. -/
theorem GenTx_scenario3_change_not_1000 :
    (GenTx demoEnv exC5 paramC5).map (fun r => r.1) = some (some txC5, none) ∧
    tokenOut alice.mainPkr SERO 1000 ∉ txC5.Outs := by
  set_option maxRecDepth 1000000 in decide

theorem fee_cast : ((21000 : Nat) : Int) * ((1000000000 : Nat) : Int) = 21000000000000 := by
  norm_num

theorem scenario3_amounts (pk : Uint512) (bob : PKr) :
    preGenTxAmounts (scenario3Param pk bob) = [(SERO, 21000000000600)] := by
  have h1 : mapGet ([] : List (Bytes × Int)) SERO = none := rfl
  have h2 : mapSet ([] : List (Bytes × Int)) SERO 600 = [(SERO, 600)] := rfl
  have h3 : mapGet [(SERO, (600 : Int))] SERO = some 600 := by
    unfold mapGet; rw [if_pos rfl]
  have h4 : ∀ v : Int, mapSet [(SERO, (600 : Int))] SERO v = [(SERO, v)] := by
    intro v; unfold mapSet; rw [if_pos rfl]
  unfold preGenTxAmounts scenario3Param
  simp only [List.foldl, h1, h2, h3, h4, fee_cast]
  norm_num

theorem scenario3_find (env : Env) (ex : Exchange) (pk : Uint512) (key v : Bytes) (u : Uxto)
    (cur : Uint256)
    (hidx : ex.db.iterPrefix (findPrefix env pk SERO) = [(key, v)])
    (hlen : 130 ≤ key.length)
    (hrec : getUxto env ex (keyRoot key) = .ok u)
    (hfree : mapGet ex.usedFlag (FlagKey.u256 u.Nil) = none)
    (htkn : u.Asset.Tkn = some { Currency := cur, Value := 21000000001000 }) :
    findUxtos env ex pk SERO 21000000000600 = some ([u], none) := by
  have hnlt : ¬ key.length < 130 := by omega
  simp [findUxtos, hidx, findUxtosScan, findUxtosStep, hnlt, hrec, hfree, htkn]

theorem scenario3_build (env : Env) (usedFlag : List (FlagKey × Int)) (account : Account)
    (bob : PKr) (u : Uxto) (cur : Uint256) (wit : Witness) (st : RootState)
    (hup : env.toUpper SERO = SERO)
    (htkn : u.Asset.Tkn = some { Currency := cur, Value := 21000000001000 })
    (htkt : u.Asset.Tkt = none)
    (hcur : trimZero cur.val = SERO)
    (hanchor : env.getAnchor [u.Root] = some [wit])
    (hroot : env.getRoot u.Root = some st)
    (hbob : isPk bob = false) :
    buildTxParam env usedFlag [u] account [{ Addr := bob, Currency := SERO, Value := 600 }]
        21000 1000000000
      = some ({ Gas := 21000, GasPrice := toInt64 1000000000,
                From := { SKr := PKr.ofCopy [], PKr := account.mainPkr },
                Ins := [{ SKr := PKr.ofCopy [], Out := { Root := u.Root, State := st },
                          Witness := wit }],
                Outs := [tokenOut bob SERO 600, tokenOut account.mainPkr SERO 400] },
              none, mapSet usedFlag (FlagKey.u256 u.Nil) 1) := by
  have hins : buildIns env [wit] [u] 0 [] [] []
      = some ([{ SKr := PKr.ofCopy [], Out := { Root := u.Root, State := st }, Witness := wit }],
          [(SERO, 21000000001000)], []) := by
    simp [buildIns, hroot, htkn, htkt, hcur, mapGet, mapSet]
  have houts : buildOuts env [{ Addr := bob, Currency := SERO, Value := 600 }] []
      [(SERO, 21000000001000)]
      = ([tokenOut bob SERO 600], [(SERO, 21000000000400)]) := by
    simp [buildOuts, hup, mapGet, mapSet, hbob]
  simp [buildTxParam, hanchor, hins, houts, mapGet, mapSet, markUsed]

/-- C5 (amended): a request for 600 `SERO` to the subaddress `bob` with gas 21000 and gas
price `10^9`, from an account whose only `SERO` UTXO is free and holds `1000 + 21000 * 10^9`,
yields exactly one input, one output of 600 `SERO` to `bob` and one change output of 400
`SERO` to the main subaddress of the account, and the nullifier of the input is in the
reserved-spent set afterwards. -/
theorem GenTx_scenario3 (env : Env) (ex : Exchange) (pk : Uint512) (account : Account)
    (bob : PKr) (key v : Bytes) (u : Uxto) (cur : Uint256) (wit : Witness) (st : RootState)
    (hacc : mapGet ex.accounts pk = some account)
    (hup : env.toUpper SERO = SERO)
    (hidx : ex.db.iterPrefix (findPrefix env pk SERO) = [(key, v)])
    (hlen : 130 ≤ key.length)
    (hrec : getUxto env ex (keyRoot key) = .ok u)
    (hfree : mapGet ex.usedFlag (FlagKey.u256 u.Nil) = none)
    (hasset : u.Asset = { Tkn := some { Currency := cur, Value := 1000 + 21000 * 1000000000 },
                          Tkt := none })
    (hcur : trimZero cur.val = SERO)
    (hanchor : env.getAnchor [u.Root] = some [wit])
    (hroot : env.getRoot u.Root = some st)
    (hbob : isPk bob = false) :
    ∃ tx ex1,
      GenTx env ex (scenario3Param pk bob) = some ((some tx, none), ex1) ∧
      tx.Ins.map (fun i => i.Out.Root) = [u.Root] ∧
      tx.Outs = [tokenOut bob SERO 600, tokenOut account.mainPkr SERO 400] ∧
      mapGet ex1.usedFlag (FlagKey.u256 u.Nil) = some 1 := by
  have hval : (1000 + 21000 * 1000000000 : Int) = 21000000001000 := by norm_num
  rw [hval] at hasset
  have htkn : u.Asset.Tkn = some { Currency := cur, Value := 21000000001000 } := by
    rw [hasset]
  have htkt : u.Asset.Tkt = none := by rw [hasset]
  have hfind := scenario3_find env ex pk key v u cur hidx hlen hrec hfree htkn
  have hbuild := scenario3_build env ex.usedFlag account bob u cur wit st hup htkn htkt hcur
    hanchor hroot hbob
  have hpre : preGenTx env ex (scenario3Param pk bob) = some ([u], none) := by
    have hr : (scenario3Param pk bob).Roots = [] := rfl
    have hf : (scenario3Param pk bob).From = pk := rfl
    unfold preGenTx
    rw [hr, scenario3_amounts, hf]
    simp only [List.length_nil, gt_iff_lt, lt_self_iff_false, if_false, preGenTxFind, hfind,
      List.nil_append]
  have hf : (scenario3Param pk bob).From = pk := rfl
  have hc : (scenario3Param pk bob).Receptions
      = [{ Addr := bob, Currency := SERO, Value := 600 }] := rfl
  have hg : (scenario3Param pk bob).Gas = 21000 := rfl
  have hp : (scenario3Param pk bob).GasPrice = 1000000000 := rfl
  have hgen : GenTx env ex (scenario3Param pk bob)
      = some ((some { Gas := 21000, GasPrice := toInt64 1000000000,
                      From := { SKr := PKr.ofCopy [], PKr := account.mainPkr },
                      Ins := [{ SKr := PKr.ofCopy [], Out := { Root := u.Root, State := st },
                                Witness := wit }],
                      Outs := [tokenOut bob SERO 600, tokenOut account.mainPkr SERO 400] },
               none),
              { ex with usedFlag := mapSet ex.usedFlag (FlagKey.u256 u.Nil) 1 }) := by
    simp only [GenTx, hpre, hf, hc, hg, hp, hacc, hbuild]
  exact ⟨_, _, hgen, by simp, by simp, by simp [mapGet_mapSet]⟩

set_option maxRecDepth 1000000 in
theorem GenTx_scenario3_witness :
    exC5.db.iterPrefix (findPrefix demoEnv alicePk SERO)
      = [(uxtoPkKey alicePk seroCurrency.val (some (fill256 7)), [0])] ∧
    mapGet exC5.usedFlag (FlagKey.u256 uxtoC5.Nil) = none ∧
    isPk bob = false ∧
    ∃ tx ex1,
      GenTx demoEnv exC5 (scenario3Param alicePk bob) = some ((some tx, none), ex1) ∧
      tx.Ins.map (fun i => i.Out.Root) = [uxtoC5.Root] ∧
      tx.Outs = [tokenOut bob SERO 600, tokenOut alice.mainPkr SERO 400] ∧
      mapGet ex1.usedFlag (FlagKey.u256 uxtoC5.Nil) = some 1 :=
  ⟨by decide, by decide, by decide,
   GenTx_scenario3 demoEnv exC5 alicePk alice bob
     (uxtoPkKey alicePk seroCurrency.val (some (fill256 7))) [0] uxtoC5 seroCurrency
     { data := (fill256 7).val } demoRootState
     (by decide) (by decide) (by decide) (by decide) (by rfl) (by decide) (by decide)
     (by decide) (by decide) (by decide) (by decide)⟩

theorem mapGet_markUsed (uxtos : List Uxto) :
    ∀ (m : List (FlagKey × Int)) (k : FlagKey),
      mapGet (markUsed m uxtos) k
        = if k ∈ uxtos.map (fun u => FlagKey.u256 u.Nil) then some 1 else mapGet m k := by
  induction uxtos with
  | nil => intro m k; simp [markUsed]
  | cons u rest ih =>
    intro m k
    have h := ih (mapSet m (FlagKey.u256 u.Nil) 1) k
    simp only [markUsed, List.foldl_cons] at h ⊢
    rw [h, mapGet_mapSet]
    by_cases h1 : k ∈ rest.map (fun u => FlagKey.u256 u.Nil)
    · simp [h1]
    · by_cases h2 : FlagKey.u256 u.Nil = k
      · simp [h1, h2.symm]
      · have h3 : ¬ k = FlagKey.u256 u.Nil := fun e => h2 e.symm
        simp [h1, h2, h3]

/-- C7: `buildTxParam` changes the reserved-spent set only on success. Without an error the
set afterwards holds the nullifier of every selected UTXO (with flag 1) and is otherwise as
before; with an error it is unchanged. -/
theorem buildTxParam_reserves_only_on_success (env : Env) (usedFlag : List (FlagKey × Int))
    (uxtos : List Uxto) (account : Account) (receptions : List Reception) (gas gasPrice : Nat)
    (txParam : GenTxParam) (e : Option String) (used : List (FlagKey × Int))
    (h : buildTxParam env usedFlag uxtos account receptions gas gasPrice
      = some (txParam, e, used)) :
    (e = none → ∀ k, mapGet used k
      = if k ∈ uxtos.map (fun u => FlagKey.u256 u.Nil) then some 1 else mapGet usedFlag k) ∧
    (e ≠ none → used = usedFlag) := by
  unfold buildTxParam at h
  cases ha : env.getAnchor (uxtos.map (fun uxto => uxto.Root)) with
  | none =>
    simp only [ha, Option.some.injEq, Prod.mk.injEq] at h
    obtain ⟨_, he, hu⟩ := h
    subst he hu
    simp
  | some wits =>
    simp only [ha] at h
    cases hb : buildIns env wits uxtos 0 [] [] [] with
    | none => simp [hb] at h
    | some r =>
      obtain ⟨Ins, amounts, ticekts⟩ := r
      simp only [hb] at h
      generalize buildOuts env receptions [] amounts = r2 at h
      obtain ⟨Outs, amounts2⟩ := r2
      simp only at h
      cases hg : mapGet amounts2 SERO with
      | none =>
        simp only [hg, Option.some.injEq, Prod.mk.injEq] at h
        obtain ⟨_, he, hu⟩ := h
        subst he hu
        simp
      | some a =>
        simp only [hg] at h
        by_cases hlt : a < (gas : Int) * (gasPrice : Int)
        · simp only [hlt, if_true, Option.some.injEq, Prod.mk.injEq] at h
          obtain ⟨_, he, hu⟩ := h
          subst he hu
          simp
        · simp only [hlt, if_false, Option.some.injEq, Prod.mk.injEq] at h
          obtain ⟨_, he, hu⟩ := h
          subst he hu
          refine ⟨fun _ k => mapGet_markUsed uxtos usedFlag k, fun hne => absurd rfl hne⟩

set_option maxRecDepth 1000000 in
theorem buildTxParam_reserves_only_on_success_witness :
    buildTxParam demoEnv [] [uxtoC5] alice paramC5.Receptions 21000 1000000000
      = some (txC5, none, [(FlagKey.u256 (fill256 9), 1)]) ∧
    ((none : Option String) = none → ∀ k, mapGet [(FlagKey.u256 (fill256 9), (1 : Int))] k
      = if k ∈ [uxtoC5].map (fun u => FlagKey.u256 u.Nil) then some 1 else mapGet [] k) ∧
    ((none : Option String) ≠ none → [(FlagKey.u256 (fill256 9), (1 : Int))] = []) :=
  ⟨by decide,
   buildTxParam_reserves_only_on_success demoEnv [] [uxtoC5] alice paramC5.Receptions 21000
     1000000000 txC5 none [(FlagKey.u256 (fill256 9), 1)] (by decide)⟩

/-! ## Theorems: the store and the key layout -/

theorem Store.get_delete (s : Store) (k k' : Bytes) :
    (s.delete k).get k' = if k' = k then none else s.get k' := by
  unfold Store.get Store.delete
  rw [mapGet_mapDel]
  by_cases h : k = k'
  · simp [h]
  · have h' : ¬ k' = k := fun e => h e.symm
    simp [h, h']

theorem Store.get_insertSorted (k v : Bytes) :
    ∀ (t : Store) (k' : Bytes), k' ≠ k → mapGet (Store.insertSorted k v t) k' = mapGet t k' := by
  intro t
  induction t with
  | nil =>
    intro k' h
    have h' : ¬ k = k' := fun e => h e.symm
    simp [Store.insertSorted, mapGet, h']
  | cons e rest ih =>
    intro k' h
    obtain ⟨k0, v0⟩ := e
    have h' : ¬ k = k' := fun e => h e.symm
    unfold Store.insertSorted
    by_cases hlt : bytesLt k k0 = true
    · simp [hlt, mapGet, h']
    · simp only [hlt]
      by_cases h0 : k0 = k'
      · simp [mapGet, h0]
      · simp [mapGet, h0, ih k' h]

theorem Store.get_insertSorted_self (k v : Bytes) :
    ∀ t : Store, mapGet t k = none → mapGet (Store.insertSorted k v t) k = some v := by
  intro t
  induction t with
  | nil => intro _; simp [Store.insertSorted, mapGet]
  | cons e rest ih =>
    intro h
    obtain ⟨k0, v0⟩ := e
    have h0 : ¬ k0 = k := by
      intro e0
      simp [mapGet, e0] at h
    have hr : mapGet rest k = none := by simpa [mapGet, h0] using h
    unfold Store.insertSorted
    by_cases hlt : bytesLt k k0 = true
    · simp [hlt, mapGet]
    · simp [hlt, mapGet, h0, ih hr]

theorem Store.get_put (s : Store) (k v k' : Bytes) :
    (s.put k v).get k' = if k' = k then some v else s.get k' := by
  unfold Store.put
  by_cases h : k' = k
  · subst h
    have hd : mapGet (Store.delete s k') k' = none := by
      have := Store.get_delete s k' k'
      simpa [Store.get] using this
    simpa [Store.get] using Store.get_insertSorted_self k' v _ hd
  · have h1 := Store.get_insertSorted k v (s.delete k) k' h
    have h2 := Store.get_delete s k k'
    simp only [Store.get] at h2 ⊢
    rw [h1, h2]
    simp [h]

theorem Batch.write_append (b1 b2 : Batch) (s : Store) :
    Batch.write (b1 ++ b2) s = Batch.write b2 (Batch.write b1 s) := by
  simp [Batch.write, List.foldl_append]

theorem Batch.write_cons (op : BatchOp) (b : Batch) (s : Store) :
    Batch.write (op :: b) s = Batch.write b (op.apply s) := rfl

/-- A property of stores kept by every operation of a batch is kept by the batch. -/
theorem Batch.write_preserves (P : Store → Prop) :
    ∀ (b : Batch) (s : Store), (∀ op ∈ b, ∀ t, P t → P (op.apply t)) → P s → P (Batch.write b s) := by
  intro b
  induction b with
  | nil => intro s _ h; exact h
  | cons op rest ih =>
    intro s hstep h
    rw [Batch.write_cons]
    exact ih _ (fun o ho => hstep o (List.mem_cons_of_mem _ ho))
      (hstep op (List.mem_cons_self _ _) s h)

theorem uxtoPkKey_eq (pk : Uint512) (cur root : Uint256) :
    uxtoPkKey pk cur.val (some root) = pkPrefix ++ pk.val ++ cur.val ++ root.val := by
  have h : cur.val.length > 0 := by rw [cur.len]; decide
  simp [uxtoPkKey, h]

theorem uxtoPkKey_length (pk : Uint512) (cur root : Uint256) :
    (uxtoPkKey pk cur.val (some root)).length = 130 := by
  rw [uxtoPkKey_eq]
  simp [pkPrefix, pk.len, cur.len, root.len]

theorem uxtoPkrKey_length (pkr : PKr) (n : Nat) : (uxtoPkrKey pkr n).length = 107 := by
  simp [uxtoPkrKey, pkrPrefix, pkr.len, encodeNumber]

theorem uint256_ext {a b : Uint256} (h : a.val = b.val) : a = b := by
  cases a; cases b; simp at h; subst h; rfl

theorem uint512_ext {a b : Uint512} (h : a.val = b.val) : a = b := by
  cases a; cases b; simp at h; subst h; rfl

theorem uxtoPkKey_inj {pk pk' : Uint512} {cur cur' root root' : Uint256}
    (h : uxtoPkKey pk cur.val (some root) = uxtoPkKey pk' cur'.val (some root')) :
    pk = pk' ∧ cur = cur' ∧ root = root' := by
  rw [uxtoPkKey_eq, uxtoPkKey_eq] at h
  simp only [List.append_assoc] at h
  have h1 := List.append_cancel_left h
  have h2 := List.append_inj h1 (by rw [pk.len, pk'.len])
  have h3 := List.append_inj h2.2 (by rw [cur.len, cur'.len])
  exact ⟨uint512_ext h2.1, uint256_ext h3.1, uint256_ext h3.2⟩

theorem rootKey_ne_pkKey (r : Uint256) (pk : Uint512) (cur root : Uint256) :
    rootKey r ≠ uxtoPkKey pk cur.val (some root) := by
  rw [uxtoPkKey_eq]
  intro h
  simp [rootKey, rootPrefix, pkPrefix] at h

theorem rootKey_ne_nilKey (r n : Uint256) : rootKey r ≠ nilKey n := by
  intro h
  simp [rootKey, rootPrefix, nilKey, nilPrefix] at h

theorem rootKey_ne_pkrKey (r : Uint256) (pkr : PKr) (n : Nat) : rootKey r ≠ uxtoPkrKey pkr n := by
  intro h
  simp [rootKey, rootPrefix, uxtoPkrKey, pkrPrefix] at h

theorem rootKey_ne_numKey (r : Uint256) (pk : Uint512) : rootKey r ≠ numKey pk := by
  intro h
  simp [rootKey, rootPrefix, numKey, numPrefix] at h

theorem rootKey_inj {r r' : Uint256} (h : rootKey r = rootKey r') : r = r' := by
  simp only [rootKey] at h
  exact uint256_ext (List.append_cancel_left h)

theorem nilKey_inj {r r' : Uint256} (h : nilKey r = nilKey r') : r = r' := by
  simp only [nilKey] at h
  exact uint256_ext (List.append_cancel_left h)

theorem nilKey_ne_pkKey (n : Uint256) (pk : Uint512) (cur root : Uint256) :
    nilKey n ≠ uxtoPkKey pk cur.val (some root) := by
  rw [uxtoPkKey_eq]
  intro h
  simp [nilKey, nilPrefix, pkPrefix] at h

theorem nilKey_ne_pkrKey (n : Uint256) (pkr : PKr) (m : Nat) : nilKey n ≠ uxtoPkrKey pkr m := by
  intro h
  simp [nilKey, nilPrefix, uxtoPkrKey, pkrPrefix] at h

theorem nilKey_ne_numKey (n : Uint256) (pk : Uint512) : nilKey n ≠ numKey pk := by
  intro h
  simp [nilKey, nilPrefix, numKey, numPrefix] at h

theorem pkKey_ne_pkrKey (pk : Uint512) (cur root : Uint256) (pkr : PKr) (m : Nat) :
    uxtoPkKey pk cur.val (some root) ≠ uxtoPkrKey pkr m := by
  intro h
  have := congrArg List.length h
  rw [uxtoPkKey_length, uxtoPkrKey_length] at this
  omega

theorem pkKey_ne_numKey (pk : Uint512) (cur root : Uint256) (pk' : Uint512) :
    uxtoPkKey pk cur.val (some root) ≠ numKey pk' := by
  rw [uxtoPkKey_eq]
  intro h
  simp [numKey, numPrefix, pkPrefix] at h

theorem fromHexChar_hexDigit : ∀ d : Nat, d < 16 → fromHexChar (hexDigit d) = some d := by
  decide

theorem hex2Bytes_bytes2Hex : ∀ b : Bytes, hex2Bytes (bytes2Hex b) = b := by
  intro b
  induction b with
  | nil => rfl
  | cons x rest ih =>
    have h1 : x.val / 16 < 16 := by have := x.isLt; omega
    have h2 : x.val % 16 < 16 := Nat.mod_lt _ (by decide)
    simp only [bytes2Hex, hex2Bytes, fromHexChar_hexDigit _ h1, fromHexChar_hexDigit _ h2, ih]
    congr 1
    apply Fin.ext
    simp only [Fin.ofNat, Fin.val_mk]
    have := x.isLt
    omega

theorem bytes2Hex_inj {a b : Bytes} (h : bytes2Hex a = bytes2Hex b) : a = b := by
  have := congrArg hex2Bytes h
  rwa [hex2Bytes_bytes2Hex, hex2Bytes_bytes2Hex] at this

/-! ## Theorems: the reserved-spent set and the cursor -/

theorem indexNils_usedFlag (db : Store) (k : Uint256) :
    ∀ (nils : List Uint256) (batch : Batch) (ops : List (Bytes × Bytes))
      (usedFlag : List (FlagKey × Int)),
      mapGet (indexNils db nils batch ops usedFlag).2.2 (FlagKey.u256 k)
        = mapGet usedFlag (FlagKey.u256 k) := by
  intro nils
  induction nils with
  | nil => intro batch ops usedFlag; rfl
  | cons n rest ih =>
    intro batch ops usedFlag
    have hdel : mapGet (mapDel usedFlag (FlagKey.str (bytes2Hex n.val))) (FlagKey.u256 k)
        = mapGet usedFlag (FlagKey.u256 k) := by
      rw [mapGet_mapDel]; simp
    unfold indexNils
    cases hg : mapGet ops (bytes2Hex (nilKey n)) with
    | some value => simp only [hg]; rw [ih, hdel]
    | none =>
      simp only [hg]
      cases hd : db.get (nilKey n) with
      | some data => simp only [hd]; rw [ih, hdel]
      | none => simp only [hd]; rw [ih, hdel]

/-- The second loop of `indexBlocks` never removes a nullifier from the reserved-spent set:
whatever nullifiers a window publishes, the flag stored under the array key is as before. -/
theorem indexBlocks_usedFlag (env : Env) (ex : Exchange) (batch : Batch)
    (uxtos : List (PkrKey × List Uxto)) (nils : List Uint256) (k : Uint256)
    (e : Option String) (batch1 : Batch) (usedFlag : List (FlagKey × Int))
    (h : indexBlocks env ex batch uxtos nils = some (e, batch1, usedFlag)) :
    mapGet usedFlag (FlagKey.u256 k) = mapGet ex.usedFlag (FlagKey.u256 k) := by
  unfold indexBlocks at h
  cases hg : indexGroups env uxtos batch [] with
  | none => simp [hg] at h
  | some r =>
    obtain ⟨e1, b1, ops⟩ := r
    cases e1 with
    | some err =>
      simp only [hg, Option.some.injEq, Prod.mk.injEq] at h
      obtain ⟨_, _, hu⟩ := h
      rw [← hu]
    | none =>
      simp only [hg, Option.some.injEq, Prod.mk.injEq] at h
      obtain ⟨_, _, hu⟩ := h
      rw [← hu]
      exact indexNils_usedFlag ex.db k nils b1 ops ex.usedFlag

/-- C6 (defect in the code): after `GenTx` has reserved the nullifier `n = fill256 9` of the
UTXO of scenario 3, `indexBlocks` for a window that publishes `n` leaves `n` in the
reserved-spent set, and `getUxto` of that UTXO still reports flag 1 after the window is
committed. -/
theorem indexBlocks_keeps_reservation :
    mapGet exC6.usedFlag (FlagKey.u256 (fill256 9)) = some 1 ∧
    (indexBlocks demoEnv exC6 [] [] [fill256 9]).map
        (fun r => (r.1, mapGet r.2.2 (FlagKey.u256 (fill256 9)))) = some (none, some 1) ∧
    (getUxto demoEnv (scanned [] [fill256 9] exC6) (fill256 7)).toOption.map
        (fun u => (u.Nil, u.flag)) = some (fill256 9, 1) := by
  set_option maxRecDepth 1000000 in decide

/-- An error of `indexBlocks` is logged and not returned. The block served by `envC10` decrypts
to the window `windowC10`, whose second UTXO the codec of `demoEnv` refuses (a value of `-1`,
which no output read from the chain carries); `indexBlocks` returns an error for it, and
`fetchAndIndexUxto` still moves the cursor of `alice` from 5 to 6, in memory and under
`NUM || pk`, and commits the `ROOT` record written before the error. -/
theorem fetchAndIndexUxto_advances_after_index_error :
    decryptGroups envC10
        (collectBlocks envC10 exC10 [alicePk] ((envC10.getBlocksInfo 5 1000).getD []) [] []).1 []
      = some windowC10 ∧
    (indexBlocks envC10 exC10 [] windowC10 []).map (fun r => r.1) = some (some "rlp: encode") ∧
    mapGet exC10.numbers alicePk = some 5 ∧
    exC10.db.get (numKey alicePk) = none ∧
    (fetchAndIndexUxto envC10 exC10 5 [alicePk]).map
        (fun r => (r.1, mapGet r.2.numbers alicePk, r.2.db.get (numKey alicePk),
          (r.2.db.get (rootKey (fill256 7))).isSome, r.2.db.length))
      = some (1, some 6, some (encodeNumber 6), true, 2) := by
  set_option maxRecDepth 1000000 in decide

/-! ## Theorems: the batch built by `indexBlocks` -/

theorem mem_mapSet {κ ν : Type} [DecidableEq κ] {m : List (κ × ν)} {k : κ} {v : ν} {x : κ × ν}
    (h : x ∈ mapSet m k v) : x ∈ m ∨ x = (k, v) := by
  induction m with
  | nil => right; simpa [mapSet] using h
  | cons e rest ih =>
    obtain ⟨k0, v0⟩ := e
    unfold mapSet at h
    by_cases h0 : k0 = k
    · simp only [h0, if_true, List.mem_cons] at h
      rcases h with h | h
      · right; exact h
      · left; exact List.mem_cons_of_mem _ h
    · simp only [h0, if_false, List.mem_cons] at h
      rcases h with h | h
      · left; rw [h]; exact List.mem_cons_self _ _
      · rcases ih h with h' | h'
        · left; exact List.mem_cons_of_mem _ h'
        · right; exact h'

theorem mem_mapDel {κ ν : Type} [DecidableEq κ] {m : List (κ × ν)} {k : κ} {x : κ × ν}
    (h : x ∈ mapDel m k) : x ∈ m := by
  unfold mapDel at h
  exact (List.mem_filter.mp h).1

theorem mapGet_ne_none_of_mem {κ ν : Type} [DecidableEq κ] {m : List (κ × ν)} {x : κ × ν}
    (h : x ∈ m) : mapGet m x.1 ≠ none := by
  induction m with
  | nil => simp at h
  | cons e rest ih =>
    obtain ⟨k0, v0⟩ := e
    by_cases h0 : k0 = x.1
    · simp [mapGet, h0]
    · simp only [mapGet, h0, if_false]
      rcases List.mem_cons.mp h with h' | h'
      · exact absurd (by rw [h']) h0
      · exact ih h'

theorem OpsEntryOk.mono {b b' : Batch} {e : Bytes × Bytes} (hsub : ∀ op ∈ b, op ∈ b')
    (h : OpsEntryOk b e) : OpsEntryOk b' e := by
  obtain ⟨pk, cur, root, data, hm, hshape⟩ := h
  exact ⟨pk, cur, root, data, hsub _ hm, hshape⟩

theorem indexList_shape (env : Env) (pk : Uint512) :
    ∀ (list : List Uxto) (batch : Batch) (ops : List (Bytes × Bytes)) (roots : List Uint256)
      (e : Option String) (batch1 : Batch) (ops1 : List (Bytes × Bytes)) (roots1 : List Uint256),
      indexList env pk list batch ops roots = some (e, batch1, ops1, roots1) →
      (∀ op ∈ batch, IsIndexPut op) → (∀ x ∈ ops, OpsEntryOk batch x) →
      (∀ op ∈ batch1, IsIndexPut op) ∧ (∀ x ∈ ops1, OpsEntryOk batch1 x) := by
  intro list
  induction list with
  | nil =>
    intro batch ops roots e batch1 ops1 roots1 h hb ho
    simp only [indexList, Option.some.injEq, Prod.mk.injEq] at h
    obtain ⟨_, rfl, rfl, _⟩ := h
    exact ⟨hb, ho⟩
  | cons u rest ih =>
    intro batch ops roots e batch1 ops1 roots1 h hb ho
    unfold indexList at h
    cases henc : env.encodeUxto u with
    | none =>
      simp only [henc, Option.some.injEq, Prod.mk.injEq] at h
      obtain ⟨_, rfl, rfl, _⟩ := h
      exact ⟨hb, ho⟩
    | some data =>
      simp only [henc] at h
      cases ht : u.Asset.Tkn with
      | none => simp [ht] at h
      | some tkn =>
        simp only [ht] at h
        have hpk : indexPkKey pk u = uxtoPkKey pk tkn.Currency.val (some u.Root) := by
          simp [indexPkKey, ht]
        rw [hpk] at h
        have hb' : ∀ op ∈ batch ++ [BatchOp.put (rootKey u.Root) data], IsIndexPut op := by
          intro op hop
          rcases List.mem_append.mp hop with h1 | h1
          · exact hb op h1
          · have : op = BatchOp.put (rootKey u.Root) data := by simpa using h1
            exact Or.inl ⟨u.Root, data, this⟩
        have hin : BatchOp.put (rootKey u.Root) data
            ∈ batch ++ [BatchOp.put (rootKey u.Root) data] := by simp
        have hsub : ∀ op ∈ batch, op ∈ batch ++ [BatchOp.put (rootKey u.Root) data] :=
          fun op hop => List.mem_append_left _ hop
        refine ih _ _ _ _ _ _ _ h hb' ?_
        intro x hx
        rcases mem_mapSet hx with hx | hx
        · rcases mem_mapSet hx with hx | hx
          · rcases mem_mapSet hx with hx | hx
            · exact (ho x hx).mono hsub
            · exact ⟨pk, tkn.Currency, u.Root, data, hin, Or.inl ⟨by rw [hx], by rw [hx]⟩⟩
          · exact ⟨pk, tkn.Currency, u.Root, data, hin, Or.inr ⟨u.Nil, by rw [hx], by rw [hx]⟩⟩
        · exact ⟨pk, tkn.Currency, u.Root, data, hin, Or.inr ⟨u.Root, by rw [hx], by rw [hx]⟩⟩

theorem indexGroups_shape (env : Env) :
    ∀ (uxtos : List (PkrKey × List Uxto)) (batch : Batch) (ops : List (Bytes × Bytes))
      (e : Option String) (batch1 : Batch) (ops1 : List (Bytes × Bytes)),
      indexGroups env uxtos batch ops = some (e, batch1, ops1) →
      (∀ op ∈ batch, IsIndexPut op) → (∀ x ∈ ops, OpsEntryOk batch x) →
      (∀ op ∈ batch1, IsIndexPut op) ∧ (∀ x ∈ ops1, OpsEntryOk batch1 x) := by
  intro uxtos
  induction uxtos with
  | nil =>
    intro batch ops e batch1 ops1 h hb ho
    simp only [indexGroups, Option.some.injEq, Prod.mk.injEq] at h
    obtain ⟨_, rfl, rfl⟩ := h
    exact ⟨hb, ho⟩
  | cons g rest ih =>
    intro batch ops e batch1 ops1 h hb ho
    obtain ⟨key, list⟩ := g
    unfold indexGroups at h
    cases hl : indexList env key.account.pk list batch ops [] with
    | none => simp [hl] at h
    | some r =>
      obtain ⟨e1, b1, o1, roots⟩ := r
      obtain ⟨hb1, ho1⟩ := indexList_shape env key.account.pk list batch ops [] e1 b1 o1 roots
        hl hb ho
      cases e1 with
      | some err =>
        simp only [hl, Option.some.injEq, Prod.mk.injEq] at h
        obtain ⟨_, rfl, rfl⟩ := h
        exact ⟨hb1, ho1⟩
      | none =>
        simp only [hl] at h
        cases henc : env.encodeRoots roots with
        | none =>
          simp only [henc, Option.some.injEq, Prod.mk.injEq] at h
          obtain ⟨_, rfl, rfl⟩ := h
          exact ⟨hb1, ho1⟩
        | some data =>
          simp only [henc] at h
          refine ih _ _ _ _ _ h ?_ ?_
          · intro op hop
            rcases List.mem_append.mp hop with h1 | h1
            · exact hb1 op h1
            · have : op = BatchOp.put (uxtoPkrKey key.pkr key.num) data := by simpa using h1
              exact Or.inr ⟨key.pkr, key.num, data, this⟩
          · intro x hx
            exact (ho1 x hx).mono (fun op hop => List.mem_append_left _ hop)

theorem indexNils_eq (db : Store) :
    ∀ (nils : List Uint256) (batch : Batch) (ops : List (Bytes × Bytes))
      (usedFlag : List (FlagKey × Int)),
      (indexNils db nils batch ops usedFlag).1 = batch ++ delsOf db (nilsElse nils ops) ∧
      (indexNils db nils batch ops usedFlag).2.1 = nilsOps nils ops := by
  intro nils
  induction nils with
  | nil => intro batch ops usedFlag; simp [indexNils, nilsElse, nilsOps, delsOf]
  | cons n rest ih =>
    intro batch ops usedFlag
    unfold indexNils nilsElse nilsOps
    cases hg : mapGet ops (bytes2Hex (nilKey n)) with
    | some value => simp only [hg]; exact ih _ _ _
    | none =>
      simp only [hg]
      cases hd : db.get (nilKey n) with
      | some data =>
        simp only [hd, delsOf]
        obtain ⟨h1, h2⟩ := ih (batch ++ [BatchOp.del data, BatchOp.del (nilKey n)]) ops
          (mapDel usedFlag (FlagKey.str (bytes2Hex n.val)))
        exact ⟨by rw [h1]; simp, h2⟩
      | none =>
        simp only [hd, delsOf]
        exact ih _ _ _

theorem nilsOps_subset :
    ∀ (nils : List Uint256) (ops : List (Bytes × Bytes)) (x : Bytes × Bytes),
      x ∈ nilsOps nils ops → x ∈ ops := by
  intro nils
  induction nils with
  | nil => intro ops x h; exact h
  | cons n rest ih =>
    intro ops x h
    unfold nilsOps at h
    cases hg : mapGet ops (bytes2Hex (nilKey n)) with
    | some value =>
      simp only [hg] at h
      exact mem_mapDel (mem_mapDel (ih _ x h))
    | none =>
      simp only [hg] at h
      exact ih _ x h

theorem nilsOps_get_none (k : Bytes) :
    ∀ (nils : List Uint256) (ops : List (Bytes × Bytes)),
      mapGet ops k = none → mapGet (nilsOps nils ops) k = none := by
  intro nils
  induction nils with
  | nil => intro ops h; exact h
  | cons n rest ih =>
    intro ops h
    unfold nilsOps
    cases hg : mapGet ops (bytes2Hex (nilKey n)) with
    | some value =>
      simp only [hg]
      apply ih
      rw [mapGet_mapDel, mapGet_mapDel, h]
      simp
    | none =>
      simp only [hg]
      exact ih _ h

theorem nilsElse_get_none :
    ∀ (nils : List Uint256) (ops : List (Bytes × Bytes)) (x : Uint256),
      x ∈ nilsElse nils ops → mapGet (nilsOps nils ops) (bytes2Hex (nilKey x)) = none := by
  intro nils
  induction nils with
  | nil => intro ops x h; simp [nilsElse] at h
  | cons n rest ih =>
    intro ops x h
    unfold nilsElse at h
    unfold nilsOps
    cases hg : mapGet ops (bytes2Hex (nilKey n)) with
    | some value =>
      simp only [hg] at h ⊢
      exact ih _ x h
    | none =>
      simp only [hg] at h ⊢
      rcases List.mem_cons.mp h with h' | h'
      · subst h'
        exact nilsOps_get_none _ rest ops hg
      · exact ih _ x h'

theorem delsOf_mem (db : Store) :
    ∀ (xs : List Uint256) (op : BatchOp), op ∈ delsOf db xs →
      ∃ x ∈ xs, op = BatchOp.del (nilKey x) ∨
        ∃ data, db.get (nilKey x) = some data ∧ op = BatchOp.del data := by
  intro xs
  induction xs with
  | nil => intro op h; simp [delsOf] at h
  | cons n rest ih =>
    intro op h
    unfold delsOf at h
    cases hd : db.get (nilKey n) with
    | some data =>
      simp only [hd, List.mem_cons] at h
      rcases h with h | h | h
      · exact ⟨n, List.mem_cons_self _ _, Or.inr ⟨data, hd, h⟩⟩
      · exact ⟨n, List.mem_cons_self _ _, Or.inl h⟩
      · obtain ⟨x, hx, hop⟩ := ih op h
        exact ⟨x, List.mem_cons_of_mem _ hx, hop⟩
    | none =>
      simp only [hd] at h
      obtain ⟨x, hx, hop⟩ := ih op h
      exact ⟨x, List.mem_cons_of_mem _ hx, hop⟩

theorem delsOf_nil_of_absent (db : Store) :
    ∀ xs : List Uint256, (∀ x ∈ xs, db.get (nilKey x) = none) → delsOf db xs = [] := by
  intro xs
  induction xs with
  | nil => intro _; rfl
  | cons n rest ih =>
    intro h
    unfold delsOf
    rw [h n (List.mem_cons_self _ _)]
    exact ih (fun x hx => h x (List.mem_cons_of_mem _ hx))

theorem delsOf_has_del (db : Store) :
    ∀ (xs : List Uint256) (x : Uint256), x ∈ xs → db.get (nilKey x) ≠ none →
      BatchOp.del (nilKey x) ∈ delsOf db xs := by
  intro xs
  induction xs with
  | nil => intro x h; simp at h
  | cons n rest ih =>
    intro x hx hne
    unfold delsOf
    rcases List.mem_cons.mp hx with h' | h'
    · subst h'
      cases hd : db.get (nilKey x) with
      | none => exact absurd hd hne
      | some data => simp
    · cases hd : db.get (nilKey n) with
      | none => simpa [hd] using ih x h' hne
      | some data =>
        simp only [List.mem_cons]
        exact Or.inr (Or.inr (ih x h' hne))

theorem present_put (t : Store) (k v k' : Bytes) (h : t.get k' ≠ none) :
    (t.put k v).get k' ≠ none := by
  rw [Store.get_put]
  by_cases hk : k' = k <;> simp [hk, h]

theorem present_put_self (t : Store) (k v : Bytes) : (t.put k v).get k ≠ none := by
  rw [Store.get_put]; simp

theorem present_del (t : Store) (k k' : Bytes) (hne : k' ≠ k) (h : t.get k' ≠ none) :
    (t.delete k).get k' ≠ none := by
  rw [Store.get_delete]; simp [hne, h]

theorem sound_put_neutral (t : Store) (k v : Bytes) (hn : ∀ n, k ≠ nilKey n)
    (hp : ∀ (pk : Uint512) (cur root : Uint256), k ≠ uxtoPkKey pk cur.val (some root))
    (h : IndexSound t) : IndexSound (t.put k v) := by
  obtain ⟨h1, h2⟩ := h
  constructor
  · intro pk cur root hg
    rw [Store.get_put] at hg
    have hne : ¬ uxtoPkKey pk cur.val (some root) = k := fun e => hp pk cur root e.symm
    simp only [hne, if_false] at hg
    exact present_put _ _ _ _ (h1 pk cur root hg)
  · intro n v' hg
    rw [Store.get_put] at hg
    have hne : ¬ nilKey n = k := fun e => hn n e.symm
    simp only [hne, if_false] at hg
    obtain ⟨pk, cur, root, hv, hr⟩ := h2 n v' hg
    exact ⟨pk, cur, root, hv, present_put _ _ _ _ hr⟩

theorem sound_del (t : Store) (k : Bytes) (hr : ∀ r, k ≠ rootKey r) (h : IndexSound t) :
    IndexSound (t.delete k) := by
  obtain ⟨h1, h2⟩ := h
  constructor
  · intro pk cur root hg
    rw [Store.get_delete] at hg
    by_cases hk : uxtoPkKey pk cur.val (some root) = k
    · simp [hk] at hg
    · simp only [hk, if_false] at hg
      exact present_del _ _ _ (fun e => hr root e.symm) (h1 pk cur root hg)
  · intro n v' hg
    rw [Store.get_delete] at hg
    by_cases hk : nilKey n = k
    · simp [hk] at hg
    · simp only [hk, if_false] at hg
      obtain ⟨pk, cur, root, hv, hroot⟩ := h2 n v' hg
      exact ⟨pk, cur, root, hv, present_del _ _ _ (fun e => hr root e.symm) hroot⟩

theorem sound_put_pk (t : Store) (pk : Uint512) (cur root : Uint256) (v : Bytes)
    (hr : t.get (rootKey root) ≠ none) (h : IndexSound t) :
    IndexSound (t.put (uxtoPkKey pk cur.val (some root)) v) := by
  obtain ⟨h1, h2⟩ := h
  constructor
  · intro pk' cur' root' hg
    rw [Store.get_put] at hg
    by_cases hk : uxtoPkKey pk' cur'.val (some root') = uxtoPkKey pk cur.val (some root)
    · obtain ⟨_, _, hroot⟩ := uxtoPkKey_inj hk
      rw [hroot]
      exact present_put _ _ _ _ hr
    · simp only [hk, if_false] at hg
      exact present_put _ _ _ _ (h1 pk' cur' root' hg)
  · intro n v' hg
    rw [Store.get_put] at hg
    have hne : ¬ nilKey n = uxtoPkKey pk cur.val (some root) := nilKey_ne_pkKey n pk cur root
    simp only [hne, if_false] at hg
    obtain ⟨pk', cur', root', hv, hroot⟩ := h2 n v' hg
    exact ⟨pk', cur', root', hv, present_put _ _ _ _ hroot⟩

theorem sound_put_nil (t : Store) (n : Uint256) (pk : Uint512) (cur root : Uint256)
    (hr : t.get (rootKey root) ≠ none) (h : IndexSound t) :
    IndexSound (t.put (nilKey n) (uxtoPkKey pk cur.val (some root))) := by
  obtain ⟨h1, h2⟩ := h
  constructor
  · intro pk' cur' root' hg
    rw [Store.get_put] at hg
    have hne : ¬ uxtoPkKey pk' cur'.val (some root') = nilKey n :=
      fun e => nilKey_ne_pkKey n pk' cur' root' e.symm
    simp only [hne, if_false] at hg
    exact present_put _ _ _ _ (h1 pk' cur' root' hg)
  · intro n' v' hg
    rw [Store.get_put] at hg
    by_cases hk : nilKey n' = nilKey n
    · simp only [hk, if_true, Option.some.injEq] at hg
      exact ⟨pk, cur, root, hg.symm, present_put _ _ _ _ hr⟩
    · simp only [hk, if_false] at hg
      obtain ⟨pk', cur', root', hv, hroot⟩ := h2 n' v' hg
      exact ⟨pk', cur', root', hv, present_put _ _ _ _ hroot⟩

theorem IsIndexPut.sound {op : BatchOp} (hop : IsIndexPut op) (t : Store) (h : IndexSound t) :
    IndexSound (op.apply t) := by
  rcases hop with ⟨r, data, rfl⟩ | ⟨pkr, n, data, rfl⟩
  · exact sound_put_neutral t _ _ (fun n => rootKey_ne_nilKey r n)
      (fun pk cur root => rootKey_ne_pkKey r pk cur root) h
  · exact sound_put_neutral t _ _ (fun m e => nilKey_ne_pkrKey m pkr n e.symm)
      (fun pk cur root e => pkKey_ne_pkrKey pk cur root pkr n e.symm) h

theorem IsIndexPut.present {op : BatchOp} (hop : IsIndexPut op) (t : Store) (k : Bytes)
    (h : t.get k ≠ none) : (op.apply t).get k ≠ none := by
  rcases hop with ⟨r, data, rfl⟩ | ⟨pkr, n, data, rfl⟩
  · exact present_put _ _ _ _ h
  · exact present_put _ _ _ _ h

theorem write_indexPuts_present :
    ∀ (b : Batch) (s : Store), (∀ op ∈ b, IsIndexPut op) → RootsPresent b (Batch.write b s) := by
  intro b
  induction b with
  | nil => intro s _ root data h; simp at h
  | cons op rest ih =>
    intro s hb root data hmem
    rw [Batch.write_cons]
    have hrest : ∀ o ∈ rest, IsIndexPut o := fun o ho => hb o (List.mem_cons_of_mem _ ho)
    rcases List.mem_cons.mp hmem with h | h
    · have hp : (op.apply s).get (rootKey root) ≠ none := by
        rw [← h]; exact present_put_self _ _ _
      exact Batch.write_preserves (fun t => t.get (rootKey root) ≠ none) rest _
        (fun o ho t ht => (hrest o ho).present t _ ht) hp
    · exact ih _ hrest root data h

theorem numPuts_sound (pks : List Uint512) (num : Nat) (s : Store) (h : IndexSound s) :
    IndexSound (Batch.write (numPuts pks num) s) := by
  apply Batch.write_preserves IndexSound _ _ _ h
  intro op hop t ht
  obtain ⟨pk, _, rfl⟩ := List.mem_map.mp hop
  exact sound_put_neutral t _ _ (fun n e => nilKey_ne_numKey n pk e.symm)
    (fun pk' cur root e => pkKey_ne_numKey pk' cur root pk e.symm) ht

theorem indexBlocks_sound (env : Env) (ex : Exchange) (uxtos : List (PkrKey × List Uxto))
    (nils : List Uint256) (e : Option String) (batch : Batch) (usedFlag : List (FlagKey × Int))
    (h : indexBlocks env ex [] uxtos nils = some (e, batch, usedFlag))
    (hs : IndexSound ex.db) : IndexSound (Batch.write batch ex.db) := by
  unfold indexBlocks at h
  cases hg : indexGroups env uxtos [] [] with
  | none => simp [hg] at h
  | some r =>
    obtain ⟨e1, b1, ops⟩ := r
    obtain ⟨hb1, ho1⟩ := indexGroups_shape env uxtos [] [] e1 b1 ops hg (by simp) (by simp)
    have hs1 : IndexSound (Batch.write b1 ex.db) :=
      Batch.write_preserves IndexSound b1 _ (fun op hop t ht => (hb1 op hop).sound t ht) hs
    cases e1 with
    | some err =>
      simp only [hg, Option.some.injEq, Prod.mk.injEq] at h
      obtain ⟨_, hb, _⟩ := h
      rw [← hb]
      exact hs1
    | none =>
      simp only [hg, Option.some.injEq, Prod.mk.injEq] at h
      obtain ⟨_, hb, _⟩ := h
      obtain ⟨hn1, hn2⟩ := indexNils_eq ex.db nils b1 ops ex.usedFlag
      rw [← hb, hn1, hn2, Batch.write_append, Batch.write_append]
      have hp1 : RootsPresent b1 (Batch.write b1 ex.db) := write_indexPuts_present b1 _ hb1
      -- the deletions
      have h2 : IndexSound (Batch.write (delsOf ex.db (nilsElse nils ops)) (Batch.write b1 ex.db))
          ∧ RootsPresent b1
            (Batch.write (delsOf ex.db (nilsElse nils ops)) (Batch.write b1 ex.db)) := by
        apply Batch.write_preserves (fun t => IndexSound t ∧ RootsPresent b1 t) _ _ _ ⟨hs1, hp1⟩
        intro op hop t ht
        obtain ⟨x, _, hx⟩ := delsOf_mem ex.db _ op hop
        have hkey : ∃ k, op = BatchOp.del k ∧ ∀ r, k ≠ rootKey r := by
          rcases hx with hx | ⟨data, hd, hx⟩
          · exact ⟨nilKey x, hx, fun r e => rootKey_ne_nilKey r x e.symm⟩
          · obtain ⟨pk, cur, root, hv, _⟩ := hs.2 x data hd
            exact ⟨data, hx, fun r e => rootKey_ne_pkKey r pk cur root (by rw [← hv, e])⟩
        obtain ⟨k, rfl, hk⟩ := hkey
        exact ⟨sound_del t k hk ht.1,
          fun root data hm => present_del t k _ (fun e => hk root e.symm) (ht.2 root data hm)⟩
      -- the writes of `ops`
      have h3 := Batch.write_preserves (fun t => IndexSound t ∧ RootsPresent b1 t)
        (List.map (fun e => BatchOp.put (hex2Bytes e.1) (hex2Bytes e.2)) (nilsOps nils ops)) _
        (by
          intro op hop t ht
          obtain ⟨x, hx, rfl⟩ := List.mem_map.mp hop
          obtain ⟨pk, cur, root, data, hm, hshape⟩ := ho1 x (nilsOps_subset nils ops x hx)
          have hroot : t.get (rootKey root) ≠ none := ht.2 root data hm
          refine ⟨?_, fun root' data' hm' => present_put _ _ _ _ (ht.2 root' data' hm')⟩
          rcases hshape with ⟨hk, hv⟩ | ⟨n, hk, hv⟩
          · rw [hk, hv, hex2Bytes_bytes2Hex, hex2Bytes_bytes2Hex]
            exact sound_put_pk t pk cur root _ hroot ht.1
          · rw [hk, hv, hex2Bytes_bytes2Hex, hex2Bytes_bytes2Hex]
            exact sound_put_nil t n pk cur root hroot ht.1) h2
      exact h3.1

theorem commitWindow_db (env : Env) (ex ex1 : Exchange) (pks : List Uint512) (num : Nat)
    (uxtos : List (PkrKey × List Uxto)) (nils : List Uint256)
    (h : commitWindow env ex pks num uxtos nils = some ex1) :
    (¬ (uxtos.length > 0 ∨ nils.length > 0) ∧
      ex1.db = Batch.write ([] ++ numPuts pks num) ex.db) ∨
    ((uxtos.length > 0 ∨ nils.length > 0) ∧
      ∃ e batch usedFlag, indexBlocks env ex [] uxtos nils = some (e, batch, usedFlag) ∧
        ex1.db = Batch.write (batch ++ numPuts pks num) ex.db) := by
  unfold commitWindow at h
  by_cases hc : uxtos.length > 0 ∨ nils.length > 0
  · right
    refine ⟨hc, ?_⟩
    simp only [hc, if_true] at h
    cases hi : indexBlocks env ex [] uxtos nils with
    | none => simp [hi] at h
    | some r =>
      obtain ⟨e, batch, usedFlag⟩ := r
      simp only [hi, Option.some.injEq] at h
      exact ⟨e, batch, usedFlag, rfl, by rw [← h]; rfl⟩
  · left
    refine ⟨hc, ?_⟩
    simp only [hc, if_false, Option.some.injEq] at h
    rw [← h]; rfl

theorem commitWindow_sound (env : Env) (ex ex1 : Exchange) (pks : List Uint512) (num : Nat)
    (uxtos : List (PkrKey × List Uxto)) (nils : List Uint256)
    (h : commitWindow env ex pks num uxtos nils = some ex1) (hs : IndexSound ex.db) :
    IndexSound ex1.db := by
  rcases commitWindow_db env ex ex1 pks num uxtos nils h with ⟨_, hdb⟩ | ⟨_, e, batch, uf, hi, hdb⟩
  · rw [hdb, Batch.write_append]
    exact numPuts_sound pks num _ hs
  · rw [hdb, Batch.write_append]
    exact numPuts_sound pks num _ (indexBlocks_sound env ex uxtos nils e batch uf hi hs)

theorem indexSound_empty : IndexSound [] := by
  constructor
  · intro pk cur root h; exact absurd rfl h
  · intro n v h; simp [Store.get, mapGet] at h

/-- In every index state reachable from the empty store by committing scan windows, every
entry `PK || pk || asset || root` has its record `ROOT || root`, and every alias `NIL || x`
holds a key `PK || pk || asset || root` whose record `ROOT || root` exists. -/
theorem reachable_indexSound (env : Env) (s : Store) (h : Reachable env s) : IndexSound s := by
  induction h with
  | empty => exact indexSound_empty
  | commit ex ex1 pks num uxtos nils _ hc ih => exact commitWindow_sound env ex ex1 pks num uxtos nils hc ih

theorem some_getD_of_isSome {α : Type} (o : Option α) (d : α) (h : o.isSome = true) :
    o = some (o.getD d) := by
  cases o with
  | none => simp at h
  | some a => rfl

theorem Store.get_none_of_length (s : Store) (k : Bytes) (h : ∀ e ∈ s, e.1.length ≠ k.length) :
    s.get k = none := by
  unfold Store.get
  apply mapGet_none_of_not_mem
  intro hk
  obtain ⟨e, he, hek⟩ := List.mem_map.mp hk
  exact h e he (by rw [hek])

set_option maxRecDepth 1000000 in
theorem commit_exC5 :
    commitWindow demoEnv ex0 [alicePk] 6 (if [uxtoC5] = [] then [] else [(aliceKey, [uxtoC5])]) []
      = some exC5 :=
  some_getD_of_isSome _ ex0 (by decide)

theorem reachable_exC5 : Reachable demoEnv exC5.db :=
  Reachable.commit ex0 exC5 [alicePk] 6
    (if [uxtoC5] = [] then [] else [(aliceKey, [uxtoC5])]) [] Reachable.empty commit_exC5

theorem indexSound_exC5 : IndexSound exC5.db :=
  commitWindow_sound demoEnv ex0 exC5 [alicePk] 6 _ [] commit_exC5 indexSound_empty

set_option maxRecDepth 1000000 in
theorem reachable_exC8 : Reachable demoEnv exC8.db :=
  Reachable.commit exC5 exC8 [alicePk] 7 [] [fill256 9] reachable_exC5
    (some_getD_of_isSome _ exC5 (by decide))

/-- C8 (counterexample): after the UTXO of scenario 3 is scanned and its nullifier is published
in the next window, the index is reachable, it holds the record `ROOT || root` of the UTXO, and
it holds no entry `PK || pk || asset || root` for that root. -/
theorem root_record_without_pk_entry :
    Reachable demoEnv exC8.db ∧
    exC8.db.get (rootKey (fill256 7)) ≠ none ∧
    ∀ (pk : Uint512) (cur : Uint256),
      exC8.db.get (uxtoPkKey pk cur.val (some (fill256 7))) = none := by
  refine ⟨reachable_exC8, ?_, ?_⟩
  · set_option maxRecDepth 1000000 in decide
  · intro pk cur
    apply Store.get_none_of_length
    rw [uxtoPkKey_length]
    set_option maxRecDepth 1000000 in decide

theorem Batch.effect_cons (op : BatchOp) (rest : Batch) (k : Bytes) :
    Batch.effect (op :: rest) k = firstSome (Batch.effect rest k) (op.effectOn k) := rfl

theorem Batch.get_write :
    ∀ (b : Batch) (s : Store) (k : Bytes),
      (Batch.write b s).get k = match b.effect k with
        | some r => r
        | none => s.get k := by
  intro b
  induction b with
  | nil => intro s k; rfl
  | cons op rest ih =>
    intro s k
    rw [Batch.write_cons, ih, Batch.effect_cons]
    cases hr : Batch.effect rest k with
    | some r => rfl
    | none =>
      simp only [firstSome]
      cases op with
      | put k' v =>
        simp only [BatchOp.apply, Store.get_put, BatchOp.effectOn]
        by_cases hk : k' = k
        · simp [hk]
        · have hk' : ¬ k = k' := fun e => hk e.symm
          simp [hk, hk']
      | del k' =>
        simp only [BatchOp.apply, Store.get_delete, BatchOp.effectOn]
        by_cases hk : k' = k
        · simp [hk]
        · have hk' : ¬ k = k' := fun e => hk e.symm
          simp [hk, hk']

theorem Batch.effect_append (b1 b2 : Batch) (k : Bytes) :
    Batch.effect (b1 ++ b2) k = firstSome (Batch.effect b2 k) (Batch.effect b1 k) := by
  induction b1 with
  | nil =>
    simp only [List.nil_append]
    cases Batch.effect b2 k <;> rfl
  | cons op rest ih =>
    simp only [List.cons_append, Batch.effect_cons, ih]
    cases Batch.effect b2 k with
    | some r => rfl
    | none => rfl

theorem BatchOp.effectOn_key (op : BatchOp) (k : Bytes) (h : op.effectOn k ≠ none) :
    op.key = k := by
  cases op with
  | put k' v =>
    by_cases hk : k' = k
    · exact hk
    · simp [BatchOp.effectOn, hk] at h
  | del k' =>
    by_cases hk : k' = k
    · exact hk
    · simp [BatchOp.effectOn, hk] at h

theorem Batch.effect_mem :
    ∀ (b : Batch) (k : Bytes), Batch.effect b k ≠ none → ∃ op ∈ b, op.key = k := by
  intro b
  induction b with
  | nil => intro k h; exact absurd rfl h
  | cons op rest ih =>
    intro k h
    rw [Batch.effect_cons] at h
    cases hr : Batch.effect rest k with
    | some r =>
      obtain ⟨o, ho, hk⟩ := ih k (by rw [hr]; simp)
      exact ⟨o, List.mem_cons_of_mem _ ho, hk⟩
    | none =>
      simp only [hr, firstSome] at h
      exact ⟨op, List.mem_cons_self _ _, op.effectOn_key k h⟩

theorem Batch.effect_none (b : Batch) (k : Bytes) (h : ∀ op ∈ b, op.key ≠ k) :
    Batch.effect b k = none := by
  by_contra hne
  obtain ⟨op, hop, hk⟩ := Batch.effect_mem b k hne
  exact h op hop hk

theorem Batch.effect_dels :
    ∀ (b : Batch) (k : Bytes), (∀ op ∈ b, ∃ k', op = BatchOp.del k') →
      (Batch.effect b k = none ∨ Batch.effect b k = some none) ∧
      (BatchOp.del k ∈ b → Batch.effect b k = some none) := by
  intro b
  induction b with
  | nil => intro k _; exact ⟨Or.inl rfl, fun h => by simp at h⟩
  | cons op rest ih =>
    intro k hb
    obtain ⟨k', rfl⟩ := hb op (List.mem_cons_self _ _)
    obtain ⟨h1, h2⟩ := ih k (fun o ho => hb o (List.mem_cons_of_mem _ ho))
    rw [Batch.effect_cons]
    rcases h1 with h1 | h1
    · rw [h1]
      by_cases hk : k' = k
      · have he : firstSome none ((BatchOp.del k').effectOn k) = some none := by
          simp [firstSome, BatchOp.effectOn, hk]
        rw [he]; exact ⟨Or.inr rfl, fun _ => rfl⟩
      · have he : firstSome none ((BatchOp.del k').effectOn k) = none := by
          simp [firstSome, BatchOp.effectOn, hk]
        rw [he]
        refine ⟨Or.inl rfl, ?_⟩
        intro hm
        rcases List.mem_cons.mp hm with h | h
        · exact absurd (by simpa using h.symm) hk
        · rw [h2 h] at h1; cases h1
    · rw [h1]; exact ⟨Or.inr rfl, fun _ => rfl⟩

theorem Batch.write_twice (b : Batch) (s : Store) (k : Bytes) :
    (Batch.write b (Batch.write b s)).get k = (Batch.write b s).get k := by
  rw [Batch.get_write b (Batch.write b s), Batch.get_write b s]
  cases Batch.effect b k <;> rfl

theorem delsOf_all_del (db : Store) (xs : List Uint256) :
    ∀ op ∈ delsOf db xs, ∃ k', op = BatchOp.del k' := by
  intro op hop
  obtain ⟨x, _, h⟩ := delsOf_mem db xs op hop
  rcases h with h | ⟨data, _, h⟩
  · exact ⟨_, h⟩
  · exact ⟨_, h⟩

theorem windowBatch_spec (env : Env) (ex : Exchange) (pks : List Uint512) (num : Nat)
    (uxtos : List (PkrKey × List Uxto)) (nils : List Uint256) :
    (commitWindow env ex pks num uxtos nils).map (fun e => e.db)
      = (windowBatch env ex.db uxtos nils).map
          (fun b => Batch.write (b ++ numPuts pks num) ex.db) := by
  unfold commitWindow windowBatch
  by_cases hc : uxtos.length > 0 ∨ nils.length > 0
  · simp only [hc, if_true]
    unfold indexBlocks
    cases hg : indexGroups env uxtos [] [] with
    | none => rfl
    | some r =>
      obtain ⟨e1, b1, ops⟩ := r
      cases e1 with
      | some err => rfl
      | none =>
        obtain ⟨hn1, hn2⟩ := indexNils_eq ex.db nils b1 ops ex.usedFlag
        simp only [Option.map_some', Option.some.injEq]
        rw [hn1, hn2]
        rfl
  · simp only [hc, if_false]
    rfl

theorem IsIndexPut.key_cases {op : BatchOp} (h : IsIndexPut op) :
    (∃ r, op.key = rootKey r) ∨ (∃ pkr n, op.key = uxtoPkrKey pkr n) := by
  rcases h with ⟨r, data, rfl⟩ | ⟨pkr, n, data, rfl⟩
  · exact Or.inl ⟨r, rfl⟩
  · exact Or.inr ⟨pkr, n, rfl⟩

theorem opsPuts_effect_nilKey (b1 : Batch) (ops : List (Bytes × Bytes)) (nils : List Uint256)
    (ho : ∀ x ∈ ops, OpsEntryOk b1 x) (x : Uint256) (hx : x ∈ nilsElse nils ops) :
    Batch.effect (opsPuts (nilsOps nils ops)) (nilKey x) = none := by
  apply Batch.effect_none
  intro op hop hk
  obtain ⟨e, he, rfl⟩ := List.mem_map.mp hop
  simp only [BatchOp.key] at hk
  obtain ⟨pk, cur, root, data, _, hshape⟩ := ho e (nilsOps_subset nils ops e he)
  have hnone := nilsElse_get_none nils ops x hx
  have hsome := mapGet_ne_none_of_mem he
  rcases hshape with ⟨h1, _⟩ | ⟨n, h1, _⟩
  · rw [h1, hex2Bytes_bytes2Hex] at hk
    exact nilKey_ne_pkKey x pk cur root hk.symm
  · rw [h1, hex2Bytes_bytes2Hex] at hk
    rw [h1, hk] at hsome
    exact hsome hnone

theorem window_idem_core (s : Store) (b1 : Batch) (ops : List (Bytes × Bytes))
    (nils : List Uint256) (N : Batch)
    (hb1 : ∀ op ∈ b1, IsIndexPut op) (ho : ∀ x ∈ ops, OpsEntryOk b1 x)
    (hN : ∀ op ∈ N, ∃ pk v, op = BatchOp.put (numKey pk) v)
    (hn : NilsHoldPkKeys s) :
    delsOf (Batch.write ((b1 ++ delsOf s (nilsElse nils ops) ++ opsPuts (nilsOps nils ops)) ++ N) s)
        (nilsElse nils ops) = [] ∧
    ∀ k, (Batch.write ((b1 ++ [] ++ opsPuts (nilsOps nils ops)) ++ N)
            (Batch.write
              ((b1 ++ delsOf s (nilsElse nils ops) ++ opsPuts (nilsOps nils ops)) ++ N) s)).get k
        = (Batch.write
              ((b1 ++ delsOf s (nilsElse nils ops) ++ opsPuts (nilsOps nils ops)) ++ N) s).get k := by
  have hNeff : ∀ x : Uint256, Batch.effect N (nilKey x) = none := by
    intro x
    apply Batch.effect_none
    intro op hop hk
    obtain ⟨pk, v, rfl⟩ := hN op hop
    exact nilKey_ne_numKey x pk hk.symm
  have hBeff : ∀ x : Uint256, Batch.effect b1 (nilKey x) = none := by
    intro x
    apply Batch.effect_none
    intro op hop hk
    rcases (hb1 op hop).key_cases with ⟨r, hr⟩ | ⟨pkr, n, hr⟩
    · exact rootKey_ne_nilKey r x (by rw [← hr, hk])
    · exact nilKey_ne_pkrKey x pkr n (by rw [← hr, hk])
  have hD := fun k => Batch.effect_dels (delsOf s (nilsElse nils ops)) k
    (delsOf_all_del s (nilsElse nils ops))
  constructor
  · apply delsOf_nil_of_absent
    intro x hx
    rw [Batch.get_write, Batch.effect_append, Batch.effect_append, Batch.effect_append,
      hNeff x, opsPuts_effect_nilKey b1 ops nils ho x hx, hBeff x]
    rcases (hD (nilKey x)).1 with hd | hd
    · rw [hd]
      simp only [firstSome]
      by_contra hne
      have := (hD (nilKey x)).2 (delsOf_has_del s _ x hx hne)
      rw [hd] at this; cases this
    · rw [hd]; rfl
  · intro k
    rw [Batch.get_write _ (Batch.write _ s), Batch.get_write _ s]
    simp only [Batch.effect_append]
    have hnil : Batch.effect ([] : Batch) k = none := rfl
    rw [hnil]
    cases hNk : Batch.effect N k with
    | some r => rfl
    | none =>
      cases hPk : Batch.effect (opsPuts (nilsOps nils ops)) k with
      | some r => rfl
      | none =>
        cases hBk : Batch.effect b1 k with
        | none => simp only [firstSome]
        | some r =>
          have hDk : Batch.effect (delsOf s (nilsElse nils ops)) k = none := by
            by_contra hne
            obtain ⟨op, hop, hk⟩ := Batch.effect_mem _ k hne
            obtain ⟨op1, hop1, hk1⟩ := Batch.effect_mem b1 k (by rw [hBk]; simp)
            obtain ⟨x, _, hx⟩ := delsOf_mem s _ op hop
            have hcases := (hb1 op1 hop1).key_cases
            rw [hk1] at hcases
            rcases hx with hx | ⟨data, hd, hx⟩
            · rw [hx] at hk
              simp only [BatchOp.key] at hk
              rcases hcases with ⟨r', hr⟩ | ⟨pkr, n, hr⟩
              · exact rootKey_ne_nilKey r' x (by rw [← hr, hk])
              · exact nilKey_ne_pkrKey x pkr n (by rw [← hr, hk])
            · rw [hx] at hk
              simp only [BatchOp.key] at hk
              obtain ⟨pk, cur, root, hv⟩ := hn x data hd
              rcases hcases with ⟨r', hr⟩ | ⟨pkr, n, hr⟩
              · exact rootKey_ne_pkKey r' pk cur root (by rw [← hr, ← hk, hv])
              · exact pkKey_ne_pkrKey pk cur root pkr n (by rw [← hr, ← hk, hv])
          rw [hDk]
          rfl

theorem numPuts_shape (pks : List Uint512) (num : Nat) :
    ∀ op ∈ numPuts pks num, ∃ pk v, op = BatchOp.put (numKey pk) v := by
  intro op hop
  obtain ⟨pk, _, rfl⟩ := List.mem_map.mp hop
  exact ⟨pk, _, rfl⟩

/-- On a store in which every alias `NIL || x` holds a key of the form
`PK || pk || asset || root`, committing a window a second time succeeds whenever the first
commit did and leaves every key with the value it had after the first commit. -/
theorem commitWindow_idem (env : Env) (ex ex1 : Exchange) (pks : List Uint512)
    (num : Nat) (uxtos : List (PkrKey × List Uxto)) (nils : List Uint256)
    (hn : NilsHoldPkKeys ex.db)
    (h1 : commitWindow env ex pks num uxtos nils = some ex1) :
    ∃ ex2, commitWindow env ex1 pks num uxtos nils = some ex2 ∧
      ∀ k, ex2.db.get k = ex1.db.get k := by
  have hw1 := windowBatch_spec env ex pks num uxtos nils
  have hw2 := windowBatch_spec env ex1 pks num uxtos nils
  rw [h1] at hw1
  simp only [Option.map_some'] at hw1
  have key : ∃ s2, (windowBatch env ex1.db uxtos nils).map
      (fun b => Batch.write (b ++ numPuts pks num) ex1.db) = some s2 ∧
      ∀ k, s2.get k = ex1.db.get k := by
    unfold windowBatch at hw1 ⊢
    by_cases hc : uxtos.length > 0 ∨ nils.length > 0
    · simp only [hc, if_true] at hw1 ⊢
      cases hg : indexGroups env uxtos [] [] with
      | none => simp [hg] at hw1
      | some r =>
        obtain ⟨e1, b1, ops⟩ := r
        obtain ⟨hb1, ho1⟩ := indexGroups_shape env uxtos [] [] e1 b1 ops hg (by simp) (by simp)
        cases e1 with
        | some err =>
          simp only [hg, Option.map_some', Option.some.injEq] at hw1 ⊢
          refine ⟨_, rfl, ?_⟩
          intro k
          rw [hw1]
          exact Batch.write_twice _ _ k
        | none =>
          simp only [hg, Option.map_some', Option.some.injEq] at hw1 ⊢
          refine ⟨_, rfl, ?_⟩
          obtain ⟨hd, hidem⟩ := window_idem_core ex.db b1 ops nils (numPuts pks num) hb1 ho1
            (numPuts_shape pks num) hn
          intro k
          rw [hw1, hd]
          exact hidem k
    · simp only [hc, if_false, Option.map_some', Option.some.injEq] at hw1 ⊢
      refine ⟨_, rfl, ?_⟩
      intro k
      rw [hw1]
      exact Batch.write_twice _ _ k
  obtain ⟨s2, hs2, hget⟩ := key
  rw [← hw2] at hs2
  cases hc2 : commitWindow env ex1 pks num uxtos nils with
  | none => rw [hc2] at hs2; simp at hs2
  | some ex2 =>
    rw [hc2] at hs2
    simp only [Option.map_some', Option.some.injEq] at hs2
    exact ⟨ex2, rfl, fun k => by rw [hs2]; exact hget k⟩

theorem IndexSound.nilsHoldPkKeys {s : Store} (h : IndexSound s) : NilsHoldPkKeys s := by
  intro n v hv
  obtain ⟨pk, cur, root, hk, _⟩ := h.2 n v hv
  exact ⟨pk, cur, root, hk⟩

/-- The store `exC9` is not reachable: its alias `NIL || x` holds the key `ROOT || r`, which
`indexBlocks` never writes under an alias. On it the window with a UTXO of root `r` and the
published nullifier `x` leaves no record `ROOT || r` when it is committed once and leaves that
record when it is committed twice. -/
theorem commitWindow_twice_differs :
    commitWindow demoEnv exC9 [alicePk] 6 windowC9 [fill256 12] = some exC9once ∧
    commitWindow demoEnv exC9once [alicePk] 6 windowC9 [fill256 12] = some exC9twice ∧
    exC9once.db.get (rootKey (fill256 7)) = none ∧
    exC9twice.db.get (rootKey (fill256 7)) ≠ none := by
  refine ⟨some_getD_of_isSome _ exC9 ?_, some_getD_of_isSome _ exC9once ?_, ?_, ?_⟩
  · set_option maxRecDepth 1000000 in decide
  · set_option maxRecDepth 1000000 in decide
  · set_option maxRecDepth 1000000 in decide
  · set_option maxRecDepth 1000000 in decide

/-- C9: on every index store reachable from the empty store by committing scan windows,
reprocessing a window is idempotent: when the commit of a window (decrypted UTXOs and published
nullifiers) succeeds, committing the same window again succeeds too and leaves every key with
the value it had after the first commit. -/
theorem commitWindow_idempotent (env : Env) (ex ex1 : Exchange) (pks : List Uint512)
    (num : Nat) (uxtos : List (PkrKey × List Uxto)) (nils : List Uint256)
    (hr : Reachable env ex.db)
    (h1 : commitWindow env ex pks num uxtos nils = some ex1) :
    ∃ ex2, commitWindow env ex1 pks num uxtos nils = some ex2 ∧
      ∀ k, ex2.db.get k = ex1.db.get k :=
  commitWindow_idem env ex ex1 pks num uxtos nils
    (reachable_indexSound env ex.db hr).nilsHoldPkKeys h1

set_option maxRecDepth 1000000 in
theorem commitWindow_idempotent_witness :
    Reachable demoEnv exC5.db ∧
    commitWindow demoEnv exC5 [alicePk] 7 [(aliceKey, [mkUxto 10 11 seroCurrency 4])]
      [fill256 9] = some exC9next ∧
    ∃ ex2, commitWindow demoEnv exC9next [alicePk] 7 [(aliceKey, [mkUxto 10 11 seroCurrency 4])]
        [fill256 9] = some ex2 ∧
      ∀ k, ex2.db.get k = exC9next.db.get k :=
  ⟨reachable_exC5,
   some_getD_of_isSome _ exC5 (by decide),
   commitWindow_idempotent demoEnv exC5 exC9next [alicePk] 7
     [(aliceKey, [mkUxto 10 11 seroCurrency 4])] [fill256 9]
     reachable_exC5
     (some_getD_of_isSome _ exC5 (by decide))⟩

/-! ## Theorems: subaddresses, the number codec and the key decoders -/

theorem decodeNumber_encodeNumber (n : Nat) (h : n < 2 ^ 64) :
    decodeNumber (encodeNumber n) = some n := by
  simp only [encodeNumber, decodeNumber, Fin.ofNat]
  simp
  omega

theorem encodeNumber_length (n : Nat) : (encodeNumber n).length = 8 := by
  simp [encodeNumber]

theorem encodeNumber_decodeNumber (b : Bytes) (h : b.length = 8) :
    ∃ m, decodeNumber b = some m ∧ m < 2 ^ 64 ∧ encodeNumber m = b := by
  match b, h with
  | [b0, b1, b2, b3, b4, b5, b6, b7], _ =>
    refine ⟨_, rfl, ?_, ?_⟩
    · have := b0.isLt; have := b1.isLt; have := b2.isLt; have := b3.isLt
      have := b4.isLt; have := b5.isLt; have := b6.isLt; have := b7.isLt
      norm_num
      omega
    · have := b0.isLt; have := b1.isLt; have := b2.isLt; have := b3.isLt
      have := b4.isLt; have := b5.isLt; have := b6.isLt; have := b7.isLt
      simp only [encodeNumber, Fin.ofNat]
      simp only [List.cons.injEq, and_true]
      refine ⟨?_, ?_, ?_, ?_, ?_, ?_, ?_, ?_⟩ <;> (apply Fin.ext; simp; omega)

theorem copyInto_self (n : Nat) (l : Bytes) (h : l.length = n) : copyInto n l = l := by
  simp [copyInto, ← h]

theorem keyRoot_uxtoPkKey (pk : Uint512) (c : Bytes) (r : Uint256) (hc : c.length = 32) :
    ((uxtoPkKey pk c (some r)).drop 98).take 32 = r.val ∧ keyRoot (uxtoPkKey pk c (some r)) = r := by
  have hpos : c.length > 0 := by omega
  have hkey : uxtoPkKey pk c (some r) = (pkPrefix ++ pk.val ++ c) ++ r.val := by
    simp [uxtoPkKey, hpos]
  have hlen : (pkPrefix ++ pk.val ++ c).length = 98 := by
    simp [pkPrefix, pk.len, hc]
  have hdrop : ((uxtoPkKey pk c (some r)).drop 98).take 32 = r.val := by
    rw [hkey, List.drop_left' hlen, ← r.len, List.take_length]
  refine ⟨hdrop, ?_⟩
  apply uint256_ext
  simp only [keyRoot, Uint256.ofCopy]
  rw [hdrop]
  exact copyInto_self 32 r.val r.len

/-- C12: `GetPkr` returns an error exactly when `index < 100` or `pk` is not in the account
registry; otherwise, also for `index = 100`, it returns the subaddress that `keys.Addr2PKr`
derives from `pk` and the 32 bytes made of 24 zero bytes and the big-endian `index`. -/
theorem GetPkr_error_iff (env : Env) (ex : Exchange) (pk : Uint512) (index : Nat) :
    ((GetPkr env ex pk index).2 ≠ none ↔ (index < 100 ∨ mapGet ex.accounts pk = none)) ∧
    ((GetPkr env ex pk index).2 = none →
      ∃ r32 : Uint256, r32.val = List.replicate 24 0 ++ encodeNumber index ∧
        (GetPkr env ex pk index).1 = env.addr2PKr pk r32) := by
  unfold GetPkr
  by_cases h : index < 100
  · simp [h]
  · cases hacc : mapGet ex.accounts pk with
    | none => simp [h]
    | some a =>
      simp only [h, if_false, false_or]
      refine ⟨by simp, fun _ => ⟨Uint256.ofCopy (leftPadBytes (encodeNumber index) 32), ?_, rfl⟩⟩
      simp [Uint256.ofCopy, copyInto, leftPadBytes, encodeNumber]

/-- C15: for a 64-bit `n`, `encodeNumber n` has 8 bytes and `decodeNumber` gives `n` back; for a
string `b` of 8 bytes, `decodeNumber b` is a 64-bit number that `encodeNumber` encodes as `b`. -/
theorem number_codec_inverse (n : Nat) (b : Bytes) (hn : n < 2 ^ 64) (hb : b.length = 8) :
    (encodeNumber n).length = 8 ∧ decodeNumber (encodeNumber n) = some n ∧
    ∃ m, decodeNumber b = some m ∧ m < 2 ^ 64 ∧ encodeNumber m = b :=
  ⟨encodeNumber_length n, decodeNumber_encodeNumber n hn, encodeNumber_decodeNumber b hb⟩

theorem number_codec_inverse_witness :
    (258 : Nat) < 2 ^ 64 ∧ ([0, 0, 0, 0, 0, 0, 1, 2] : Bytes).length = 8 ∧
    ((encodeNumber 258).length = 8 ∧ decodeNumber (encodeNumber 258) = some 258 ∧
      ∃ m, decodeNumber [0, 0, 0, 0, 0, 0, 1, 2] = some m ∧ m < 2 ^ 64 ∧
        encodeNumber m = [0, 0, 0, 0, 0, 0, 1, 2]) :=
  ⟨by norm_num, rfl, number_codec_inverse 258 [0, 0, 0, 0, 0, 0, 1, 2] (by norm_num) rfl⟩

/-- C16: with a 32-byte asset key `c`, `uxtoPkKey pk c (some r)` has 130 bytes and its bytes
`[98:130]`, which `keyRoot` reads, are `r`; for a 64-bit `n`, `uxtoPkrKey pkr n` has 107 bytes and
`decodeNumber` of its bytes `[99:107]` is `n`. -/
theorem key_decoders_invert (pk : Uint512) (c : Bytes) (r : Uint256) (pkr : PKr) (n : Nat)
    (hc : c.length = 32) (hn : n < 2 ^ 64) :
    (uxtoPkKey pk c (some r)).length = 130 ∧
    ((uxtoPkKey pk c (some r)).drop 98).take 32 = r.val ∧
    keyRoot (uxtoPkKey pk c (some r)) = r ∧
    (uxtoPkrKey pkr n).length = 107 ∧
    decodeNumber (((uxtoPkrKey pkr n).drop 99).take 8) = some n := by
  have hpos : c.length > 0 := by omega
  refine ⟨?_, (keyRoot_uxtoPkKey pk c r hc).1, (keyRoot_uxtoPkKey pk c r hc).2,
    uxtoPkrKey_length pkr n, ?_⟩
  · simp [uxtoPkKey, hpos, pkPrefix, pk.len, hc, r.len]
  · have hkey : uxtoPkrKey pkr n = (pkrPrefix ++ pkr.val) ++ encodeNumber n := by
      simp [uxtoPkrKey]
    have hlen : (pkrPrefix ++ pkr.val).length = 99 := by simp [pkrPrefix, pkr.len]
    rw [hkey, List.drop_left' hlen, ← encodeNumber_length n, List.take_length]
    exact decodeNumber_encodeNumber n hn

theorem key_decoders_invert_witness :
    seroCurrency.val.length = 32 ∧ (1000 : Nat) < 2 ^ 64 ∧
    ((uxtoPkKey alicePk seroCurrency.val (some (fill256 7))).length = 130 ∧
     ((uxtoPkKey alicePk seroCurrency.val (some (fill256 7))).drop 98).take 32 = (fill256 7).val ∧
     keyRoot (uxtoPkKey alicePk seroCurrency.val (some (fill256 7))) = fill256 7 ∧
     (uxtoPkrKey bob 1000).length = 107 ∧
     decodeNumber (((uxtoPkrKey bob 1000).drop 99).take 8) = some 1000) :=
  ⟨seroCurrency.len, by norm_num,
    key_decoders_invert alicePk seroCurrency.val (fill256 7) bob 1000 seroCurrency.len
      (by norm_num)⟩

/-! ## Theorems: wallet events -/

/-- C13 (counterexample): after `alice`, whose cursor `NUM || pk = 6` is persisted, is dropped,
`GetPkr` still derives a subaddress for her public key without an error and the store still
holds `NUM || pk`. -/
theorem walletDropped_keeps_account_and_num :
    mapGet exC5.accounts alicePk ≠ none ∧
    exC5.db.get (numKey alicePk) = some (encodeNumber 6) ∧
    (GetPkr demoEnv (updateAccount demoEnv exC5 (WalletEvent.dropped aliceWallet)) alicePk 100).2
      = none ∧
    (updateAccount demoEnv exC5 (WalletEvent.dropped aliceWallet)).db.get (numKey alicePk)
      = some (encodeNumber 6) := by
  set_option maxRecDepth 1000000 in decide

/-- C13 (amended): the handler of a `WalletDropped` event deletes the cursor of the wallet from
the in-memory mirror, and leaves the account registry and the store, with the entry
`NUM || pk`, as they are. -/
theorem walletDropped_deletes_mirror_only (env : Env) (ex : Exchange) (w : Wallet) :
    mapGet (updateAccount env ex (WalletEvent.dropped w)).numbers w.address = none ∧
    (updateAccount env ex (WalletEvent.dropped w)).accounts = ex.accounts ∧
    (updateAccount env ex (WalletEvent.dropped w)).db = ex.db ∧
    (∀ i, GetPkr env (updateAccount env ex (WalletEvent.dropped w)) w.address i
      = GetPkr env ex w.address i) := by
  refine ⟨?_, rfl, rfl, fun i => rfl⟩
  simp [updateAccount, mapGet_mapDel]

/-! ## Theorems: the command `Confirm` -/

/-- C17 (code bug): with the key string `a`, of one character, and with the key string `''`,
which is empty once the quotes are stripped, `Confirm` panics at `key_str[1]` whatever the
output string (not empty) and the collaborators are: it emits neither a result nor an error. -/
theorem Confirm_short_key_panics (cenv : ConfirmEnv) (stdin : List (Option Bytes))
    (o : Byte) (out_str : Bytes) :
    Confirm cenv stdin [97] (o :: out_str) = none ∧
    Confirm cenv stdin [39, 39] (o :: out_str) = none := by
  constructor <;> simp [Confirm, readArg, stringsTrim]

/-! ## Theorems: missing records -/

/-- C19 (code bug): on the empty store `getUxto` returns the zero UTXO and no error for every
root, so `preGenTx` takes the zero UTXO as the input that the request names. On an index that
lists a root without a record, `findUxtos` panics as it reads the token of the zero UTXO, and
`merge` takes the zero UTXO as a candidate. -/
theorem getUxto_missing_record_no_error (env : Env) (root : Uint256) :
    ex0.db.get (rootKey root) = none ∧
    getUxto env ex0 root = Except.ok Uxto.zero ∧
    preGenTx env ex0 (paramC19 root) = some ([Uxto.zero], none) ∧
    exC19.db.get (rootKey (fill256 7)) = none ∧
    findUxtos demoEnv exC19 alicePk SERO 5 = none ∧
    mergeCollect demoEnv exC19
      (exC19.db.iterPrefix (uxtoPkKey alicePk (leftPadBytes SERO 32) none)) [] = some [Uxto.zero] :=
  ⟨rfl, rfl, rfl, by decide, by set_option maxRecDepth 1000000 in decide,
    by set_option maxRecDepth 1000000 in decide⟩

/-! ## Theorems: the scanner tick -/

theorem collectBlocks_empty (env : Env) (ex : Exchange) (pks : List Uint512) (blocks : List Block)
    (outs : List (PkrKey × List Out)) (nils : List Uint256)
    (h : ∀ b ∈ blocks, b.Outs = [] ∧ b.Nils = []) :
    collectBlocks env ex pks blocks outs nils = (outs, nils) := by
  induction blocks generalizing outs nils with
  | nil => rfl
  | cons b rest ih =>
    have hb := h b (List.mem_cons_self _ _)
    simp only [collectBlocks, hb.1, hb.2, collectOuts, List.append_nil]
    exact ih outs nils (fun b' hb' => h b' (List.mem_cons_of_mem _ hb'))

theorem fetchAndIndexUxto_full_window (env : Env) (ex : Exchange) (pks : List Uint512)
    (start : Nat) (blocks : List Block) (hget : env.getBlocksInfo start 1000 = some blocks)
    (hlen : blocks.length = 1000) (hempty : ∀ b ∈ blocks, b.Outs = [] ∧ b.Nils = []) :
    ∃ ex1, fetchAndIndexUxto env ex start pks = some (1000, ex1) := by
  have hcollect := collectBlocks_empty env ex pks blocks [] [] hempty
  cases hlast : blocks.getLast? with
  | none =>
    rw [List.getLast?_eq_none_iff] at hlast
    rw [hlast] at hlen
    simp at hlen
  | some last =>
    unfold fetchAndIndexUxto
    simp only [hget, hlast, hcollect, decryptGroups, commitWindow, hlen]
    simp

theorem fetchAndIndexUxto_envC18 (ex : Exchange) (pks : List Uint512) :
    ∃ ex1, fetchAndIndexUxto envC18 ex 1 pks = some (1000, ex1) := by
  apply fetchAndIndexUxto_full_window envC18 ex pks 1
    ((List.range 1000).map (fun i => emptyBlock (1 + i)))
  · rfl
  · rw [List.length_map, List.length_range]
  · intro b hb
    obtain ⟨i, _, rfl⟩ := List.mem_map.mp hb
    exact ⟨rfl, rfl⟩

/-- C18 (code bug): with a chain reader that serves a finite chain of 2500 blocks and the cursor
of `alice` at 1, every window that the loop of `fetchBlockInfo` fetches starts at height 1, and
no number of turns ends the loop. -/
theorem fetchBlockInfo_refetches_same_window (fuel : Nat) :
    windowStarts envC18 fuel ex0 1 [alicePk] = List.replicate fuel 1 ∧
    fetchBlockInfo envC18 fuel ex0 = Tick.outOfFuel := by
  have hstarts : ∀ (fuel : Nat) (ex : Exchange),
      windowStarts envC18 fuel ex 1 [alicePk] = List.replicate fuel 1 := by
    intro fuel
    induction fuel with
    | zero => intro ex; rfl
    | succ n ih =>
      intro ex
      obtain ⟨ex1, h1⟩ := fetchAndIndexUxto_envC18 ex [alicePk]
      simp only [windowStarts, h1, List.replicate_succ]
      simp [ih ex1]
  have hloop : ∀ (fuel : Nat) (ex : Exchange),
      scanGroup envC18 fuel ex 1 [alicePk] = Tick.outOfFuel := by
    intro fuel
    induction fuel with
    | zero => intro ex; rfl
    | succ n ih =>
      intro ex
      obtain ⟨ex1, h1⟩ := fetchAndIndexUxto_envC18 ex [alicePk]
      simp only [scanGroup, h1]
      simp [ih ex1]
  refine ⟨hstarts fuel ex0, ?_⟩
  have hgroups : groupByCursor ex0.numbers [] = [(1, [alicePk])] := by decide
  simp only [fetchBlockInfo, hgroups, scanGroups, hloop fuel ex0]

/-! ## Theorems: failed confirmations -/

/-- C20 (code bug): for an encrypted output addressed to `alice` whose confirmation fails,
`DecOuts` still returns an entry, with an empty asset and the zero nullifier; `indexBlocks`
panics on the UTXO made of it, so `fetchAndIndexUxto` commits no window at all, while the same
block without that output is indexed. -/
theorem fetchAndIndexUxto_failed_confirm_panics :
    demoEnv.decryptOutZ (Uint512.ofCopy alice.skr.val) zC20 = none ∧
    DecOuts demoEnv [outZC20] alice.skr
      = some [{ Asset := { Tkn := none, Tkt := none }, Nil := Uint256.zero }] ∧
    decryptGroups demoEnv [(aliceKey, [outZC20])] [] = some [(aliceKey, [uxtoC20])] ∧
    (indexBlocks demoEnv exC10 [] [(aliceKey, [uxtoC20])] []).isNone = true ∧
    (fetchAndIndexUxto (envC20 [outC10 7 10, outZC20]) exC10 5 [alicePk]).isNone = true ∧
    (fetchAndIndexUxto (envC20 [outC10 7 10]) exC10 5 [alicePk]).isSome = true := by
  set_option maxRecDepth 1000000 in decide

/-! ## Theorems: balances -/

theorem balanceOf_addBalance (balances : List (Bytes × Int)) (currency name : Bytes) (v : Int) :
    balanceOf (addBalance balances currency v) name
      = balanceOf balances name + (if currency = name then v else 0) := by
  unfold balanceOf addBalance
  cases h : mapGet balances currency with
  | none =>
    simp only [mapGet_mapSet]
    by_cases hc : currency = name
    · subst hc; simp [h]
    · simp [hc]
  | some a =>
    simp only [mapGet_mapSet]
    by_cases hc : currency = name
    · subst hc; simp [h]
    · simp [hc]

theorem balancesLoop_spec (env : Env) (ex : Exchange) (entries : List (Bytes × Bytes))
    (balances : List (Bytes × Int)) (hkeys : ∀ e ∈ entries, 130 ≤ e.1.length) :
    ∃ result, balancesLoop env ex entries balances = some result ∧
      ∀ name, balanceOf result name = balanceOf balances name + nameTotal env ex name entries := by
  induction entries generalizing balances with
  | nil => exact ⟨balances, rfl, fun name => by simp [nameTotal]⟩
  | cons e rest ih =>
    obtain ⟨key, value⟩ := e
    have hlen : ¬ key.length < 130 := by
      have := hkeys (key, value) (List.mem_cons_self _ _)
      simp only at this
      omega
    have hrest : ∀ e ∈ rest, 130 ≤ e.1.length := fun e he => hkeys e (List.mem_cons_of_mem _ he)
    have hcons : ∀ name, nameTotal env ex name ((key, value) :: rest)
        = nameValue env ex name key + nameTotal env ex name rest := fun _ => by
      simp [nameTotal]
    cases hget : getUxto env ex (keyRoot key) with
    | error err =>
      obtain ⟨result, hres, hsum⟩ := ih balances hrest
      refine ⟨result, by simp only [balancesLoop, hlen, if_false, hget, hres], fun name => ?_⟩
      rw [hsum name, hcons]
      simp [nameValue, hget]
    | ok uxto =>
      cases htkn : uxto.Asset.Tkn with
      | none =>
        obtain ⟨result, hres, hsum⟩ := ih balances hrest
        refine ⟨result, by simp only [balancesLoop, hlen, if_false, hget, htkn, hres],
          fun name => ?_⟩
        rw [hsum name, hcons]
        simp [nameValue, hget, htkn]
      | some tkn =>
        obtain ⟨result, hres, hsum⟩ :=
          ih (addBalance balances (env.bytesToString tkn.Currency.val) tkn.Value) hrest
        refine ⟨result, by simp only [balancesLoop, hlen, if_false, hget, htkn, hres],
          fun name => ?_⟩
        rw [hsum name, balanceOf_addBalance, hcons]
        simp only [nameValue, hget, htkn]
        ring

/-- C11 (counterexample): `carol` receives 1000 `SERO` at her main subaddress, whose first 64
bytes are not her public key, and the nullifier of that UTXO is scanned in the next window.
Nothing is listed under `PK || pk || SERO` any more, and `GetBalances` of the main subaddress,
which is served from the cache of the subaddress, still reports 1000 `SERO`. -/
theorem GetBalances_mainPkr_counts_spent :
    Reachable envC11 exC11spent.db ∧
    mapGet exC11spent.accounts carolPk = some carol ∧
    mapGet exC11spent.accounts carol.mainPkr.toUint512 = none ∧
    exC11spent.db.iterPrefix (pkPrefix ++ carolPk.val ++ seroCurrency.val) = [] ∧
    (GetBalances envC11 exC11spent carol.mainPkr).map (fun r => r.1) = some [(SERO, 1000)] := by
  refine ⟨?_, ?_, ?_, ?_, ?_⟩
  · exact Reachable.commit exC11 exC11spent [carolPk] 7 [] [fill256 9]
      (Reachable.commit _ exC11 [carolPk] 6 [(carolKey, [mkUxto 7 9 seroCurrency 1000])] []
        Reachable.empty (some_getD_of_isSome _ _ (by set_option maxRecDepth 1000000 in decide)))
      (some_getD_of_isSome _ exC11 (by set_option maxRecDepth 1000000 in decide))
  · set_option maxRecDepth 1000000 in decide
  · set_option maxRecDepth 1000000 in decide
  · set_option maxRecDepth 1000000 in decide
  · set_option maxRecDepth 1000000 in decide

/-- C11 (amended): when the first 64 bytes of the address `pkr` are the key of a registered
account and the keys listed under `PK || pk` have 130 bytes, `GetBalances` returns, leaves the
exchange as it is, and reports for every currency name the sum of the token values of the
records listed under `PK || pk` whose currency tag reads as that name. -/
theorem GetBalances_sums_pk_entries (env : Env) (ex : Exchange) (pkr : PKr) (account : Account)
    (hacc : mapGet ex.accounts pkr.toUint512 = some account)
    (hkeys : ∀ e ∈ ex.db.iterPrefix (pkPrefix ++ account.pk.val), 130 ≤ e.1.length) :
    ∃ balances, GetBalances env ex pkr = some (balances, ex) ∧
      ∀ name, balanceOf balances name
        = nameTotal env ex name (ex.db.iterPrefix (pkPrefix ++ account.pk.val)) := by
  obtain ⟨result, hres, hsum⟩ :=
    balancesLoop_spec env ex (ex.db.iterPrefix (pkPrefix ++ account.pk.val)) [] hkeys
  refine ⟨result, by simp [GetBalances, hacc, hres], fun name => ?_⟩
  rw [hsum name]
  simp [balanceOf, mapGet]

set_option maxRecDepth 1000000 in
theorem GetBalances_sums_pk_entries_witness :
    mapGet exC5.accounts alice.mainPkr.toUint512 = some alice ∧
    (∀ e ∈ exC5.db.iterPrefix (pkPrefix ++ alice.pk.val), 130 ≤ e.1.length) ∧
    ∃ balances, GetBalances demoEnv exC5 alice.mainPkr = some (balances, exC5) ∧
      ∀ name, balanceOf balances name
        = nameTotal demoEnv exC5 name (exC5.db.iterPrefix (pkPrefix ++ alice.pk.val)) :=
  ⟨by decide, by decide,
    GetBalances_sums_pk_entries demoEnv exC5 alice.mainPkr alice (by decide) (by decide)⟩

/-! ## Theorems: the merge job -/

theorem freeValue_some {env : Env} {ex : Exchange} {key : Bytes} {v : Int}
    (h : freeValue env ex key = some v) :
    ¬ key.length < 130 ∧ getUxto env ex (keyRoot key) = Except.ok (candidate env ex key) ∧
    (candidate env ex key).flag = 0 ∧
    ∃ tkn, (candidate env ex key).Asset.Tkn = some tkn ∧ tkn.Value = v := by
  unfold freeValue at h
  by_cases hlen : key.length < 130
  · simp [hlen] at h
  · simp only [hlen, if_false] at h
    cases hget : getUxto env ex (keyRoot key) with
    | error err => simp [hget] at h
    | ok uxto =>
      simp only [hget] at h
      by_cases hflag : uxto.flag = 0
      · simp only [hflag, if_true] at h
        cases htkn : uxto.Asset.Tkn with
        | none => simp [htkn] at h
        | some tkn =>
          simp only [htkn, Option.map_some', Option.some.injEq] at h
          refine ⟨hlen, ?_, ?_, tkn, ?_, h⟩ <;> simp [candidate, hget, hflag, htkn]
      · simp [hflag] at h

theorem mergeCollect_spec (env : Env) (ex : Exchange) (entries : List (Bytes × Bytes))
    (acc : List Uxto) (hfree : ∀ e ∈ entries, ∃ v, freeValue env ex e.1 = some v)
    (hacc : acc.length ≤ 150) :
    mergeCollect env ex entries acc
      = some (acc ++ (entries.take (151 - acc.length)).map (fun e => candidate env ex e.1)) := by
  induction entries generalizing acc with
  | nil => simp [mergeCollect]
  | cons e rest ih =>
    obtain ⟨key, value⟩ := e
    obtain ⟨v, hv⟩ := hfree (key, value) (List.mem_cons_self _ _)
    obtain ⟨hlen, hget, _, _⟩ := freeValue_some hv
    have hrest : ∀ e ∈ rest, ∃ v, freeValue env ex e.1 = some v :=
      fun e he => hfree e (List.mem_cons_of_mem _ he)
    have hstep : 151 - acc.length = (151 - (acc ++ [candidate env ex key]).length) + 1 := by
      simp only [List.length_append, List.length_singleton]; omega
    simp only [mergeCollect, hlen, if_false, hget]
    by_cases hfull : (acc ++ [candidate env ex key]).length > 150
    · have h150 : 151 - acc.length = 1 := by
        simp only [List.length_append, List.length_singleton] at hfull; omega
      rw [if_pos hfull, h150]
      simp
    · rw [if_neg hfull, ih (acc ++ [candidate env ex key]) hrest (by omega), hstep]
      simp

theorem mergeAmount_ones (l : List Uxto)
    (h : ∀ u ∈ l, ∃ tkn, u.Asset.Tkn = some tkn ∧ tkn.Value = 1) :
    mergeAmount l = some (l.length : Int) := by
  induction l with
  | nil => rfl
  | cons u rest ih =>
    obtain ⟨tkn, htkn, hval⟩ := h u (List.mem_cons_self _ _)
    simp only [mergeAmount, htkn, ih (fun u hu => h u (List.mem_cons_of_mem _ hu)), hval,
      Option.map_some', List.length_cons]
    congr 1
    push_cast
    ring

theorem uxtoValue_of_tkn {u : Uxto} {tkn : Token} (h : u.Asset.Tkn = some tkn) :
    uxtoValue u = tkn.Value := by
  simp [uxtoValue, h]

theorem less_of_free {a b : Uxto} {ta tb : Token} (ha : a.flag = 0) (hb : b.flag = 0)
    (hta : a.Asset.Tkn = some ta) (htb : b.Asset.Tkn = some tb) :
    UxtoList.Less b a = some (decide (tb.Value < ta.Value)) := by
  simp [UxtoList.Less, ha, hb, hta, htb]

theorem mergeCall_scenario (env : Env) (ex : Exchange) (key : Uint512) (account : Account)
    (hsort : SortsByLess env)
    (hlen : (mergeEntries ex key).length = 158)
    (hcand : ∀ e ∈ mergeEntries ex key,
      freeValue env ex e.1 = some 1 ∨ freeValue env ex e.1 = some 1000000000)
    (hbig : (mergeEntries ex key).countP
      (fun e => decide (freeValue env ex e.1 = some 1000000000)) = 8) :
    ∃ uxtos, mergeCall env ex key account
        = some (some { uxtos := uxtos, receptions := [receptionC14 account], gas := 25000,
                       gasPrice := 1000000000 }) ∧
      uxtos.length = 143 ∧
      (∀ u ∈ uxtos, u.flag = 0 ∧ ∃ tkn, u.Asset.Tkn = some tkn ∧ tkn.Value = 1) ∧
      ∃ rest, rest.length = 8 ∧
        (uxtos ++ rest).Perm
          (((mergeEntries ex key).take 151).map (fun e => candidate env ex e.1)) := by
  -- the candidates
  have hfree : ∀ e ∈ mergeEntries ex key, ∃ v, freeValue env ex e.1 = some v := by
    intro e he
    rcases hcand e he with h | h
    · exact ⟨_, h⟩
    · exact ⟨_, h⟩
  have hcollect := mergeCollect_spec env ex (mergeEntries ex key) [] hfree (by simp)
  simp only [List.length_nil, Nat.sub_zero, List.nil_append] at hcollect
  generalize hU : ((mergeEntries ex key).take 151).map (fun e => candidate env ex e.1) = U
    at hcollect
  have hUlen : U.length = 151 := by
    rw [← hU, List.length_map, List.length_take, hlen]; rfl
  have hUmem : ∀ u ∈ U, u.flag = 0 ∧ ∃ tkn, u.Asset.Tkn = some tkn ∧
      (tkn.Value = 1 ∨ tkn.Value = 1000000000) := by
    intro u hu
    rw [← hU] at hu
    obtain ⟨e, he, rfl⟩ := List.mem_map.mp hu
    have he' := List.mem_of_mem_take he
    rcases hcand e he' with h | h
    · obtain ⟨_, _, hflag, tkn, htkn, hval⟩ := freeValue_some h
      exact ⟨hflag, tkn, htkn, Or.inl hval⟩
    · obtain ⟨_, _, hflag, tkn, htkn, hval⟩ := freeValue_some h
      exact ⟨hflag, tkn, htkn, Or.inr hval⟩
  have hUbig : U.countP (fun u => decide (uxtoValue u = 1000000000)) ≤ 8 := by
    rw [← hU, List.countP_map, ← hbig]
    have hsub : ((mergeEntries ex key).take 151).countP
          ((fun u => decide (uxtoValue u = 1000000000)) ∘ fun e => candidate env ex e.1)
        ≤ (mergeEntries ex key).countP
          ((fun u => decide (uxtoValue u = 1000000000)) ∘ fun e => candidate env ex e.1) :=
      (List.take_sublist 151 (mergeEntries ex key)).countP_le _
    refine le_trans hsub (le_of_eq ?_)
    apply List.countP_congr
    intro e he
    rcases hcand e he with h | h
    · obtain ⟨_, _, _, tkn, htkn, hval⟩ := freeValue_some h
      simp [h, uxtoValue_of_tkn htkn, hval]
    · obtain ⟨_, _, _, tkn, htkn, hval⟩ := freeValue_some h
      simp [h, uxtoValue_of_tkn htkn, hval]
  -- the sort
  obtain ⟨S, hS, hperm, hpair⟩ := hsort U (fun u hu => by
    obtain ⟨_, tkn, htkn, _⟩ := hUmem u hu
    simp [htkn])
  have hSlen : S.length = 151 := by rw [hperm.length_eq, hUlen]
  have hSmem : ∀ u ∈ S, u.flag = 0 ∧ ∃ tkn, u.Asset.Tkn = some tkn ∧
      (tkn.Value = 1 ∨ tkn.Value = 1000000000) := fun u hu => hUmem u (hperm.subset hu)
  have hSbig : S.countP (fun u => decide (uxtoValue u = 1000000000)) ≤ 8 := by
    rw [hperm.countP_eq]; exact hUbig
  have hsplit : S.take 143 ++ S.drop 143 = S := List.take_append_drop 143 S
  have htake : (S.take 143).length = 143 := by rw [List.length_take, hSlen]; rfl
  have hdrop : (S.drop 143).length = 8 := by rw [List.length_drop, hSlen]
  have hones : ∀ u ∈ S.take 143, u.flag = 0 ∧ ∃ tkn, u.Asset.Tkn = some tkn ∧ tkn.Value = 1 := by
    intro u hu
    obtain ⟨hflag, tkn, htkn, hval⟩ := hSmem u (List.mem_of_mem_take hu)
    refine ⟨hflag, tkn, htkn, ?_⟩
    rcases hval with hval | hval
    · exact hval
    · exfalso
      rw [← hsplit, List.pairwise_append] at hpair
      have hall : ∀ v ∈ S.drop 143, decide (uxtoValue v = 1000000000) = true := by
        intro v hv
        obtain ⟨hvflag, tv, htv, hvval⟩ := hSmem v (List.mem_of_mem_drop hv)
        have hle := hpair.2.2 u hu v hv
        rw [less_of_free hflag hvflag htkn htv] at hle
        rw [uxtoValue_of_tkn htv]
        rcases hvval with hvval | hvval
        · exfalso; apply hle; rw [hvval, hval]; rfl
        · simp [hvval]
      have hcount_drop : (S.drop 143).countP (fun u => decide (uxtoValue u = 1000000000)) = 8 := by
        rw [List.countP_eq_length.mpr hall, hdrop]
      have hcount_take : 0 < (S.take 143).countP (fun u => decide (uxtoValue u = 1000000000)) := by
        rw [List.countP_pos_iff]
        exact ⟨u, hu, by simp [uxtoValue_of_tkn htkn, hval]⟩
      rw [← hsplit, List.countP_append] at hSbig
      omega
  have hamount : mergeAmount (S.take 143) = some 143 := by
    rw [mergeAmount_ones _ (fun u hu => (hones u hu).2), htake]
    rfl
  refine ⟨S.take 143, ?_, htake, hones, S.drop 143, hdrop, ?_⟩
  · unfold mergeCall
    have hcollect' : mergeCollect env ex
        (ex.db.iterPrefix (uxtoPkKey key (leftPadBytes SERO 32) none)) [] = some U := hcollect
    simp only [hcollect', hUlen, hS, hSlen, htake, hamount]
    simp [receptionC14]
  · rw [hsplit]; exact hperm

theorem uxtoLe_total (a b : Uxto) : uxtoLe a b = true ∨ uxtoLe b a = true := by
  simp only [uxtoLe, Bool.or_eq_true, Bool.and_eq_true, decide_eq_true_eq]
  omega

theorem uxtoLe_trans {a b c : Uxto} (hab : uxtoLe a b = true) (hbc : uxtoLe b c = true) :
    uxtoLe a c = true := by
  simp only [uxtoLe, Bool.or_eq_true, Bool.and_eq_true, decide_eq_true_eq] at *
  omega

theorem insertUxto_eq_orderedInsert (u : Uxto) (l : List Uxto) :
    insertUxto u l = List.orderedInsert (fun a b => uxtoLe a b = true) u l := by
  induction l with
  | nil => rfl
  | cons v rest ih =>
    simp only [insertUxto, List.orderedInsert, ih]

theorem foldr_insertUxto_sorted (l : List Uxto) :
    (l.foldr insertUxto []).Pairwise (fun a b => uxtoLe a b = true) := by
  induction l with
  | nil => exact List.Pairwise.nil
  | cons u rest ih =>
    simp only [List.foldr_cons, insertUxto_eq_orderedInsert]
    haveI : IsTotal Uxto (fun a b => uxtoLe a b = true) := ⟨uxtoLe_total⟩
    haveI : IsTrans Uxto (fun a b => uxtoLe a b = true) := ⟨fun _ _ _ => uxtoLe_trans⟩
    exact List.Sorted.orderedInsert u _ ih

theorem not_less_of_uxtoLe {a b : Uxto} (h : uxtoLe a b = true) :
    UxtoList.Less b a ≠ some true := by
  simp only [uxtoLe, Bool.or_eq_true, Bool.and_eq_true, decide_eq_true_eq] at h
  unfold UxtoList.Less
  by_cases hflag : b.flag = a.flag
  · simp only [hflag, if_true]
    cases hta : a.Asset.Tkn with
    | none => cases htb : b.Asset.Tkn <;> simp
    | some ta =>
      cases htb : b.Asset.Tkn with
      | none => simp
      | some tb =>
        have hle : ta.Value ≤ tb.Value := by
          rcases h with h | h
          · omega
          · simpa [uxtoValue, hta, htb] using h.2
        simp only [ne_eq, Option.some.injEq, decide_eq_true_eq]
        omega
  · simp only [hflag, if_false, ne_eq, Option.some.injEq, decide_eq_true_eq]
    rcases h with h | h
    · omega
    · omega

theorem demoSort_sortsByLess : SortsByLess demoEnv := by
  intro l hl
  obtain ⟨s, hs, hperm⟩ := demoSort_perm l hl
  refine ⟨s, hs, hperm, ?_⟩
  have hany : l.any (fun u => u.Asset.Tkn.isNone) = false := by
    rw [List.any_eq_false]
    intro u hu
    have := hl u hu
    cases ht : u.Asset.Tkn with
    | none => exact absurd ht this
    | some _ => simp
  have hs' : s = l.foldr insertUxto [] := by
    have : demoSort l = some (l.foldr insertUxto []) := by simp [demoSort, hany]
    rw [this] at hs
    exact (Option.some.inj hs).symm
  rw [hs']
  exact (foldr_insertUxto_sorted l).imp not_less_of_uxtoLe


theorem decodeNumber_append (n : Nat) (rest : Bytes) (h : n < 2 ^ 64) :
    decodeNumber (encodeNumber n ++ rest) = some n := by
  have := decodeNumber_encodeNumber n h
  simpa [encodeNumber, decodeNumber] using this

theorem demoDecode_encode_token (u : Uxto) (t : Token) (htkn : u.Asset.Tkn = some t)
    (htkt : u.Asset.Tkt = none) (hflag : u.flag = 0) (hnum : u.Num < 2 ^ 64)
    (hv : 0 ≤ t.Value) (hrt : ((readBe (be32 t.Value.toNat) : Nat) : Int) = t.Value) :
    ∃ data, demoEncodeUxto u = some data ∧ demoDecodeUxto data = some u := by
  obtain ⟨Root, TxHash, Nil, Num, ⟨Tkn, Tkt⟩, flag⟩ := u
  simp only at htkn htkt hflag hnum
  subst htkn htkt hflag
  have hnot : ¬ t.Value < 0 := by omega
  have hV : (be32 t.Value.toNat).length = 32 := by simp [be32]
  refine ⟨Root.val ++ (TxHash.val ++ (Nil.val ++ (encodeNumber Num ++
      (1 :: (t.Currency.val ++ (be32 t.Value.toNat ++ [0])))))), ?_, ?_⟩
  · simp [demoEncodeUxto, hnot]
  · have h32 : ∀ (l : Bytes) (rest : Bytes), l.length = 32 →
        (l ++ rest).take 32 = l ∧ (l ++ rest).drop 32 = rest :=
      fun l rest h => ⟨List.take_left' h, List.drop_left' h⟩
    generalize hb : Root.val ++ (TxHash.val ++ (Nil.val ++ (encodeNumber Num ++
      (1 :: (t.Currency.val ++ (be32 t.Value.toNat ++ [0])))))) = b
    have h0 : b.take 32 = Root.val := by rw [← hb]; exact (h32 _ _ Root.len).1
    have d32 : b.drop 32 = TxHash.val ++ (Nil.val ++ (encodeNumber Num ++
      (1 :: (t.Currency.val ++ (be32 t.Value.toNat ++ [0]))))) := by
      rw [← hb]; exact (h32 _ _ Root.len).2
    have d64 : b.drop 64 = Nil.val ++ (encodeNumber Num ++
      (1 :: (t.Currency.val ++ (be32 t.Value.toNat ++ [0])))) := by
      have : b.drop 64 = (b.drop 32).drop 32 := by rw [List.drop_drop]
      rw [this, d32]; exact (h32 _ _ TxHash.len).2
    have d96 : b.drop 96 = encodeNumber Num ++
      (1 :: (t.Currency.val ++ (be32 t.Value.toNat ++ [0]))) := by
      have : b.drop 96 = (b.drop 64).drop 32 := by rw [List.drop_drop]
      rw [this, d64]; exact (h32 _ _ Nil.len).2
    have d104 : b.drop 104 = 1 :: (t.Currency.val ++ (be32 t.Value.toNat ++ [0])) := by
      have : b.drop 104 = (b.drop 96).drop 8 := by rw [List.drop_drop]
      rw [this, d96]; exact List.drop_left' (encodeNumber_length Num)
    have h1 : (b.drop 32).take 32 = TxHash.val := by rw [d32]; exact (h32 _ _ TxHash.len).1
    have h2 : (b.drop 64).take 32 = Nil.val := by rw [d64]; exact (h32 _ _ Nil.len).1
    have hr : (t.Currency.val ++ (be32 t.Value.toNat ++ [0])).length = 65 := by
      simp [t.Currency.len, hV]
    have r0 : (t.Currency.val ++ (be32 t.Value.toNat ++ [0])).take 32 = t.Currency.val :=
      (h32 _ _ t.Currency.len).1
    have r32 : (t.Currency.val ++ (be32 t.Value.toNat ++ [0])).drop 32
        = be32 t.Value.toNat ++ [0] := (h32 _ _ t.Currency.len).2
    have r64 : (t.Currency.val ++ (be32 t.Value.toNat ++ [0])).drop 64 = [0] := by
      have : (t.Currency.val ++ (be32 t.Value.toNat ++ [0])).drop 64
          = ((t.Currency.val ++ (be32 t.Value.toNat ++ [0])).drop 32).drop 32 := by
        rw [List.drop_drop]
      rw [this, r32]; exact (h32 _ _ hV).2
    have r32t : ((t.Currency.val ++ (be32 t.Value.toNat ++ [0])).drop 32).take 32
        = be32 t.Value.toNat := by rw [r32]; exact (h32 _ _ hV).1
    unfold demoDecodeUxto
    rw [d96, decodeNumber_append Num _ hnum]
    simp only [d104, hr, h0, h1, h2, r0, r64, r32t, demoDecodeTkt]
    have c32 : ∀ x : Uint256, Uint256.ofCopy x.val = x := fun x =>
      uint256_ext (copyInto_self 32 x.val x.len)
    simp [c32, hrt]
theorem mapGet_append {κ ν : Type} [DecidableEq κ] (l1 l2 : List (κ × ν)) (k : κ)
    (h : ∀ e ∈ l1, e.1 ≠ k) : mapGet (l1 ++ l2) k = mapGet l2 k := by
  induction l1 with
  | nil => rfl
  | cons e rest ih =>
    obtain ⟨k0, v0⟩ := e
    have hk : k0 ≠ k := h (k0, v0) (List.mem_cons_self _ _)
    simp only [List.cons_append, mapGet, hk, if_false]
    exact ih (fun e he => h e (List.mem_cons_of_mem _ he))

theorem mapGet_map_range {κ ν : Type} [DecidableEq κ] (f : Nat → κ) (g : Nat → ν) (n j : Nat)
    (hj : j < n) (hinj : ∀ i, i < n → f i = f j → i = j) :
    mapGet ((List.range n).map (fun i => (f i, g i))) (f j) = some (g j) := by
  induction n with
  | zero => omega
  | succ n ih =>
    rw [List.range_succ, List.map_append]
    by_cases hjn : j < n
    · have hfirst := ih hjn (fun i hi => hinj i (by omega))
      generalize (List.range n).map (fun i => (f i, g i)) = l1 at hfirst
      clear ih
      induction l1 with
      | nil => simp [mapGet] at hfirst
      | cons e rest ih2 =>
        obtain ⟨k0, v0⟩ := e
        simp only [List.cons_append, mapGet] at hfirst ⊢
        by_cases hk : k0 = f j
        · simpa [hk] using hfirst
        · simp only [hk, if_false] at hfirst ⊢
          exact ih2 hfirst
    · have hjeq : j = n := by omega
      subst hjeq
      rw [mapGet_append]
      · simp [mapGet]
      · intro e he
        obtain ⟨i, hi, rfl⟩ := List.mem_map.mp he
        have hi' : i < j := List.mem_range.mp hi
        intro heq
        have := hinj i (by omega) heq
        omega

theorem rootC14_val (i : Nat) : (rootC14 i).val = Fin.ofNat i :: List.replicate 31 0 := by
  simp [rootC14, Uint256.ofCopy, copyInto]

theorem rootKey_rootC14_inj (i j : Nat) (hi : i < 158) (hj : j < 158)
    (h : rootKey (rootC14 i) = rootKey (rootC14 j)) : i = j := by
  simp only [rootKey, List.append_cancel_left_eq, rootC14_val, List.cons.injEq, and_true] at h
  have := congrArg Fin.val h
  simp only [Fin.ofNat, Fin.val_mk] at this
  omega

theorem seroCurrency_val : seroCurrency.val = leftPadBytes SERO 32 := by decide

theorem mergeEntries_exC14 :
    mergeEntries exC14 alicePk
      = (List.range 158).map (fun i =>
          (uxtoPkKey alicePk seroCurrency.val (some (rootC14 i)), ([0] : Bytes))) := by
  unfold mergeEntries exC14 Store.iterPrefix
  simp only [List.filter_append]
  have h1 : ∀ e ∈ (List.range 158).map (fun i =>
      (uxtoPkKey alicePk seroCurrency.val (some (rootC14 i)), ([0] : Bytes))),
      (uxtoPkKey alicePk (leftPadBytes SERO 32) none).isPrefixOf e.1 = true := by
    intro e he
    obtain ⟨i, _, rfl⟩ := List.mem_map.mp he
    rw [List.isPrefixOf_iff_prefix, uxtoPkKey_eq, seroCurrency_val]
    have : uxtoPkKey alicePk (leftPadBytes SERO 32) none
        = pkPrefix ++ alicePk.val ++ leftPadBytes SERO 32 := by decide
    rw [this]
    exact List.prefix_append _ _
  have h2 : ∀ e ∈ (List.range 158).map (fun i =>
      (rootKey (rootC14 i), (demoEncodeUxto (uxtoC14 i)).getD [])),
      ¬ (uxtoPkKey alicePk (leftPadBytes SERO 32) none).isPrefixOf e.1 = true := by
    intro e he
    obtain ⟨i, _, rfl⟩ := List.mem_map.mp he
    have : uxtoPkKey alicePk (leftPadBytes SERO 32) none
        = 80 :: (75 :: alicePk.val ++ leftPadBytes SERO 32) := by decide
    rw [this]
    simp [rootKey, rootPrefix, List.isPrefixOf]
  rw [List.filter_eq_self.mpr h1, List.filter_eq_nil_iff.mpr h2, List.append_nil]

theorem getUxto_exC14 (i : Nat) (hi : i < 158) :
    getUxto demoEnv exC14 (rootC14 i) = Except.ok (uxtoC14 i) := by
  have hget : exC14.db.get (rootKey (rootC14 i)) = some ((demoEncodeUxto (uxtoC14 i)).getD []) := by
    unfold exC14 Store.get
    simp only
    rw [mapGet_append]
    · exact mapGet_map_range (fun i => rootKey (rootC14 i))
        (fun i => (demoEncodeUxto (uxtoC14 i)).getD []) 158 i hi
        (fun k hk h => rootKey_rootC14_inj k i hk hi h)
    · intro e he
      obtain ⟨k, _, rfl⟩ := List.mem_map.mp he
      rw [uxtoPkKey_eq]
      simp [pkPrefix, rootKey, rootPrefix]
  have hval : (0 : Int) ≤ (if i < 8 then 1000000000 else 1) ∧
      ((readBe (be32 (if i < 8 then (1000000000 : Int) else 1).toNat) : Nat) : Int)
        = (if i < 8 then 1000000000 else 1) := by
    by_cases h8 : i < 8
    · simp only [h8, if_true]; decide
    · simp only [h8, if_false]; decide
  obtain ⟨data, henc, hdec⟩ := demoDecode_encode_token (uxtoC14 i)
    { Currency := seroCurrency, Value := if i < 8 then 1000000000 else 1 } rfl rfl rfl
    (by show (5 : Nat) < 2 ^ 64; norm_num) hval.1 hval.2
  unfold getUxto
  rw [hget, henc]
  simp only [Option.getD_some]
  have hd : demoEnv.decodeUxto data = some (uxtoC14 i) := hdec
  rw [hd]
  simp only
  have hflag : mapGet exC14.usedFlag (FlagKey.u256 (uxtoC14 i).Nil) = none := rfl
  rw [hflag]
  rfl

theorem freeValue_exC14 (i : Nat) (hi : i < 158) :
    freeValue demoEnv exC14 (uxtoPkKey alicePk seroCurrency.val (some (rootC14 i)))
      = some (if i < 8 then 1000000000 else 1) := by
  unfold freeValue
  rw [uxtoPkKey_length, (keyRoot_uxtoPkKey alicePk seroCurrency.val (rootC14 i) seroCurrency.len).2,
    getUxto_exC14 i hi]
  rfl

set_option maxRecDepth 1000000 in
theorem scenarioC14 :
    (mergeEntries exC14 alicePk).length = 158 ∧
    (∀ e ∈ mergeEntries exC14 alicePk,
      freeValue demoEnv exC14 e.1 = some 1 ∨ freeValue demoEnv exC14 e.1 = some 1000000000) ∧
    (mergeEntries exC14 alicePk).countP
      (fun e => decide (freeValue demoEnv exC14 e.1 = some 1000000000)) = 8 ∧
    (mergeEntries exC14 alicePk).countP
      (fun e => decide (freeValue demoEnv exC14 e.1 = some 1)) = 150 := by
  rw [mergeEntries_exC14]
  refine ⟨by simp, ?_, ?_, ?_⟩
  · intro e he
    obtain ⟨i, hi, rfl⟩ := List.mem_map.mp he
    rw [freeValue_exC14 i (List.mem_range.mp hi)]
    by_cases h8 : i < 8
    · right; simp [h8]
    · left; simp [h8]
  · rw [List.countP_map]
    have : (List.range 158).countP ((fun e : Bytes × Bytes =>
          decide (freeValue demoEnv exC14 e.1 = some 1000000000)) ∘ fun i =>
            (uxtoPkKey alicePk seroCurrency.val (some (rootC14 i)), ([0] : Bytes)))
        = (List.range 158).countP (fun i => decide (i < 8)) := by
      apply List.countP_congr
      intro i hi
      simp only [Function.comp, freeValue_exC14 i (List.mem_range.mp hi)]
      by_cases h8 : i < 8 <;> simp [h8]
    rw [this]
    decide
  · rw [List.countP_map]
    have : (List.range 158).countP ((fun e : Bytes × Bytes =>
          decide (freeValue demoEnv exC14 e.1 = some 1)) ∘ fun i =>
            (uxtoPkKey alicePk seroCurrency.val (some (rootC14 i)), ([0] : Bytes)))
        = (List.range 158).countP (fun i => decide (¬ i < 8)) := by
      apply List.countP_congr
      intro i hi
      simp only [Function.comp, freeValue_exC14 i (List.mem_range.mp hi)]
      by_cases h8 : i < 8 <;> simp [h8]
    rw [this]
    decide

/-- C14 (counterexample): on the index of `alice` with 150 free `SERO` UTXOs of amount 1 and
8 of amount `10^9`, `merge` hands `genTx` 143 inputs, not 142, and a single reception of
`143 - 25000 * 10^9`, not of `142 - 25000 * 10^9`. -/
theorem merge_scenario5_not_142 :
    (mergeEntries exC14 alicePk).countP
      (fun e => decide (freeValue demoEnv exC14 e.1 = some 1)) = 150 ∧
    (mergeEntries exC14 alicePk).countP
      (fun e => decide (freeValue demoEnv exC14 e.1 = some 1000000000)) = 8 ∧
    exC14.usedFlag = [] ∧
    ∃ uxtos, mergeCall demoEnv exC14 alicePk alice
        = some (some { uxtos := uxtos, receptions := [receptionC14 alice], gas := 25000,
                       gasPrice := 1000000000 }) ∧
      uxtos.length = 143 ∧ uxtos.length ≠ 142 ∧
      (receptionC14 alice).Value = 143 - 25000 * 1000000000 ∧
      (receptionC14 alice).Value ≠ 142 - 25000 * 1000000000 := by
  obtain ⟨hlen, hcand, hbig, hsmall⟩ := scenarioC14
  obtain ⟨uxtos, hcall, hl, _, _⟩ :=
    mergeCall_scenario demoEnv exC14 alicePk alice demoSort_sortsByLess hlen hcand hbig
  exact ⟨hsmall, hbig, rfl, uxtos, hcall, hl, by omega, rfl, by decide⟩

/-- C14 (amended): for an account whose `SERO` index lists 158 free UTXOs, each of amount 1 or
`10^9` and 8 of them of amount `10^9`, `merge` prepares one call of `genTx` with exactly 143
inputs, each of amount 1, a single reception of `143 - 25000 * 10^9` `SERO` addressed to the
main subaddress of the account, gas 25000 and gas price `10^9`; the inputs are the first 151
listed candidates without 8 of them. -/
theorem merge_scenario5 (env : Env) (ex : Exchange) (key : Uint512) (account : Account)
    (hsort : SortsByLess env)
    (hlen : (mergeEntries ex key).length = 158)
    (hcand : ∀ e ∈ mergeEntries ex key,
      freeValue env ex e.1 = some 1 ∨ freeValue env ex e.1 = some 1000000000)
    (hbig : (mergeEntries ex key).countP
      (fun e => decide (freeValue env ex e.1 = some 1000000000)) = 8) :
    ∃ uxtos, mergeCall env ex key account
        = some (some { uxtos := uxtos,
                       receptions := [{ Addr := account.mainPkr, Currency := SERO,
                                        Value := 143 - 25000 * 1000000000 }],
                       gas := 25000, gasPrice := 1000000000 }) ∧
      uxtos.length = 143 ∧
      (∀ u ∈ uxtos, u.flag = 0 ∧ ∃ tkn, u.Asset.Tkn = some tkn ∧ tkn.Value = 1) ∧
      ∃ rest, rest.length = 8 ∧
        (uxtos ++ rest).Perm
          (((mergeEntries ex key).take 151).map (fun e => candidate env ex e.1)) :=
  mergeCall_scenario env ex key account hsort hlen hcand hbig

theorem merge_scenario5_witness :
    SortsByLess demoEnv ∧
    (mergeEntries exC14 alicePk).length = 158 ∧
    (∀ e ∈ mergeEntries exC14 alicePk,
      freeValue demoEnv exC14 e.1 = some 1 ∨ freeValue demoEnv exC14 e.1 = some 1000000000) ∧
    (mergeEntries exC14 alicePk).countP
      (fun e => decide (freeValue demoEnv exC14 e.1 = some 1000000000)) = 8 ∧
    ∃ uxtos, mergeCall demoEnv exC14 alicePk alice
        = some (some { uxtos := uxtos,
                       receptions := [{ Addr := alice.mainPkr, Currency := SERO,
                                        Value := 143 - 25000 * 1000000000 }],
                       gas := 25000, gasPrice := 1000000000 }) ∧
      uxtos.length = 143 ∧
      (∀ u ∈ uxtos, u.flag = 0 ∧ ∃ tkn, u.Asset.Tkn = some tkn ∧ tkn.Value = 1) ∧
      ∃ rest, rest.length = 8 ∧
        (uxtos ++ rest).Perm
          (((mergeEntries exC14 alicePk).take 151).map (fun e => candidate demoEnv exC14 e.1)) :=
  ⟨demoSort_sortsByLess, scenarioC14.1, scenarioC14.2.1, scenarioC14.2.2.1,
    merge_scenario5 demoEnv exC14 alicePk alice demoSort_sortsByLess scenarioC14.1
      scenarioC14.2.1 scenarioC14.2.2.1⟩

/-! ## Theorems: the gas price, tickets and the key namespaces -/

/-- C27 (code bug): for `gas = 1` and `gasPrice = 2^63`, `buildTxParam` succeeds on a UTXO of
`2^63` `SERO`, deducts the fee `2^63` from the `SERO` bucket (no change is left), and records
the gas price `-2^63`, so that `Gas * GasPrice` of the parameter is not the fee. -/
theorem buildTxParam_gasPrice_wraps :
    (buildTxParam demoEnv [] [uxtoC27] alice [] 1 9223372036854775808).map
      (fun r => (r.1.Gas, r.1.GasPrice, r.1.Outs, r.2.1))
      = some (1, -9223372036854775808, [], none) ∧
    ((1 : Int) * -9223372036854775808 ≠ ((1 : Nat) : Int) * ((9223372036854775808 : Nat) : Int)) := by
  constructor
  · set_option maxRecDepth 1000000 in decide
  · decide

/-- C25 (code bug): for a UTXO whose asset carries only a ticket, the codec encodes the record
and the `PK` key is built from the ticket value, and `indexBlocks` panics (the call of
`log.Info` reads the value of the absent token), so that nothing is written. -/
theorem indexBlocks_ticket_only_panics :
    uxtoC25.Asset.Tkn = none ∧
    (demoEnv.encodeUxto uxtoC25).isSome = true ∧
    indexPkKey alicePk uxtoC25 = uxtoPkKey alicePk (fill256 4).val (some (fill256 7)) ∧
    (indexBlocks demoEnv ex0 [] [(aliceKey, [uxtoC25])] []).isNone = true ∧
    (commitWindow demoEnv ex0 [alicePk] 6 [(aliceKey, [uxtoC25])] []).isNone = true := by
  set_option maxRecDepth 1000000 in decide

/-- C26 (counterexample): the iteration prefix `"PK" || pk` of a public key that starts with
the letter `R` is a prefix of a `PKR` key of 107 bytes, and `GetBalances` for that public key
panics on the slice `key[98:130]` of that key. -/
theorem pkPrefix_is_prefix_of_pkrKey :
    (pkPrefix ++ pkC26.val).isPrefixOf (uxtoPkrKey (fillPKr 5) 6) = true ∧
    (uxtoPkrKey (fillPKr 5) 6).length = 107 ∧
    exC26.db.iterPrefix (pkPrefix ++ pkC26.val) = [(uxtoPkrKey (fillPKr 5) 6, [])] ∧
    (GetBalances demoEnv exC26 (PKr.ofCopy pkC26.val)).isNone = true := by
  set_option maxRecDepth 1000000 in decide

/-- C26 (amended): the iteration prefix `"PK" || pk` is a prefix of the key
`uxtoPkrKey pkr n` exactly when `pk` is the letter `R` followed by the first 63 bytes of `pkr`;
for a public key whose first byte is not `R` it is a prefix of no `PKR` key. -/
theorem pkPrefix_prefix_of_pkrKey_iff (pk : Uint512) (pkr : PKr) (n : Nat) :
    ((pkPrefix ++ pk.val).isPrefixOf (uxtoPkrKey pkr n) = true ↔
      pk.val = 82 :: pkr.val.take 63) ∧
    (pk.val.head? ≠ some 82 → (pkPrefix ++ pk.val).isPrefixOf (uxtoPkrKey pkr n) = false) := by
  have hkey : uxtoPkrKey pkr n = pkPrefix ++ (82 :: (pkr.val ++ encodeNumber n)) := by
    simp [uxtoPkrKey, pkPrefix, pkrPrefix]
  have hiff : (pkPrefix ++ pk.val).isPrefixOf (uxtoPkrKey pkr n) = true ↔
      pk.val = 82 :: pkr.val.take 63 := by
    rw [List.isPrefixOf_iff_prefix, hkey, List.prefix_append_right_inj, List.prefix_iff_eq_take,
      pk.len]
    have htake : List.take 64 (82 :: (pkr.val ++ encodeNumber n)) = 82 :: pkr.val.take 63 := by
      rw [show (64 : Nat) = 63 + 1 from rfl, List.take_succ_cons,
        List.take_append_of_le_length (by rw [pkr.len]; norm_num)]
    rw [htake]
  refine ⟨hiff, fun hhead => ?_⟩
  cases hp : (pkPrefix ++ pk.val).isPrefixOf (uxtoPkrKey pkr n) with
  | false => rfl
  | true =>
    exfalso
    apply hhead
    rw [hiff.mp hp]
    rfl

/-! ## Theorems: the coins that the merge job keeps -/

theorem mergeCollect_ok (env : Env) (ex : Exchange) (entries : List (Bytes × Bytes))
    (acc : List Uxto)
    (hok : ∀ e ∈ entries, ¬ e.1.length < 130 ∧ ∃ u, getUxto env ex (keyRoot e.1) = Except.ok u)
    (hacc : acc.length ≤ 150) :
    mergeCollect env ex entries acc
      = some (acc ++ (entries.take (151 - acc.length)).map (fun e => candidate env ex e.1)) := by
  induction entries generalizing acc with
  | nil => simp [mergeCollect]
  | cons e rest ih =>
    obtain ⟨key, value⟩ := e
    obtain ⟨hlen, u, hu⟩ := hok (key, value) (List.mem_cons_self _ _)
    have hcand : candidate env ex key = u := by simp [candidate, hu]
    have hrest := fun e he => hok e (List.mem_cons_of_mem _ he)
    have hstep : 151 - acc.length = (151 - (acc ++ [u]).length) + 1 := by
      simp only [List.length_append, List.length_singleton]; omega
    simp only [mergeCollect, hlen, if_false, hu]
    by_cases hfull : (acc ++ [u]).length > 150
    · have h150 : 151 - acc.length = 1 := by
        simp only [List.length_append, List.length_singleton] at hfull; omega
      rw [if_pos hfull, h150]
      simp [hcand]
    · rw [if_neg hfull, ih (acc ++ [u]) hrest (by omega), hstep]
      simp [hcand]

theorem mergeAmount_some (l : List Uxto) (h : ∀ u ∈ l, u.Asset.Tkn ≠ none) :
    ∃ amount, mergeAmount l = some amount := by
  induction l with
  | nil => exact ⟨0, rfl⟩
  | cons u rest ih =>
    obtain ⟨a, ha⟩ := ih (fun u hu => h u (List.mem_cons_of_mem _ hu))
    cases htkn : u.Asset.Tkn with
    | none => exact absurd htkn (h u (List.mem_cons_self _ _))
    | some tkn => exact ⟨tkn.Value + a, by simp [mergeAmount, htkn, ha]⟩

theorem mergeCall_keeps_last (env : Env) (ex : Exchange) (key : Uint512) (account : Account)
    (hsort : SortsByLess env)
    (hrec : ∀ e ∈ mergeEntries ex key, TokenRecord env ex e.1)
    (hlen : 11 ≤ (mergeEntries ex key).length) :
    ∃ call rest, mergeCall env ex key account = some (some call) ∧ rest.length = 8 ∧
      (call.uxtos ++ rest).Perm (mergeCandidates env ex key) ∧
      (∀ a ∈ call.uxtos, ∀ b ∈ rest, UxtoList.Less b a ≠ some true) ∧
      (∀ a ∈ call.uxtos, ∀ b ∈ rest, a.flag ≤ b.flag) ∧
      (∀ a ∈ call.uxtos, ∀ b ∈ rest, a.flag = b.flag → uxtoValue a ≤ uxtoValue b) := by
  have hok : ∀ e ∈ mergeEntries ex key,
      ¬ e.1.length < 130 ∧ ∃ u, getUxto env ex (keyRoot e.1) = Except.ok u := by
    intro e he
    obtain ⟨hl, u, tkn, hu, _, _⟩ := (hrec e he).elim
    exact ⟨by omega, u, hu⟩
  have hcollect := mergeCollect_ok env ex (mergeEntries ex key) [] hok (by simp)
  simp only [List.length_nil, Nat.sub_zero, List.nil_append] at hcollect
  have hU : ((mergeEntries ex key).take 151).map (fun e => candidate env ex e.1)
      = mergeCandidates env ex key := rfl
  rw [hU] at hcollect
  have hUlen : 11 ≤ (mergeCandidates env ex key).length := by
    rw [← hU, List.length_map, List.length_take]
    omega
  have hUtkn : ∀ u ∈ mergeCandidates env ex key, u.Asset.Tkn ≠ none := by
    intro u hu
    rw [← hU] at hu
    obtain ⟨e, he, rfl⟩ := List.mem_map.mp hu
    obtain ⟨_, u, tkn, hu, htkn, _⟩ := (hrec e (List.mem_of_mem_take he)).elim
    simp [candidate, hu, htkn]
  generalize mergeCandidates env ex key = U at hcollect hUlen hUtkn
  obtain ⟨S, hS, hperm, hpair⟩ := hsort U hUtkn
  have hSlen : 11 ≤ S.length := by rw [hperm.length_eq]; exact hUlen
  have hStkn : ∀ u ∈ S, u.Asset.Tkn ≠ none := fun u hu => hUtkn u (hperm.subset hu)
  have hsplit : S.take (S.length - 8) ++ S.drop (S.length - 8) = S := List.take_append_drop _ S
  have htake : (S.take (S.length - 8)).length = S.length - 8 := by
    rw [List.length_take]; omega
  have hdrop : (S.drop (S.length - 8)).length = 8 := by
    rw [List.length_drop]; omega
  obtain ⟨amount, hamount⟩ := mergeAmount_some (S.take (S.length - 8))
    (fun u hu => hStkn u (List.mem_of_mem_take hu))
  have hcross : ∀ a ∈ S.take (S.length - 8), ∀ b ∈ S.drop (S.length - 8),
      UxtoList.Less b a ≠ some true := by
    rw [← hsplit, List.pairwise_append] at hpair
    exact hpair.2.2
  have hcollect' : mergeCollect env ex
      (ex.db.iterPrefix (uxtoPkKey key (leftPadBytes SERO 32) none)) [] = some U := hcollect
  have hnot10 : ¬ U.length ≤ 10 := by omega
  have hgt1 : (S.take (S.length - 8)).length > 1 := by rw [htake]; omega
  refine ⟨{ uxtos := S.take (S.length - 8),
            receptions := [{ Addr := account.mainPkr, Currency := SERO,
                             Value := amount - 25000 * 1000000000 }],
            gas := 25000, gasPrice := 1000000000 },
    S.drop (S.length - 8), ?_, hdrop, ?_, hcross, ?_, ?_⟩
  · unfold mergeCall
    simp only [hcollect', hnot10, if_false, hS, hgt1, if_true, hamount]
  · simp only
    rw [hsplit]; exact hperm
  · intro a ha b hb
    have h := hcross a ha b hb
    unfold UxtoList.Less at h
    by_cases hflag : b.flag = a.flag
    · omega
    · simp only [hflag, if_false, ne_eq, Option.some.injEq, decide_eq_true_eq] at h
      omega
  · intro a ha b hb hflag
    have h := hcross a ha b hb
    obtain ⟨ta, hta⟩ := Option.ne_none_iff_exists'.mp (hStkn a (List.mem_of_mem_take ha))
    obtain ⟨tb, htb⟩ := Option.ne_none_iff_exists'.mp (hStkn b (List.mem_of_mem_drop hb))
    simp only [UxtoList.Less, hflag, if_true, hta, htb, ne_eq, Option.some.injEq,
      decide_eq_true_eq] at h
    rw [uxtoValue_of_tkn hta, uxtoValue_of_tkn htb]
    omega

/-- C24 (counterexample): of 11 `SERO` candidates, 8 reserved ones of amount 1 and 3 free ones
of amount 100, `merge` spends the 3 of amount 100 and leaves the 8 of amount 1 unspent. -/
theorem merge_keeps_small_reserved :
    (mergeCandidates demoEnv exC24 alicePk).map (fun u => (u.flag, uxtoValue u))
      = List.replicate 8 (1, 1) ++ List.replicate 3 (0, 100) ∧
    (mergeCall demoEnv exC24 alicePk alice).map (fun c => c.map (fun call =>
        (call.uxtos.map (fun u => (u.flag, uxtoValue u)), call.receptions.map (fun r => r.Value))))
      = some (some ([(0, 100), (0, 100), (0, 100)], [300 - 25000 * 1000000000])) := by
  set_option maxRecDepth 1000000 in decide

/-- C24 (amended): for an account with at least 11 `SERO` candidates, each a decodable token
record, `merge` prepares a call of `genTx` and leaves 8 of the collected candidates out of it;
none of the 8 is `Less` than a candidate it spends: none has a smaller flag, and each has an
amount greater than or equal to the amount of every spent candidate of the same flag. -/
theorem merge_keeps_last_by_less (env : Env) (ex : Exchange) (key : Uint512) (account : Account)
    (hsort : SortsByLess env)
    (hrec : ∀ e ∈ mergeEntries ex key, TokenRecord env ex e.1)
    (hlen : 11 ≤ (mergeEntries ex key).length) :
    ∃ call rest, mergeCall env ex key account = some (some call) ∧ rest.length = 8 ∧
      (call.uxtos ++ rest).Perm (mergeCandidates env ex key) ∧
      (∀ a ∈ call.uxtos, ∀ b ∈ rest, UxtoList.Less b a ≠ some true) ∧
      (∀ a ∈ call.uxtos, ∀ b ∈ rest, a.flag ≤ b.flag) ∧
      (∀ a ∈ call.uxtos, ∀ b ∈ rest, a.flag = b.flag → uxtoValue a ≤ uxtoValue b) :=
  mergeCall_keeps_last env ex key account hsort hrec hlen

set_option maxRecDepth 1000000 in
theorem merge_keeps_last_by_less_witness :
    SortsByLess demoEnv ∧
    (∀ e ∈ mergeEntries exC24 alicePk, TokenRecord demoEnv exC24 e.1) ∧
    11 ≤ (mergeEntries exC24 alicePk).length ∧
    ∃ call rest, mergeCall demoEnv exC24 alicePk alice = some (some call) ∧ rest.length = 8 ∧
      (call.uxtos ++ rest).Perm (mergeCandidates demoEnv exC24 alicePk) ∧
      (∀ a ∈ call.uxtos, ∀ b ∈ rest, UxtoList.Less b a ≠ some true) ∧
      (∀ a ∈ call.uxtos, ∀ b ∈ rest, a.flag ≤ b.flag) ∧
      (∀ a ∈ call.uxtos, ∀ b ∈ rest, a.flag = b.flag → uxtoValue a ≤ uxtoValue b) :=
  ⟨demoSort_sortsByLess, by decide, by decide,
    merge_keeps_last_by_less demoEnv exC24 alicePk alice demoSort_sortsByLess (by decide)
      (by decide)⟩

/-! ## Theorems: the selection order of `findUxtos` -/

theorem sumValues_cons (u : Uxto) (l : List Uxto) :
    sumValues (u :: l) = uxtoValue u + sumValues l := by
  simp [sumValues]

theorem sumValues_nil : sumValues ([] : List Uxto) = 0 := rfl

theorem findUxtosScan_prefix (env : Env) (ex : Exchange) :
    ∀ (entries : List (Bytes × Bytes)) (uxtos list : List Uxto) (amount : Int),
      (∀ e ∈ entries, TokenRecord env ex e.1) →
      ∃ k R',
        findUxtosScan env ex entries uxtos list amount
          = some (uxtos ++ (freeOf env ex entries).take k, list ++ R',
              amount - sumValues ((freeOf env ex entries).take k)) ∧
        k ≤ (freeOf env ex entries).length ∧
        (0 < amount → ∀ j, j < k → sumValues ((freeOf env ex entries).take j) < amount) ∧
        (0 < amount - sumValues ((freeOf env ex entries).take k) →
          k = (freeOf env ex entries).length ∧ R' = reservedOf env ex entries) := by
  intro entries
  induction entries with
  | nil =>
    intro uxtos list amount _
    exact ⟨0, [], by simp [findUxtosScan, freeOf, sumValues], by simp, by simp,
      fun _ => ⟨by simp [freeOf], by simp [reservedOf]⟩⟩
  | cons e rest ih =>
    intro uxtos list amount h
    obtain ⟨key, v⟩ := e
    have hrest : ∀ x ∈ rest, TokenRecord env ex x.1 := fun x hx => h x (List.mem_cons_of_mem _ hx)
    obtain ⟨hlen, u, tkn, hu, ht, hv⟩ := (h (key, v) (List.mem_cons_self _ _)).elim
    have hlen' : ¬ key.length < 130 := by
      have : 130 ≤ key.length := hlen
      omega
    have hval : uxtoValue u = tkn.Value := uxtoValue_of_tkn ht
    cases hflag : mapGet ex.usedFlag (FlagKey.u256 u.Nil) with
    | none =>
      have hF : freeOf env ex ((key, v) :: rest) = u :: freeOf env ex rest := by
        simp [freeOf, List.filterMap_cons, hu, hflag]
      have hR : reservedOf env ex ((key, v) :: rest) = reservedOf env ex rest := by
        simp [reservedOf, List.filterMap_cons, hu, hflag]
      have hstep : findUxtosStep env ex key uxtos list amount
          = some (uxtos ++ [u], list, amount - tkn.Value) := by
        simp [findUxtosStep, hlen', hu, hflag, ht]
      rw [hF, hR]
      by_cases hstop : amount - tkn.Value ≤ 0
      · refine ⟨1, [], ?_, by simp, ?_, ?_⟩
        · simp [findUxtosScan, hstep, hstop, sumValues_cons, sumValues_nil, hval]
        · intro hpos j hj
          have : j = 0 := by omega
          subst this
          simpa [sumValues_nil] using hpos
        · intro hpos
          simp [sumValues_cons, sumValues_nil, hval] at hpos
          omega
      · obtain ⟨k, R', hscan, hk, hmin, hend⟩ := ih (uxtos ++ [u]) list (amount - tkn.Value) hrest
        refine ⟨k + 1, R', ?_, by simp; omega, ?_, ?_⟩
        · simp only [findUxtosScan, hstep, hstop, if_false, hscan, List.take_succ_cons,
            sumValues_cons, hval]
          simp only [List.append_assoc, List.singleton_append]
          congr 3
          ring
        · intro hpos j hj
          cases j with
          | zero => simpa [sumValues_nil] using hpos
          | succ j' =>
            have := hmin (by omega) j' (by omega)
            simp only [List.take_succ_cons, sumValues_cons, hval]
            omega
        · intro hpos
          simp only [List.take_succ_cons, sumValues_cons, hval] at hpos
          obtain ⟨h1, h2⟩ := hend (by omega)
          exact ⟨by simp [h1], h2⟩
    | some flag =>
      have hF : freeOf env ex ((key, v) :: rest) = freeOf env ex rest := by
        simp [freeOf, List.filterMap_cons, hu, hflag]
      have hR : reservedOf env ex ((key, v) :: rest) = u :: reservedOf env ex rest := by
        simp [reservedOf, List.filterMap_cons, hu, hflag]
      have hstep : findUxtosStep env ex key uxtos list amount
          = some (uxtos, list ++ [u], amount) := by
        simp [findUxtosStep, hlen', hu, hflag]
      rw [hF, hR]
      by_cases hstop : amount ≤ 0
      · refine ⟨0, [u], ?_, by simp, ?_, ?_⟩
        · simp [findUxtosScan, hstep, hstop, sumValues_nil]
        · intro _ j hj; omega
        · intro hpos
          simp [sumValues_nil] at hpos
          omega
      · obtain ⟨k, R', hscan, hk, hmin, hend⟩ := ih uxtos (list ++ [u]) amount hrest
        refine ⟨k, u :: R', ?_, hk, hmin, ?_⟩
        · simp only [findUxtosScan, hstep, hstop, if_false, hscan]
          simp
        · intro hpos
          obtain ⟨h1, h2⟩ := hend hpos
          exact ⟨h1, by rw [h2]⟩

theorem takeReserved_prefix :
    ∀ (sorted uxtos : List Uxto) (amount : Int), 0 < amount →
      (∀ u ∈ sorted, u.Asset.Tkn ≠ none) →
      ∃ m, takeReserved sorted uxtos amount
          = some (uxtos ++ sorted.take m, amount - sumValues (sorted.take m)) ∧
        m ≤ sorted.length ∧
        (∀ j, j < m → sumValues (sorted.take j) < amount) ∧
        (0 < amount - sumValues (sorted.take m) → m = sorted.length) := by
  intro sorted
  induction sorted with
  | nil =>
    intro uxtos amount _ _
    exact ⟨0, by simp [takeReserved, sumValues_nil], by simp, by simp, fun _ => rfl⟩
  | cons u rest ih =>
    intro uxtos amount hpos h
    obtain ⟨tkn, htkn⟩ := Option.ne_none_iff_exists'.mp (h u (List.mem_cons_self _ _))
    have hval : uxtoValue u = tkn.Value := uxtoValue_of_tkn htkn
    by_cases hstop : amount - tkn.Value ≤ 0
    · refine ⟨1, ?_, by simp, ?_, ?_⟩
      · simp [takeReserved, htkn, hstop, sumValues_cons, sumValues_nil, hval]
      · intro j hj
        have : j = 0 := by omega
        subst this
        simpa [sumValues_nil] using hpos
      · intro hp
        simp [sumValues_cons, sumValues_nil, hval] at hp
        omega
    · obtain ⟨m, htake, hm, hmin, hend⟩ := ih (uxtos ++ [u]) (amount - tkn.Value) (by omega)
        (fun x hx => h x (List.mem_cons_of_mem _ hx))
      refine ⟨m + 1, ?_, by simp; omega, ?_, ?_⟩
      · simp only [takeReserved, htkn, hstop, if_false, htake, List.take_succ_cons,
          sumValues_cons, hval]
        rw [Option.some.injEq, Prod.mk.injEq]
        exact ⟨by simp, by ring⟩
      · intro j hj
        cases j with
        | zero => simpa [sumValues_nil] using hpos
        | succ j' =>
          have := hmin j' (by omega)
          simp only [List.take_succ_cons, sumValues_cons, hval]
          omega
      · intro hp
        simp only [List.take_succ_cons, sumValues_cons, hval] at hp
        have := hend (by omega)
        simp [this]
theorem mem_freeOf {env : Env} {ex : Exchange} {entries : List (Bytes × Bytes)} {u : Uxto}
    (h : u ∈ freeOf env ex entries) : mapGet ex.usedFlag (FlagKey.u256 u.Nil) = none := by
  unfold freeOf at h
  obtain ⟨e, _, he⟩ := List.mem_filterMap.mp h
  cases hg : getUxto env ex (keyRoot e.1) with
  | error err => simp [hg] at he
  | ok v =>
    simp only [hg] at he
    cases hf : mapGet ex.usedFlag (FlagKey.u256 v.Nil) with
    | none =>
      simp only [hf, Option.some.injEq] at he
      rw [← he]; exact hf
    | some _ => simp [hf] at he

theorem mem_reservedOf {env : Env} {ex : Exchange} {entries : List (Bytes × Bytes)} {u : Uxto}
    (hrec : ∀ e ∈ entries, TokenRecord env ex e.1) (h : u ∈ reservedOf env ex entries) :
    mapGet ex.usedFlag (FlagKey.u256 u.Nil) ≠ none ∧ u.Asset.Tkn ≠ none := by
  unfold reservedOf at h
  obtain ⟨e, hmem, he⟩ := List.mem_filterMap.mp h
  obtain ⟨_, v, tkn, hv, htkn, _⟩ := (hrec e hmem).elim
  simp only [hv] at he
  cases hf : mapGet ex.usedFlag (FlagKey.u256 v.Nil) with
  | none => simp [hf] at he
  | some _ =>
    simp only [hf, Option.some.injEq] at he
    rw [← he]
    exact ⟨by simp [hf], by simp [htkn]⟩

theorem findUxtos_selection (env : Env) (ex : Exchange) (pk : Uint512) (currency : Bytes)
    (amount : Int)
    (hrec : ∀ e ∈ findEntries env ex pk currency, TokenRecord env ex e.1)
    (hsort : SortsByLess env) :
    ∃ (k m : Nat) (s : List Uxto) (e : Option String),
      findUxtos env ex pk currency amount
        = some ((freeOf env ex (findEntries env ex pk currency)).take k ++ s.take m, e) ∧
      k ≤ (freeOf env ex (findEntries env ex pk currency)).length ∧
      s.Perm (reservedOf env ex (findEntries env ex pk currency)) ∧
      s.Pairwise (fun a b => UxtoList.Less b a ≠ some true) ∧
      (0 < amount → ∀ j, j < k →
        sumValues ((freeOf env ex (findEntries env ex pk currency)).take j) < amount) ∧
      (amount ≤ sumValues ((freeOf env ex (findEntries env ex pk currency)).take k) → m = 0) ∧
      (sumValues ((freeOf env ex (findEntries env ex pk currency)).take k) < amount →
        k = (freeOf env ex (findEntries env ex pk currency)).length ∧
        (∀ j, j < m → sumValues (s.take j)
          < amount - sumValues (freeOf env ex (findEntries env ex pk currency))) ∧
        (m = s.length ∨
          amount - sumValues (freeOf env ex (findEntries env ex pk currency))
            ≤ sumValues (s.take m))) := by
  generalize hF : freeOf env ex (findEntries env ex pk currency) = F
  generalize hR : reservedOf env ex (findEntries env ex pk currency) = R
  obtain ⟨k, R', hscan, hk, hmin, hend⟩ :=
    findUxtosScan_prefix env ex (findEntries env ex pk currency) [] [] amount hrec
  rw [hF] at hscan hk hmin hend
  rw [hR] at hend
  simp only [List.nil_append] at hscan
  have hRtkn : ∀ u ∈ R, u.Asset.Tkn ≠ none := by
    intro u hu
    rw [← hR] at hu
    exact (mem_reservedOf hrec hu).2
  obtain ⟨s, hs, hperm, hpair⟩ := hsort R hRtkn
  have hscan' : findUxtosScan env ex (ex.db.iterPrefix (findPrefix env pk currency)) [] [] amount
      = some (F.take k, R', amount - sumValues (F.take k)) := hscan
  by_cases hrem : amount - sumValues (F.take k) ≤ 0
  · refine ⟨k, 0, s, none, ?_, hk, hperm, hpair, hmin, fun _ => rfl, fun hlt => ?_⟩
    · have hnot : ¬ (amount - sumValues (F.take k) > 0 ∧ R'.length > 0) := by
        intro hc; omega
      have hnot' : ¬ amount - sumValues (F.take k) > 0 := by omega
      simp [findUxtos, hscan', hnot, hnot']
    · omega
  · obtain ⟨hkF, hR'⟩ := hend (by omega)
    subst hR'
    have htakeF : F.take k = F := by rw [hkF]; exact List.take_length F
    rw [htakeF] at hscan' hrem
    by_cases hlen : R'.length > 0
    · obtain ⟨m, htake, hm, hminR, hendR⟩ :=
        takeReserved_prefix s F (amount - sumValues F) (by omega)
          (fun u hu => hRtkn u (hperm.subset hu))
      refine ⟨k, m, s, if amount - sumValues F - sumValues (s.take m) > 0
          then some "not enough token" else none, ?_, hk, hperm, hpair, hmin,
        fun hle => ?_, fun _ => ⟨hkF, hminR, ?_⟩⟩
      · have hcond : amount - sumValues F > 0 ∧ R'.length > 0 := ⟨by omega, hlen⟩
        rw [htakeF]
        simp only [findUxtos, hscan', hcond, and_self, if_true, hs, htake]
      · rw [htakeF] at hle; omega
      · by_cases hcov : 0 < amount - sumValues F - sumValues (s.take m)
        · exact Or.inl (hendR hcov)
        · exact Or.inr (by omega)
    · have hR'nil : R' = [] := List.eq_nil_of_length_eq_zero (by omega)
      subst hR'nil
      have hsnil : s = [] := List.Perm.eq_nil hperm
      subst hsnil
      refine ⟨k, 0, [], some "not enough token", ?_, hk, hperm, hpair, hmin,
        fun hle => rfl, fun _ => ⟨hkF, fun j hj => by omega, Or.inl rfl⟩⟩
      have hcond : ¬ (amount - sumValues F > 0 ∧ ([] : List Uxto).length > 0) := by simp
      have hpos' : amount - sumValues F > 0 := by omega
      rw [htakeF]
      simp [findUxtos, hscan', hpos']

theorem freeOf_nonneg {env : Env} {ex : Exchange} {entries : List (Bytes × Bytes)} {u : Uxto}
    (hrec : ∀ e ∈ entries, TokenRecord env ex e.1) (h : u ∈ freeOf env ex entries) :
    0 ≤ uxtoValue u := by
  unfold freeOf at h
  obtain ⟨e, hmem, he⟩ := List.mem_filterMap.mp h
  obtain ⟨_, v, tkn, hv, htkn, hval⟩ := (hrec e hmem).elim
  simp only [hv] at he
  cases hf : mapGet ex.usedFlag (FlagKey.u256 v.Nil) with
  | some _ => simp [hf] at he
  | none =>
    simp only [hf, Option.some.injEq] at he
    rw [← he, uxtoValue_of_tkn htkn]
    exact hval

theorem sumValues_take_le (l : List Uxto) (k : Nat) (h : ∀ u ∈ l, 0 ≤ uxtoValue u) :
    sumValues (l.take k) ≤ sumValues l := by
  have hsplit : sumValues l = sumValues (l.take k) + sumValues (l.drop k) := by
    rw [← sumValues_append, List.take_append_drop]
  have hdrop : 0 ≤ sumValues (l.drop k) := by
    unfold sumValues
    apply List.sum_nonneg
    intro x hx
    obtain ⟨y, hy, rfl⟩ := List.mem_map.mp hx
    exact h y (List.mem_of_mem_drop hy)
  omega

set_option maxRecDepth 1000000 in
theorem tokenRecords_exC4 :
    ∀ e ∈ findEntries demoEnv exC4 alicePk SERO, TokenRecord demoEnv exC4 e.1 := by
  decide

set_option maxRecDepth 1000000 in
theorem tokenRecords_exC23 :
    ∀ e ∈ findEntries demoEnv exC23 alicePk SERO, TokenRecord demoEnv exC23 e.1 := by
  decide

/-- C22 (counterexample): with two free UTXOs of 3 and 4 `SERO` listed, a request for the
amount 0, which the empty prefix already reaches, selects the first listed UTXO. -/
theorem findUxtos_zero_selects_one :
    (freeOf demoEnv exC4 (findEntries demoEnv exC4 alicePk SERO)).map uxtoValue = [3, 4] ∧
    (0 : Int) ≤ sumValues ((freeOf demoEnv exC4 (findEntries demoEnv exC4 alicePk SERO)).take 0) ∧
    (findUxtos demoEnv exC4 alicePk SERO 0).map (fun r => (r.1.map uxtoValue, r.2))
      = some ([3], none) := by
  set_option maxRecDepth 1000000 in decide

/-- C22 (amended): for a requested amount greater than 0, when every listed root has a
decodable token record, the free UTXOs that `findUxtos` returns are the shortest prefix, in
iteration order, of the free UTXOs under the prefix whose total reaches the amount, or all of
them when no prefix reaches it; what it returns after them is reserved. -/
theorem findUxtos_free_shortest_prefix (env : Env) (ex : Exchange) (pk : Uint512)
    (currency : Bytes) (amount : Int)
    (hrec : ∀ e ∈ findEntries env ex pk currency, TokenRecord env ex e.1)
    (hsort : SortsByLess env) (hpos : 0 < amount) :
    ∃ (k : Nat) (rest : List Uxto) (e : Option String),
      findUxtos env ex pk currency amount
        = some ((freeOf env ex (findEntries env ex pk currency)).take k ++ rest, e) ∧
      (∀ u ∈ (freeOf env ex (findEntries env ex pk currency)).take k,
        mapGet ex.usedFlag (FlagKey.u256 u.Nil) = none) ∧
      (∀ u ∈ rest, mapGet ex.usedFlag (FlagKey.u256 u.Nil) ≠ none) ∧
      k ≤ (freeOf env ex (findEntries env ex pk currency)).length ∧
      (∀ j, j < k →
        sumValues ((freeOf env ex (findEntries env ex pk currency)).take j) < amount) ∧
      (k = (freeOf env ex (findEntries env ex pk currency)).length ∨
        amount ≤ sumValues ((freeOf env ex (findEntries env ex pk currency)).take k)) := by
  obtain ⟨k, m, s, e, hfind, hk, hperm, _, hmin, _, hshort⟩ :=
    findUxtos_selection env ex pk currency amount hrec hsort
  refine ⟨k, s.take m, e, hfind, fun u hu => mem_freeOf (List.mem_of_mem_take hu),
    fun u hu => (mem_reservedOf hrec (hperm.subset (List.mem_of_mem_take hu))).1, hk,
    hmin hpos, ?_⟩
  by_cases hlt : sumValues ((freeOf env ex (findEntries env ex pk currency)).take k) < amount
  · exact Or.inl (hshort hlt).1
  · exact Or.inr (by omega)

set_option maxRecDepth 1000000 in
theorem findUxtos_free_shortest_prefix_witness :
    (∀ e ∈ findEntries demoEnv exC4 alicePk SERO, TokenRecord demoEnv exC4 e.1) ∧
    SortsByLess demoEnv ∧ (0 : Int) < 2 ∧
    ∃ (k : Nat) (rest : List Uxto) (e : Option String),
      findUxtos demoEnv exC4 alicePk SERO 2
        = some ((freeOf demoEnv exC4 (findEntries demoEnv exC4 alicePk SERO)).take k ++ rest, e) ∧
      (∀ u ∈ (freeOf demoEnv exC4 (findEntries demoEnv exC4 alicePk SERO)).take k,
        mapGet exC4.usedFlag (FlagKey.u256 u.Nil) = none) ∧
      (∀ u ∈ rest, mapGet exC4.usedFlag (FlagKey.u256 u.Nil) ≠ none) ∧
      k ≤ (freeOf demoEnv exC4 (findEntries demoEnv exC4 alicePk SERO)).length ∧
      (∀ j, j < k →
        sumValues ((freeOf demoEnv exC4 (findEntries demoEnv exC4 alicePk SERO)).take j) < 2) ∧
      (k = (freeOf demoEnv exC4 (findEntries demoEnv exC4 alicePk SERO)).length ∨
        (2 : Int) ≤ sumValues ((freeOf demoEnv exC4 (findEntries demoEnv exC4 alicePk SERO)).take k)) :=
  ⟨tokenRecords_exC4, demoSort_sortsByLess, by decide,
    findUxtos_free_shortest_prefix demoEnv exC4 alicePk SERO 2 tokenRecords_exC4
      demoSort_sortsByLess (by decide)⟩

/-- C23: when every listed root has a decodable token record and `sort.Sort` sorts by `Less`:
if the free UTXOs under the prefix total at least the requested amount, `findUxtos` returns
free UTXOs only; otherwise it returns all free UTXOs followed by reserved ones, which are the
shortest prefix that covers the remainder of the reserved list in the order of `Less`
(no element is `Less` than an earlier one), or the whole list when it does not cover it. -/
theorem findUxtos_reserved_fallback (env : Env) (ex : Exchange) (pk : Uint512)
    (currency : Bytes) (amount : Int)
    (hrec : ∀ e ∈ findEntries env ex pk currency, TokenRecord env ex e.1)
    (hsort : SortsByLess env) :
    (amount ≤ sumValues (freeOf env ex (findEntries env ex pk currency)) →
      ∃ (uxtos : List Uxto) (e : Option String),
        findUxtos env ex pk currency amount = some (uxtos, e) ∧
        ∀ u ∈ uxtos, mapGet ex.usedFlag (FlagKey.u256 u.Nil) = none) ∧
    (sumValues (freeOf env ex (findEntries env ex pk currency)) < amount →
      ∃ (s : List Uxto) (m : Nat) (e : Option String),
        findUxtos env ex pk currency amount
          = some (freeOf env ex (findEntries env ex pk currency) ++ s.take m, e) ∧
        s.Perm (reservedOf env ex (findEntries env ex pk currency)) ∧
        s.Pairwise (fun a b => UxtoList.Less b a ≠ some true) ∧
        (∀ u ∈ s.take m, mapGet ex.usedFlag (FlagKey.u256 u.Nil) ≠ none) ∧
        (∀ j, j < m → sumValues (s.take j)
          < amount - sumValues (freeOf env ex (findEntries env ex pk currency))) ∧
        (m = s.length ∨
          amount - sumValues (freeOf env ex (findEntries env ex pk currency))
            ≤ sumValues (s.take m))) := by
  obtain ⟨k, m, s, e, hfind, hk, hperm, hpair, hmin, hnone, hshort⟩ :=
    findUxtos_selection env ex pk currency amount hrec hsort
  constructor
  · intro hle
    have hm : m = 0 := by
      by_cases hlt : sumValues ((freeOf env ex (findEntries env ex pk currency)).take k) < amount
      · have hkF := (hshort hlt).1
        rw [hkF, List.take_length] at hlt
        omega
      · exact hnone (by omega)
    subst hm
    refine ⟨_, e, hfind, fun u hu => ?_⟩
    simp only [List.take_zero, List.append_nil] at hu
    exact mem_freeOf (List.mem_of_mem_take hu)
  · intro hlt
    have hlt' : sumValues ((freeOf env ex (findEntries env ex pk currency)).take k) < amount := by
      by_cases h : sumValues ((freeOf env ex (findEntries env ex pk currency)).take k) < amount
      · exact h
      · have := sumValues_take_le (freeOf env ex (findEntries env ex pk currency)) k
          (fun u hu => freeOf_nonneg hrec hu)
        omega
    obtain ⟨hkF, hminR, hcov⟩ := hshort hlt'
    rw [hkF, List.take_length] at hfind
    exact ⟨s, m, e, hfind, hperm, hpair,
      fun u hu => (mem_reservedOf hrec (hperm.subset (List.mem_of_mem_take hu))).1, hminR, hcov⟩

set_option maxRecDepth 1000000 in
theorem findUxtos_reserved_fallback_witness :
    (∀ e ∈ findEntries demoEnv exC23 alicePk SERO, TokenRecord demoEnv exC23 e.1) ∧
    SortsByLess demoEnv ∧
    (findUxtos demoEnv exC23 alicePk SERO 6).map (fun r => (r.1.map uxtoValue, r.1.map
      (fun u => u.flag), r.2)) = some ([3, 4], [0, 1], none) ∧
    ((6 ≤ sumValues (freeOf demoEnv exC23 (findEntries demoEnv exC23 alicePk SERO)) →
      ∃ (uxtos : List Uxto) (e : Option String),
        findUxtos demoEnv exC23 alicePk SERO 6 = some (uxtos, e) ∧
        ∀ u ∈ uxtos, mapGet exC23.usedFlag (FlagKey.u256 u.Nil) = none) ∧
    (sumValues (freeOf demoEnv exC23 (findEntries demoEnv exC23 alicePk SERO)) < 6 →
      ∃ (s : List Uxto) (m : Nat) (e : Option String),
        findUxtos demoEnv exC23 alicePk SERO 6
          = some (freeOf demoEnv exC23 (findEntries demoEnv exC23 alicePk SERO) ++ s.take m, e) ∧
        s.Perm (reservedOf demoEnv exC23 (findEntries demoEnv exC23 alicePk SERO)) ∧
        s.Pairwise (fun a b => UxtoList.Less b a ≠ some true) ∧
        (∀ u ∈ s.take m, mapGet exC23.usedFlag (FlagKey.u256 u.Nil) ≠ none) ∧
        (∀ j, j < m → sumValues (s.take j)
          < 6 - sumValues (freeOf demoEnv exC23 (findEntries demoEnv exC23 alicePk SERO))) ∧
        (m = s.length ∨
          6 - sumValues (freeOf demoEnv exC23 (findEntries demoEnv exC23 alicePk SERO))
            ≤ sumValues (s.take m)))) :=
  ⟨tokenRecords_exC23, demoSort_sortsByLess, by decide,
    findUxtos_reserved_fallback demoEnv exC23 alicePk SERO 6 tokenRecords_exC23
      demoSort_sortsByLess⟩

/-! ## Theorems: a UTXO created and spent in one window -/

theorem mapGet_some_mem {κ ν : Type} [DecidableEq κ] {m : List (κ × ν)} {k : κ} {v : ν}
    (h : mapGet m k = some v) : (k, v) ∈ m := by
  induction m with
  | nil => simp [mapGet] at h
  | cons e rest ih =>
    obtain ⟨k0, v0⟩ := e
    simp only [mapGet] at h
    by_cases hk : k0 = k
    · simp only [hk, if_true, Option.some.injEq] at h
      subst hk; subst h
      exact List.mem_cons_self _ _
    · simp only [hk, if_false] at h
      exact List.mem_cons_of_mem _ (ih h)

theorem indexList_track (env : Env) (pk : Uint512) (x : Uint256) (K : Bytes) :
    ∀ (list : List Uxto) (batch : Batch) (ops : List (Bytes × Bytes)) (roots : List Uint256),
      (∀ v ∈ list, env.encodeUxto v ≠ none ∧ v.Asset.Tkn ≠ none) →
      (∀ v ∈ list, (v.Nil = x ∨ v.Root = x) → indexPkKey pk v = K) →
      ∃ batch1 ops1 roots1,
        indexList env pk list batch ops roots = some (none, batch1, ops1, roots1) ∧
        ((mapGet ops (bytes2Hex (nilKey x)) = some (bytes2Hex K) ∨
            ∃ v ∈ list, v.Nil = x ∨ v.Root = x) →
          mapGet ops1 (bytes2Hex (nilKey x)) = some (bytes2Hex K)) := by
  intro list
  induction list with
  | nil =>
    intro batch ops roots _ _
    refine ⟨batch, ops, roots, rfl, fun h => ?_⟩
    rcases h with h | ⟨v, hv, _⟩
    · exact h
    · simp at hv
  | cons u rest ih =>
    intro batch ops roots henc hown
    obtain ⟨he, ht⟩ := henc u (List.mem_cons_self _ _)
    obtain ⟨data, hdata⟩ := Option.ne_none_iff_exists'.mp he
    obtain ⟨tkn, htkn⟩ := Option.ne_none_iff_exists'.mp ht
    have hpk : indexPkKey pk u = uxtoPkKey pk tkn.Currency.val (some u.Root) := by
      simp [indexPkKey, htkn]
    obtain ⟨batch1, ops1, roots1, hrun, htrack⟩ :=
      ih (batch ++ [BatchOp.put (rootKey u.Root) data])
        (mapSet (mapSet (mapSet ops (bytes2Hex (indexPkKey pk u)) (bytes2Hex [0]))
          (bytes2Hex (nilKey u.Nil)) (bytes2Hex (indexPkKey pk u)))
          (bytes2Hex (nilKey u.Root)) (bytes2Hex (indexPkKey pk u)))
        (roots ++ [u.Root])
        (fun v hv => henc v (List.mem_cons_of_mem _ hv))
        (fun v hv => hown v (List.mem_cons_of_mem _ hv))
    refine ⟨batch1, ops1, roots1, ?_, fun h => htrack ?_⟩
    · simp only [indexList, hdata, htkn]
      exact hrun
    · by_cases hmatch : u.Nil = x ∨ u.Root = x
      · left
        have hK := hown u (List.mem_cons_self _ _) hmatch
        rw [hK]
        simp only [mapGet_mapSet]
        rcases hmatch with hm | hm
        · by_cases hr : u.Root = x
          · simp [hr]
          · have hne : bytes2Hex (nilKey u.Root) ≠ bytes2Hex (nilKey x) :=
              fun hh => hr (nilKey_inj (bytes2Hex_inj hh))
            simp [hne, hm]
        · simp [hm]
      · have hn1 : bytes2Hex (nilKey u.Root) ≠ bytes2Hex (nilKey x) :=
          fun hh => hmatch (Or.inr (nilKey_inj (bytes2Hex_inj hh)))
        have hn2 : bytes2Hex (nilKey u.Nil) ≠ bytes2Hex (nilKey x) :=
          fun hh => hmatch (Or.inl (nilKey_inj (bytes2Hex_inj hh)))
        have hn3 : bytes2Hex (indexPkKey pk u) ≠ bytes2Hex (nilKey x) := by
          rw [hpk]
          exact fun hh => nilKey_ne_pkKey x pk tkn.Currency u.Root (bytes2Hex_inj hh).symm
        rcases h with h | ⟨v, hv, hvm⟩
        · left
          simp only [mapGet_mapSet, hn1, hn2, hn3, if_false]
          exact h
        · rcases List.mem_cons.mp hv with hvu | hvr
          · subst hvu; exact absurd hvm hmatch
          · exact Or.inr ⟨v, hvr, hvm⟩

theorem indexGroups_track (env : Env) (x : Uint256) (K : Bytes)
    (hroots : ∀ roots, env.encodeRoots roots ≠ none) :
    ∀ (uxtos : List (PkrKey × List Uxto)) (batch : Batch) (ops : List (Bytes × Bytes)),
      (∀ g ∈ uxtos, ∀ v ∈ g.2, env.encodeUxto v ≠ none ∧ v.Asset.Tkn ≠ none) →
      (∀ g ∈ uxtos, ∀ v ∈ g.2, (v.Nil = x ∨ v.Root = x) → indexPkKey g.1.account.pk v = K) →
      ∃ batch1 ops1,
        indexGroups env uxtos batch ops = some (none, batch1, ops1) ∧
        ((mapGet ops (bytes2Hex (nilKey x)) = some (bytes2Hex K) ∨
            ∃ g ∈ uxtos, ∃ v ∈ g.2, v.Nil = x ∨ v.Root = x) →
          mapGet ops1 (bytes2Hex (nilKey x)) = some (bytes2Hex K)) := by
  intro uxtos
  induction uxtos with
  | nil =>
    intro batch ops _ _
    refine ⟨batch, ops, rfl, fun h => ?_⟩
    rcases h with h | ⟨g, hg, _⟩
    · exact h
    · simp at hg
  | cons g rest ih =>
    intro batch ops henc hown
    obtain ⟨key, list⟩ := g
    obtain ⟨b1, o1, r1, hlist, htrack1⟩ :=
      indexList_track env key.account.pk x K list batch ops []
        (henc (key, list) (List.mem_cons_self _ _)) (hown (key, list) (List.mem_cons_self _ _))
    obtain ⟨data, hdata⟩ := Option.ne_none_iff_exists'.mp (hroots r1)
    obtain ⟨b2, o2, hrest, htrack2⟩ :=
      ih (b1 ++ [BatchOp.put (uxtoPkrKey key.pkr key.num) data]) o1
        (fun g hg => henc g (List.mem_cons_of_mem _ hg))
        (fun g hg => hown g (List.mem_cons_of_mem _ hg))
    refine ⟨b2, o2, ?_, fun h => htrack2 ?_⟩
    · simp only [indexGroups, hlist, hdata]
      exact hrest
    · rcases h with h | ⟨g, hg, v, hv, hvm⟩
      · exact Or.inl (htrack1 (Or.inl h))
      · rcases List.mem_cons.mp hg with hgu | hgr
        · subst hgu
          exact Or.inl (htrack1 (Or.inr ⟨v, hv, hvm⟩))
        · exact Or.inr ⟨g, hgr, v, hv, hvm⟩

theorem nilsOps_removes (b : Batch) (x : Uint256) (value : Bytes) :
    ∀ (nils : List Uint256) (ops : List (Bytes × Bytes)),
      (∀ e ∈ ops, OpsEntryOk b e) → x ∈ nils →
      mapGet ops (bytes2Hex (nilKey x)) = some value →
      mapGet (nilsOps nils ops) (bytes2Hex (nilKey x)) = none ∧
      mapGet (nilsOps nils ops) value = none := by
  intro nils
  induction nils with
  | nil => intro ops _ hx _; simp at hx
  | cons n rest ih =>
    intro ops hok hx hget
    unfold nilsOps
    cases hn : mapGet ops (bytes2Hex (nilKey n)) with
    | some value' =>
      simp only
      by_cases hnx : n = x
      · subst hnx
        rw [hget] at hn
        have hv : value = value' := Option.some.inj hn
        subst hv
        constructor
        · apply nilsOps_get_none
          rw [mapGet_mapDel, mapGet_mapDel]
          simp
        · apply nilsOps_get_none
          rw [mapGet_mapDel]
          simp
      · have hxr : x ∈ rest := by
          rcases List.mem_cons.mp hx with h | h
          · exact absurd h.symm hnx
          · exact h
        have hne1 : bytes2Hex (nilKey n) ≠ bytes2Hex (nilKey x) :=
          fun hh => hnx (nilKey_inj (bytes2Hex_inj hh))
        have hne2 : value' ≠ bytes2Hex (nilKey x) := by
          obtain ⟨pk, cur, root, data, _, hcase⟩ := hok _ (mapGet_some_mem hn)
          rcases hcase with ⟨h1, _⟩ | ⟨n', _, h2⟩
          · exact absurd (bytes2Hex_inj h1) (nilKey_ne_pkKey n pk cur root)
          · simp only at h2
            rw [h2]
            exact fun hh => nilKey_ne_pkKey x pk cur root (bytes2Hex_inj hh).symm
        apply ih _ (fun e he => hok e (mem_mapDel (mem_mapDel he))) hxr
        rw [mapGet_mapDel, mapGet_mapDel]
        simp [hne1, hne2, hget]
    | none =>
      simp only
      have hnx : n ≠ x := by
        intro h; subst h; rw [hget] at hn; simp at hn
      have hxr : x ∈ rest := by
        rcases List.mem_cons.mp hx with h | h
        · exact absurd h.symm hnx
        · exact h
      exact ih ops hok hxr hget

theorem nilsOps_keeps (b : Batch) (y : Uint256) (value : Bytes) :
    ∀ (nils : List Uint256) (ops : List (Bytes × Bytes)),
      (∀ e ∈ ops, OpsEntryOk b e) → y ∉ nils →
      mapGet ops (bytes2Hex (nilKey y)) = some value →
      mapGet (nilsOps nils ops) (bytes2Hex (nilKey y)) = some value := by
  intro nils
  induction nils with
  | nil => intro ops _ _ h; exact h
  | cons n rest ih =>
    intro ops hok hy hget
    have hny : n ≠ y := fun h => hy (by rw [h]; exact List.mem_cons_self _ _)
    have hyr : y ∉ rest := fun h => hy (List.mem_cons_of_mem _ h)
    unfold nilsOps
    cases hn : mapGet ops (bytes2Hex (nilKey n)) with
    | none => exact ih ops hok hyr hget
    | some value' =>
      simp only
      have hne1 : bytes2Hex (nilKey n) ≠ bytes2Hex (nilKey y) :=
        fun hh => hny (nilKey_inj (bytes2Hex_inj hh))
      have hne2 : value' ≠ bytes2Hex (nilKey y) := by
        obtain ⟨pk, cur, root, data, _, hcase⟩ := hok _ (mapGet_some_mem hn)
        rcases hcase with ⟨h1, _⟩ | ⟨n', _, h2⟩
        · exact absurd (bytes2Hex_inj h1) (nilKey_ne_pkKey n pk cur root)
        · simp only at h2
          rw [h2]
          exact fun hh => nilKey_ne_pkKey y pk cur root (bytes2Hex_inj hh).symm
      apply ih _ (fun e he => hok e (mem_mapDel (mem_mapDel he))) hyr
      rw [mapGet_mapDel, mapGet_mapDel]
      simp [hne1, hne2, hget]

theorem indexBlocks_created_and_spent (env : Env) (ex : Exchange)
    (uxtos : List (PkrKey × List Uxto)) (nils : List Uint256) (key : PkrKey) (list : List Uxto)
    (u : Uxto) (x : Uint256)
    (hgroup : (key, list) ∈ uxtos) (hu : u ∈ list)
    (hx : u.Nil = x ∨ u.Root = x) (hpub : x ∈ nils)
    (hown : ∀ g ∈ uxtos, ∀ v ∈ g.2, (v.Nil = x ∨ v.Root = x) →
      indexPkKey g.1.account.pk v = indexPkKey key.account.pk u)
    (henc : ∀ g ∈ uxtos, ∀ v ∈ g.2, env.encodeUxto v ≠ none ∧ v.Asset.Tkn ≠ none)
    (hroots : ∀ roots, env.encodeRoots roots ≠ none) :
    ∃ batch usedFlag, indexBlocks env ex [] uxtos nils = some (none, batch, usedFlag) ∧
      (∀ data, BatchOp.put (indexPkKey key.account.pk u) data ∉ batch) ∧
      (∀ data, BatchOp.put (nilKey x) data ∉ batch) ∧
      (∀ y, (u.Nil = y ∨ u.Root = y) → y ∉ nils →
        (∀ g ∈ uxtos, ∀ v ∈ g.2, (v.Nil = y ∨ v.Root = y) →
          indexPkKey g.1.account.pk v = indexPkKey key.account.pk u) →
        BatchOp.put (nilKey y) (indexPkKey key.account.pk u) ∈ batch) := by
  obtain ⟨b1, ops1, hgroups, htrack⟩ :=
    indexGroups_track env x (indexPkKey key.account.pk u) hroots uxtos [] [] henc hown
  have hP := htrack (Or.inr ⟨(key, list), hgroup, u, hu, hx⟩)
  obtain ⟨hb1, ho1⟩ := indexGroups_shape env uxtos [] [] none b1 ops1 hgroups (by simp) (by simp)
  obtain ⟨hgone1, hgone2⟩ := nilsOps_removes b1 x _ nils ops1 ho1 hpub hP
  obtain ⟨tkn, htkn⟩ := Option.ne_none_iff_exists'.mp (henc (key, list) hgroup u hu).2
  have hpk : indexPkKey key.account.pk u
      = uxtoPkKey key.account.pk tkn.Currency.val (some u.Root) := by
    simp [indexPkKey, htkn]
  obtain ⟨heq1, heq2⟩ := indexNils_eq ex.db nils b1 ops1 ex.usedFlag
  have hnotin : ∀ (k : Bytes), (∀ r, rootKey r ≠ k) → (∀ pkr n, uxtoPkrKey pkr n ≠ k) →
      mapGet (nilsOps nils ops1) (bytes2Hex k) = none →
      ∀ data, BatchOp.put k data ∉
        (indexNils ex.db nils b1 ops1 ex.usedFlag).1 ++
          (indexNils ex.db nils b1 ops1 ex.usedFlag).2.1.map
            (fun e => BatchOp.put (hex2Bytes e.1) (hex2Bytes e.2)) := by
    intro k hroot hpkr hnone data hmem
    rw [heq1, heq2] at hmem
    rcases List.mem_append.mp hmem with h1 | h1
    · rcases List.mem_append.mp h1 with h2 | h2
      · rcases hb1 _ h2 with ⟨r, d, h3⟩ | ⟨pkr, n, d, h3⟩
        · simp only [BatchOp.put.injEq] at h3
          exact hroot r h3.1.symm
        · simp only [BatchOp.put.injEq] at h3
          exact hpkr pkr n h3.1.symm
      · obtain ⟨k', hk'⟩ := delsOf_all_del ex.db _ _ h2
        simp at hk'
    · obtain ⟨e, he, heq⟩ := List.mem_map.mp h1
      simp only [BatchOp.put.injEq] at heq
      have he1 := nilsOps_subset nils ops1 e he
      have hform : ∃ k0, e.1 = bytes2Hex k0 := by
        obtain ⟨pk, cur, root, d, _, hcase⟩ := ho1 e he1
        rcases hcase with ⟨h1, _⟩ | ⟨n', h1, _⟩
        · exact ⟨_, h1⟩
        · exact ⟨_, h1⟩
      obtain ⟨k0, hk0⟩ := hform
      have hk : k0 = k := by
        rw [← heq.1, hk0, hex2Bytes_bytes2Hex]
      rw [hk] at hk0
      have := mapGet_ne_none_of_mem he
      rw [hk0] at this
      exact this hnone
  refine ⟨(indexNils ex.db nils b1 ops1 ex.usedFlag).1 ++
      (indexNils ex.db nils b1 ops1 ex.usedFlag).2.1.map
        (fun e => BatchOp.put (hex2Bytes e.1) (hex2Bytes e.2)),
    (indexNils ex.db nils b1 ops1 ex.usedFlag).2.2, ?_, ?_, ?_, ?_⟩
  · simp only [indexBlocks, hgroups]
  · rw [hpk]
    apply hnotin
    · exact fun r => rootKey_ne_pkKey r _ _ _
    · exact fun pkr n => (pkKey_ne_pkrKey _ _ _ pkr n).symm
    · rw [← hpk]; exact hgone2
  · apply hnotin
    · exact fun r => rootKey_ne_nilKey r x
    · exact fun pkr n => (nilKey_ne_pkrKey x pkr n).symm
    · exact hgone1
  · intro y hy hynot hown'
    obtain ⟨b1', ops1', hgroups', htrack'⟩ :=
      indexGroups_track env y (indexPkKey key.account.pk u) hroots uxtos [] [] henc hown'
    rw [hgroups] at hgroups'
    simp only [Option.some.injEq, Prod.mk.injEq, true_and] at hgroups'
    obtain ⟨_, hops⟩ := hgroups'
    subst hops
    have hPy := htrack' (Or.inr ⟨(key, list), hgroup, u, hu, hy⟩)
    have hkept := nilsOps_keeps b1 y _ nils ops1 ho1 hynot hPy
    apply List.mem_append_right
    rw [heq2]
    refine List.mem_map.mpr ⟨_, mapGet_some_mem hkept, ?_⟩
    simp only [hex2Bytes_bytes2Hex]

/-- C21 (counterexample): the window creates one UTXO, of root 7 and nullifier 9, and publishes
the nullifier 9. The batch of `indexBlocks` writes no `PK` entry and no alias `NIL || 9` for
it, and it does write the alias `NIL || 7` of its root, which holds the `PK` key. -/
theorem indexBlocks_keeps_other_alias :
    (indexBlocks demoEnv ex0 [] windowC9 [fill256 9]).map (fun r =>
      (r.1,
       r.2.1.map (fun op => op.key),
       decide (BatchOp.put (nilKey (fill256 7))
         (uxtoPkKey alicePk seroCurrency.val (some (fill256 7))) ∈ r.2.1)))
      = some (none,
          [rootKey (fill256 7), uxtoPkrKey alice.mainPkr 5, nilKey (fill256 7)],
          true) := by
  set_option maxRecDepth 1000000 in decide

/-- C21 (amended): when a window creates a UTXO with a token and publishes its nullifier, or
its root, and that value names no other UTXO of the window, `indexBlocks` returns a batch that
writes neither the `PK` entry of the UTXO nor the alias `NIL || x` of the published value `x`;
the other alias of the UTXO, when its value is not published either, is written and holds the
`PK` key. -/
theorem indexBlocks_created_and_spent_in_window (env : Env) (ex : Exchange)
    (uxtos : List (PkrKey × List Uxto)) (nils : List Uint256) (key : PkrKey) (list : List Uxto)
    (u : Uxto) (x : Uint256)
    (hgroup : (key, list) ∈ uxtos) (hu : u ∈ list)
    (hx : u.Nil = x ∨ u.Root = x) (hpub : x ∈ nils)
    (hown : ∀ g ∈ uxtos, ∀ v ∈ g.2, (v.Nil = x ∨ v.Root = x) →
      indexPkKey g.1.account.pk v = indexPkKey key.account.pk u)
    (henc : ∀ g ∈ uxtos, ∀ v ∈ g.2, env.encodeUxto v ≠ none ∧ v.Asset.Tkn ≠ none)
    (hroots : ∀ roots, env.encodeRoots roots ≠ none) :
    ∃ batch usedFlag, indexBlocks env ex [] uxtos nils = some (none, batch, usedFlag) ∧
      (∀ data, BatchOp.put (indexPkKey key.account.pk u) data ∉ batch) ∧
      (∀ data, BatchOp.put (nilKey x) data ∉ batch) ∧
      (∀ y, (u.Nil = y ∨ u.Root = y) → y ∉ nils →
        (∀ g ∈ uxtos, ∀ v ∈ g.2, (v.Nil = y ∨ v.Root = y) →
          indexPkKey g.1.account.pk v = indexPkKey key.account.pk u) →
        BatchOp.put (nilKey y) (indexPkKey key.account.pk u) ∈ batch) :=
  indexBlocks_created_and_spent env ex uxtos nils key list u x hgroup hu hx hpub hown henc hroots

set_option maxRecDepth 1000000 in
theorem indexBlocks_created_and_spent_in_window_witness :
    (aliceKey, [mkUxto 7 9 seroCurrency 10]) ∈ windowC9 ∧
    (mkUxto 7 9 seroCurrency 10).Nil = fill256 9 ∧
    fill256 9 ∈ [fill256 9] ∧
    ∃ batch usedFlag,
      indexBlocks demoEnv ex0 [] windowC9 [fill256 9] = some (none, batch, usedFlag) ∧
      (∀ data, BatchOp.put (indexPkKey aliceKey.account.pk (mkUxto 7 9 seroCurrency 10)) data
        ∉ batch) ∧
      (∀ data, BatchOp.put (nilKey (fill256 9)) data ∉ batch) ∧
      (∀ y, ((mkUxto 7 9 seroCurrency 10).Nil = y ∨ (mkUxto 7 9 seroCurrency 10).Root = y) →
        y ∉ [fill256 9] →
        (∀ g ∈ windowC9, ∀ v ∈ g.2, (v.Nil = y ∨ v.Root = y) →
          indexPkKey g.1.account.pk v
            = indexPkKey aliceKey.account.pk (mkUxto 7 9 seroCurrency 10)) →
        BatchOp.put (nilKey y) (indexPkKey aliceKey.account.pk (mkUxto 7 9 seroCurrency 10))
          ∈ batch) :=
  ⟨by decide, rfl, by decide,
    indexBlocks_created_and_spent_in_window demoEnv ex0 windowC9 [fill256 9] aliceKey
      [mkUxto 7 9 seroCurrency 10] (mkUxto 7 9 seroCurrency 10) (fill256 9) (by decide)
      (by decide) (Or.inl rfl) (by decide) (by decide) (by decide)
      (fun roots => by simp [demoEnv])⟩

/-! ## Theorems: the index entries of unspent UTXOs -/

theorem mem_windowUxtos {uxtos : List (PkrKey × List Uxto)} {a : Uint512 × Uxto} :
    a ∈ windowUxtos uxtos ↔ ∃ g ∈ uxtos, ∃ u ∈ g.2, a = (g.1.account.pk, u) := by
  unfold windowUxtos
  constructor
  · intro h
    obtain ⟨l, hl, ha⟩ := List.mem_flatten.mp h
    obtain ⟨g, hg, rfl⟩ := List.mem_map.mp hl
    obtain ⟨u, hu, rfl⟩ := List.mem_map.mp ha
    exact ⟨g, hg, u, hu, rfl⟩
  · rintro ⟨g, hg, u, hu, rfl⟩
    exact List.mem_flatten.mpr ⟨_, List.mem_map.mpr ⟨g, hg, rfl⟩, List.mem_map.mpr ⟨u, hu, rfl⟩⟩

theorem indexList_origin (env : Env) (pk : Uint512) :
    ∀ (list : List Uxto) (batch : Batch) (ops : List (Bytes × Bytes)) (roots : List Uint256)
      (e : Option String) (batch1 : Batch) (ops1 : List (Bytes × Bytes)) (roots1 : List Uint256),
      indexList env pk list batch ops roots = some (e, batch1, ops1, roots1) →
      (∀ op ∈ batch1, op ∈ batch ∨ ∃ u ∈ list, ∃ data, op = BatchOp.put (rootKey u.Root) data) ∧
      (∀ x ∈ ops1, x ∈ ops ∨ ∃ u ∈ list, OpsOf pk u x) := by
  intro list
  induction list with
  | nil =>
    intro batch ops roots e batch1 ops1 roots1 h
    simp only [indexList, Option.some.injEq, Prod.mk.injEq] at h
    obtain ⟨_, rfl, rfl, _⟩ := h
    exact ⟨fun op hop => Or.inl hop, fun x hx => Or.inl hx⟩
  | cons u rest ih =>
    intro batch ops roots e batch1 ops1 roots1 h
    unfold indexList at h
    cases henc : env.encodeUxto u with
    | none =>
      simp only [henc, Option.some.injEq, Prod.mk.injEq] at h
      obtain ⟨_, rfl, rfl, _⟩ := h
      exact ⟨fun op hop => Or.inl hop, fun x hx => Or.inl hx⟩
    | some data =>
      simp only [henc] at h
      cases ht : u.Asset.Tkn with
      | none => simp [ht] at h
      | some tkn =>
        simp only [ht] at h
        obtain ⟨hb, ho⟩ := ih _ _ _ _ _ _ _ h
        constructor
        · intro op hop
          rcases hb op hop with h1 | ⟨v, hv, d, hd⟩
          · rcases List.mem_append.mp h1 with h2 | h2
            · exact Or.inl h2
            · have : op = BatchOp.put (rootKey u.Root) data := by simpa using h2
              exact Or.inr ⟨u, List.mem_cons_self _ _, data, this⟩
          · exact Or.inr ⟨v, List.mem_cons_of_mem _ hv, d, hd⟩
        · intro x hx
          rcases ho x hx with h1 | ⟨v, hv, hof⟩
          · rcases mem_mapSet h1 with h2 | h2
            · rcases mem_mapSet h2 with h3 | h3
              · rcases mem_mapSet h3 with h4 | h4
                · exact Or.inl h4
                · exact Or.inr ⟨u, List.mem_cons_self _ _, Or.inl h4⟩
              · exact Or.inr ⟨u, List.mem_cons_self _ _, Or.inr (Or.inl h3)⟩
            · exact Or.inr ⟨u, List.mem_cons_self _ _, Or.inr (Or.inr h2)⟩
          · exact Or.inr ⟨v, List.mem_cons_of_mem _ hv, hof⟩

theorem indexGroups_origin (env : Env) :
    ∀ (uxtos : List (PkrKey × List Uxto)) (batch : Batch) (ops : List (Bytes × Bytes))
      (e : Option String) (batch1 : Batch) (ops1 : List (Bytes × Bytes)),
      indexGroups env uxtos batch ops = some (e, batch1, ops1) →
      (∀ op ∈ batch1, op ∈ batch ∨
        (∃ a ∈ windowUxtos uxtos, ∃ data, op = BatchOp.put (rootKey a.2.Root) data) ∨
        (∃ pkr n data, op = BatchOp.put (uxtoPkrKey pkr n) data)) ∧
      (∀ x ∈ ops1, x ∈ ops ∨ ∃ a ∈ windowUxtos uxtos, OpsOf a.1 a.2 x) := by
  intro uxtos
  induction uxtos with
  | nil =>
    intro batch ops e batch1 ops1 h
    simp only [indexGroups, Option.some.injEq, Prod.mk.injEq] at h
    obtain ⟨_, rfl, rfl⟩ := h
    exact ⟨fun op hop => Or.inl hop, fun x hx => Or.inl hx⟩
  | cons g rest ih =>
    intro batch ops e batch1 ops1 h
    obtain ⟨key, list⟩ := g
    have hhead : ∀ u ∈ list, (key.account.pk, u) ∈ windowUxtos ((key, list) :: rest) :=
      fun u hu => mem_windowUxtos.mpr ⟨(key, list), List.mem_cons_self _ _, u, hu, rfl⟩
    have htail : ∀ a ∈ windowUxtos rest, a ∈ windowUxtos ((key, list) :: rest) := by
      intro a ha
      obtain ⟨g, hg, u, hu, rfl⟩ := mem_windowUxtos.mp ha
      exact mem_windowUxtos.mpr ⟨g, List.mem_cons_of_mem _ hg, u, hu, rfl⟩
    unfold indexGroups at h
    cases hl : indexList env key.account.pk list batch ops [] with
    | none => simp [hl] at h
    | some r =>
      obtain ⟨e1, b1, o1, roots⟩ := r
      obtain ⟨hb1, ho1⟩ := indexList_origin env key.account.pk list batch ops [] e1 b1 o1 roots hl
      have hb1' : ∀ op ∈ b1, op ∈ batch ∨
          (∃ a ∈ windowUxtos ((key, list) :: rest), ∃ data,
            op = BatchOp.put (rootKey a.2.Root) data) ∨
          (∃ pkr n data, op = BatchOp.put (uxtoPkrKey pkr n) data) := by
        intro op hop
        rcases hb1 op hop with h1 | ⟨u, hu, d, hd⟩
        · exact Or.inl h1
        · exact Or.inr (Or.inl ⟨_, hhead u hu, d, hd⟩)
      have ho1' : ∀ x ∈ o1, x ∈ ops ∨
          ∃ a ∈ windowUxtos ((key, list) :: rest), OpsOf a.1 a.2 x := by
        intro x hx
        rcases ho1 x hx with h1 | ⟨u, hu, hof⟩
        · exact Or.inl h1
        · exact Or.inr ⟨_, hhead u hu, hof⟩
      cases e1 with
      | some err =>
        simp only [hl, Option.some.injEq, Prod.mk.injEq] at h
        obtain ⟨_, rfl, rfl⟩ := h
        exact ⟨hb1', ho1'⟩
      | none =>
        simp only [hl] at h
        cases henc : env.encodeRoots roots with
        | none =>
          simp only [henc, Option.some.injEq, Prod.mk.injEq] at h
          obtain ⟨_, rfl, rfl⟩ := h
          exact ⟨hb1', ho1'⟩
        | some data =>
          simp only [henc] at h
          obtain ⟨hb2, ho2⟩ := ih _ _ _ _ _ h
          constructor
          · intro op hop
            rcases hb2 op hop with h1 | ⟨a, ha, d, hd⟩ | h1
            · rcases List.mem_append.mp h1 with h2 | h2
              · exact hb1' op h2
              · have : op = BatchOp.put (uxtoPkrKey key.pkr key.num) data := by simpa using h2
                exact Or.inr (Or.inr ⟨_, _, _, this⟩)
            · exact Or.inr (Or.inl ⟨a, htail a ha, d, hd⟩)
            · exact Or.inr (Or.inr h1)
          · intro x hx
            rcases ho2 x hx with h1 | ⟨a, ha, hof⟩
            · exact ho1' x h1
            · exact Or.inr ⟨a, htail a ha, hof⟩

theorem mapGet_mapSet_ne_none {κ ν : Type} [DecidableEq κ] (m : List (κ × ν)) (k k' : κ) (v : ν)
    (h : k = k' ∨ mapGet m k' ≠ none) : mapGet (mapSet m k v) k' ≠ none := by
  rw [mapGet_mapSet]
  by_cases hk : k = k'
  · simp [hk]
  · simp only [hk, if_false]
    rcases h with h | h
    · exact absurd h hk
    · exact h

theorem indexList_present (env : Env) (pk : Uint512) :
    ∀ (list : List Uxto) (batch : Batch) (ops : List (Bytes × Bytes)) (roots : List Uint256)
      (batch1 : Batch) (ops1 : List (Bytes × Bytes)) (roots1 : List Uint256),
      indexList env pk list batch ops roots = some (none, batch1, ops1, roots1) →
      (∀ op ∈ batch, op ∈ batch1) ∧ (∀ k, mapGet ops k ≠ none → mapGet ops1 k ≠ none) ∧
      (∀ u ∈ list, u.Asset.Tkn ≠ none ∧
        (∃ data, BatchOp.put (rootKey u.Root) data ∈ batch1) ∧
        mapGet ops1 (bytes2Hex (indexPkKey pk u)) ≠ none ∧
        mapGet ops1 (bytes2Hex (nilKey u.Nil)) ≠ none ∧
        mapGet ops1 (bytes2Hex (nilKey u.Root)) ≠ none) := by
  intro list
  induction list with
  | nil =>
    intro batch ops roots batch1 ops1 roots1 h
    simp only [indexList, Option.some.injEq, Prod.mk.injEq, true_and] at h
    obtain ⟨rfl, rfl, _⟩ := h
    exact ⟨fun op hop => hop, fun k hk => hk, fun u hu => by simp at hu⟩
  | cons u rest ih =>
    intro batch ops roots batch1 ops1 roots1 h
    unfold indexList at h
    cases henc : env.encodeUxto u with
    | none => simp [henc] at h
    | some data =>
      simp only [henc] at h
      cases ht : u.Asset.Tkn with
      | none => simp [ht] at h
      | some tkn =>
        simp only [ht] at h
        obtain ⟨hb, ho, hu⟩ := ih _ _ _ _ _ _ h
        refine ⟨fun op hop => hb op (List.mem_append_left _ hop), ?_, ?_⟩
        · intro k hk
          apply ho
          exact mapGet_mapSet_ne_none _ _ _ _ (Or.inr (mapGet_mapSet_ne_none _ _ _ _
            (Or.inr (mapGet_mapSet_ne_none _ _ _ _ (Or.inr hk)))))
        · intro v hv
          rcases List.mem_cons.mp hv with hvu | hvr
          · subst hvu
            refine ⟨by rw [ht]; simp, ⟨data, hb _ (by simp)⟩, ho _ ?_, ho _ ?_, ho _ ?_⟩
            · exact mapGet_mapSet_ne_none _ _ _ _ (Or.inr (mapGet_mapSet_ne_none _ _ _ _
                (Or.inr (mapGet_mapSet_ne_none _ _ _ _ (Or.inl rfl)))))
            · exact mapGet_mapSet_ne_none _ _ _ _ (Or.inr (mapGet_mapSet_ne_none _ _ _ _
                (Or.inl rfl)))
            · exact mapGet_mapSet_ne_none _ _ _ _ (Or.inl rfl)
          · exact hu v hvr

theorem indexGroups_present (env : Env) :
    ∀ (uxtos : List (PkrKey × List Uxto)) (batch : Batch) (ops : List (Bytes × Bytes))
      (batch1 : Batch) (ops1 : List (Bytes × Bytes)),
      indexGroups env uxtos batch ops = some (none, batch1, ops1) →
      (∀ op ∈ batch, op ∈ batch1) ∧ (∀ k, mapGet ops k ≠ none → mapGet ops1 k ≠ none) ∧
      (∀ a ∈ windowUxtos uxtos, a.2.Asset.Tkn ≠ none ∧
        (∃ data, BatchOp.put (rootKey a.2.Root) data ∈ batch1) ∧
        mapGet ops1 (bytes2Hex (indexPkKey a.1 a.2)) ≠ none ∧
        mapGet ops1 (bytes2Hex (nilKey a.2.Nil)) ≠ none ∧
        mapGet ops1 (bytes2Hex (nilKey a.2.Root)) ≠ none) := by
  intro uxtos
  induction uxtos with
  | nil =>
    intro batch ops batch1 ops1 h
    simp only [indexGroups, Option.some.injEq, Prod.mk.injEq, true_and] at h
    obtain ⟨rfl, rfl⟩ := h
    refine ⟨fun op hop => hop, fun k hk => hk, fun a ha => ?_⟩
    obtain ⟨g, hg, _⟩ := mem_windowUxtos.mp ha
    simp at hg
  | cons g rest ih =>
    intro batch ops batch1 ops1 h
    obtain ⟨key, list⟩ := g
    unfold indexGroups at h
    cases hl : indexList env key.account.pk list batch ops [] with
    | none => simp [hl] at h
    | some r =>
      obtain ⟨e1, b1, o1, roots⟩ := r
      cases e1 with
      | some err => simp [hl] at h
      | none =>
        simp only [hl] at h
        obtain ⟨hb1, ho1, hu1⟩ := indexList_present env key.account.pk list batch ops [] b1 o1 roots hl
        cases henc : env.encodeRoots roots with
        | none => simp [henc] at h
        | some data =>
          simp only [henc] at h
          obtain ⟨hb2, ho2, hu2⟩ := ih _ _ _ _ h
          refine ⟨fun op hop => hb2 op (List.mem_append_left _ (hb1 op hop)),
            fun k hk => ho2 k (ho1 k hk), ?_⟩
          intro a ha
          obtain ⟨g, hg, u, hu, rfl⟩ := mem_windowUxtos.mp ha
          rcases List.mem_cons.mp hg with hgh | hgt
          · subst hgh
            obtain ⟨h1, ⟨d, h2⟩, h3, h4, h5⟩ := hu1 u hu
            exact ⟨h1, ⟨d, hb2 _ (List.mem_append_left _ h2)⟩, ho2 _ h3, ho2 _ h4, ho2 _ h5⟩
          · exact hu2 _ (mem_windowUxtos.mpr ⟨g, hgt, u, hu, rfl⟩)

theorem nilsOps_get_untouched (key : Bytes) :
    ∀ (nils : List Uint256) (ops : List (Bytes × Bytes)),
      (∀ x ∈ nils, key ≠ bytes2Hex (nilKey x)) →
      (∀ x ∈ nils, mapGet ops (bytes2Hex (nilKey x)) ≠ some key) →
      mapGet (nilsOps nils ops) key = mapGet ops key := by
  intro nils
  induction nils with
  | nil => intro ops _ _; rfl
  | cons n rest ih =>
    intro ops h1 h2
    unfold nilsOps
    cases hn : mapGet ops (bytes2Hex (nilKey n)) with
    | none =>
      exact ih ops (fun x hx => h1 x (List.mem_cons_of_mem _ hx))
        (fun x hx => h2 x (List.mem_cons_of_mem _ hx))
    | some value =>
      simp only
      have hv : value ≠ key := by
        intro hv
        exact h2 n (List.mem_cons_self _ _) (by rw [hn, hv])
      have hk : bytes2Hex (nilKey n) ≠ key := fun hh => h1 n (List.mem_cons_self _ _) hh.symm
      rw [ih _ (fun x hx => h1 x (List.mem_cons_of_mem _ hx)) ?_]
      · rw [mapGet_mapDel, mapGet_mapDel]
        simp [hv, hk]
      · intro x hx
        rw [mapGet_mapDel, mapGet_mapDel]
        by_cases c1 : value = bytes2Hex (nilKey x)
        · simp [c1]
        · by_cases c2 : bytes2Hex (nilKey n) = bytes2Hex (nilKey x)
          · simp [c1, c2]
          · simp only [c1, c2, if_false]
            exact h2 x (List.mem_cons_of_mem _ hx)

theorem nilsElse_subset :
    ∀ (nils : List Uint256) (ops : List (Bytes × Bytes)) (x : Uint256),
      x ∈ nilsElse nils ops → x ∈ nils := by
  intro nils
  induction nils with
  | nil => intro ops x h; simp [nilsElse] at h
  | cons n rest ih =>
    intro ops x h
    unfold nilsElse at h
    cases hg : mapGet ops (bytes2Hex (nilKey n)) with
    | some value =>
      simp only [hg] at h
      exact List.mem_cons_of_mem _ (ih _ x h)
    | none =>
      simp only [hg] at h
      rcases List.mem_cons.mp h with h' | h'
      · rw [h']; exact List.mem_cons_self _ _
      · exact List.mem_cons_of_mem _ (ih _ x h')

/-- What a batch leaves under a key: the old value when no operation names the key, and
otherwise the value of a `put` of the batch or nothing after a `delete` of the batch. -/
theorem Batch.get_write_cases :
    ∀ (b : Batch) (s : Store) (k : Bytes),
      ((∀ op ∈ b, op.key ≠ k) ∧ (Batch.write b s).get k = s.get k) ∨
      (∃ v, BatchOp.put k v ∈ b ∧ (Batch.write b s).get k = some v) ∨
      (BatchOp.del k ∈ b ∧ (Batch.write b s).get k = none) := by
  intro b
  induction b with
  | nil => intro s k; exact Or.inl ⟨fun op hop => by simp at hop, rfl⟩
  | cons op rest ih =>
    intro s k
    rw [Batch.write_cons]
    rcases ih (op.apply s) k with ⟨hno, hget⟩ | ⟨v, hv, hget⟩ | ⟨hd, hget⟩
    · cases op with
      | put k' v =>
        by_cases hk : k' = k
        · right; left
          refine ⟨v, by rw [hk]; exact List.mem_cons_self _ _, ?_⟩
          rw [hget]
          simp [BatchOp.apply, Store.get_put, hk]
        · left
          refine ⟨?_, ?_⟩
          · intro o ho
            rcases List.mem_cons.mp ho with h | h
            · rw [h]; exact hk
            · exact hno o h
          · rw [hget]
            have hk' : ¬ k = k' := fun e => hk e.symm
            simp [BatchOp.apply, Store.get_put, hk']
      | del k' =>
        by_cases hk : k' = k
        · right; right
          refine ⟨by rw [hk]; exact List.mem_cons_self _ _, ?_⟩
          rw [hget]
          simp [BatchOp.apply, Store.get_delete, hk]
        · left
          refine ⟨?_, ?_⟩
          · intro o ho
            rcases List.mem_cons.mp ho with h | h
            · rw [h]; exact hk
            · exact hno o h
          · rw [hget]
            have hk' : ¬ k = k' := fun e => hk e.symm
            simp [BatchOp.apply, Store.get_delete, hk']
    · exact Or.inr (Or.inl ⟨v, List.mem_cons_of_mem _ hv, hget⟩)
    · exact Or.inr (Or.inr ⟨List.mem_cons_of_mem _ hd, hget⟩)

theorem indexBlocks_no_error (env : Env) (ex : Exchange) (uxtos : List (PkrKey × List Uxto))
    (nils : List Uint256)
    (h : (indexBlocks env ex [] uxtos nils).map (fun r => r.1) = some none) :
    ∃ b1 ops, indexGroups env uxtos [] [] = some (none, b1, ops) := by
  unfold indexBlocks at h
  cases hg : indexGroups env uxtos [] [] with
  | none => simp [hg] at h
  | some r =>
    obtain ⟨e1, b1, ops⟩ := r
    cases e1 with
    | some err => simp [hg] at h
    | none => exact ⟨b1, ops, rfl⟩

theorem commitWindow_db_ok (env : Env) (ex ex1 : Exchange) (pks : List Uint512) (num : Nat)
    (uxtos : List (PkrKey × List Uxto)) (nils : List Uint256) (b1 : Batch)
    (ops : List (Bytes × Bytes))
    (h : commitWindow env ex pks num uxtos nils = some ex1)
    (hg : indexGroups env uxtos [] [] = some (none, b1, ops)) :
    ex1.db = Batch.write
      ((b1 ++ delsOf ex.db (nilsElse nils ops) ++ opsPuts (nilsOps nils ops)) ++ numPuts pks num)
      ex.db := by
  have hw := windowBatch_spec env ex pks num uxtos nils
  rw [h] at hw
  unfold windowBatch at hw
  by_cases hc : uxtos.length > 0 ∨ nils.length > 0
  · simp only [hc, if_true, hg, Option.map_some', Option.some.injEq] at hw
    exact hw
  · simp only [hc, if_false, Option.map_some', Option.some.injEq] at hw
    have hu : uxtos = [] := by
      cases uxtos with
      | nil => rfl
      | cons a l => exact absurd (Or.inl (by simp)) hc
    have hn : nils = [] := by
      cases nils with
      | nil => rfl
      | cons a l => exact absurd (Or.inr (by simp)) hc
    subst hu; subst hn
    simp only [indexGroups, Option.some.injEq, Prod.mk.injEq, true_and] at hg
    obtain ⟨rfl, rfl⟩ := hg
    rw [hw]
    rfl

theorem indexPkKey_tkn {pk : Uint512} {u : Uxto} {tkn : Token} (h : u.Asset.Tkn = some tkn) :
    indexPkKey pk u = uxtoPkKey pk tkn.Currency.val (some u.Root) := by
  simp [indexPkKey, h]

theorem WindowOp.put_cases {s : Store} {W : List (Uint512 × Uxto)} {nils : List Uint256}
    {k v : Bytes} (h : WindowOp s W nils (BatchOp.put k v)) :
    (∃ a ∈ W, k = rootKey a.2.Root) ∨ (∃ pkr n, k = uxtoPkrKey pkr n) ∨ (∃ pk, k = numKey pk) ∨
    (∃ a ∈ W, k = indexPkKey a.1 a.2 ∧ v = [0]) ∨
    (∃ a ∈ W, ∃ x, (a.2.Nil = x ∨ a.2.Root = x) ∧ k = nilKey x ∧ v = indexPkKey a.1 a.2) := by
  rcases h with ⟨a, ha, d, h⟩ | ⟨pkr, n, d, h⟩ | ⟨pk, v', h⟩ | ⟨a, ha, h⟩ | ⟨a, ha, x, hx, h⟩ |
    ⟨x, _, h⟩ | ⟨x, _, d, _, h⟩
  · simp only [BatchOp.put.injEq] at h
    exact Or.inl ⟨a, ha, h.1⟩
  · simp only [BatchOp.put.injEq] at h
    exact Or.inr (Or.inl ⟨pkr, n, h.1⟩)
  · simp only [BatchOp.put.injEq] at h
    exact Or.inr (Or.inr (Or.inl ⟨pk, h.1⟩))
  · simp only [BatchOp.put.injEq] at h
    exact Or.inr (Or.inr (Or.inr (Or.inl ⟨a, ha, h.1, h.2⟩)))
  · simp only [BatchOp.put.injEq] at h
    exact Or.inr (Or.inr (Or.inr (Or.inr ⟨a, ha, x, hx, h.1, h.2⟩)))
  · cases h
  · cases h

theorem WindowOp.del_cases {s : Store} {W : List (Uint512 × Uxto)} {nils : List Uint256}
    {k : Bytes} (h : WindowOp s W nils (BatchOp.del k)) :
    (∃ x ∈ nils, k = nilKey x) ∨ (∃ x ∈ nils, s.get (nilKey x) = some k) := by
  rcases h with ⟨a, ha, d, h⟩ | ⟨pkr, n, d, h⟩ | ⟨pk, v', h⟩ | ⟨a, ha, h⟩ | ⟨a, ha, x, hx, h⟩ |
    ⟨x, hx, h⟩ | ⟨x, hx, d, hd, h⟩
  · cases h
  · cases h
  · cases h
  · cases h
  · cases h
  · simp only [BatchOp.del.injEq] at h
    exact Or.inl ⟨x, hx, h⟩
  · simp only [BatchOp.del.injEq] at h
    exact Or.inr ⟨x, hx, by rw [h]; exact hd⟩

theorem window_ops (env : Env) (s : Store) (uxtos : List (PkrKey × List Uxto))
    (nils : List Uint256) (pks : List Uint512) (num : Nat) (b1 : Batch)
    (ops : List (Bytes × Bytes)) (e : Option String)
    (hg : indexGroups env uxtos [] [] = some (e, b1, ops)) :
    ∀ op ∈ (b1 ++ delsOf s (nilsElse nils ops) ++ opsPuts (nilsOps nils ops)) ++ numPuts pks num,
      WindowOp s (windowUxtos uxtos) nils op := by
  obtain ⟨hO1, hO2⟩ := indexGroups_origin env uxtos [] [] e b1 ops hg
  intro op hop
  rcases List.mem_append.mp hop with h1 | h1
  · rcases List.mem_append.mp h1 with h2 | h2
    · rcases List.mem_append.mp h2 with h3 | h3
      · rcases hO1 op h3 with h4 | h4 | h4
        · simp at h4
        · exact Or.inl h4
        · exact Or.inr (Or.inl h4)
      · obtain ⟨x, hx, hcase⟩ := delsOf_mem s _ op h3
        have hxn := nilsElse_subset nils ops x hx
        rcases hcase with hcase | ⟨data, hd, hcase⟩
        · exact Or.inr (Or.inr (Or.inr (Or.inr (Or.inr (Or.inl ⟨x, hxn, hcase⟩)))))
        · exact Or.inr (Or.inr (Or.inr (Or.inr (Or.inr (Or.inr ⟨x, hxn, data, hd, hcase⟩)))))
    · obtain ⟨x, hx, rfl⟩ := List.mem_map.mp h2
      rcases hO2 x (nilsOps_subset nils ops x hx) with h4 | ⟨a, ha, hof⟩
      · simp at h4
      · rcases hof with hof | hof | hof
        · refine Or.inr (Or.inr (Or.inr (Or.inl ⟨a, ha, ?_⟩)))
          rw [hof]; simp only [hex2Bytes_bytes2Hex]
        · refine Or.inr (Or.inr (Or.inr (Or.inr (Or.inl ⟨a, ha, a.2.Nil, Or.inl rfl, ?_⟩))))
          rw [hof]; simp only [hex2Bytes_bytes2Hex]
        · refine Or.inr (Or.inr (Or.inr (Or.inr (Or.inl ⟨a, ha, a.2.Root, Or.inr rfl, ?_⟩))))
          rw [hof]; simp only [hex2Bytes_bytes2Hex]
  · obtain ⟨pk, v, hv⟩ := numPuts_shape pks num op h1
    exact Or.inr (Or.inr (Or.inl ⟨pk, v, hv⟩))

theorem Batch.get_write_present (b : Batch) (s : Store) (k : Bytes)
    (hnodel : BatchOp.del k ∉ b) (hsrc : s.get k ≠ none ∨ ∃ v, BatchOp.put k v ∈ b) :
    (Batch.write b s).get k ≠ none := by
  rcases Batch.get_write_cases b s k with ⟨hno, hget⟩ | ⟨v, _, hget⟩ | ⟨hd, _⟩
  · rw [hget]
    rcases hsrc with h | ⟨v, hv⟩
    · exact h
    · exact absurd rfl (hno _ hv)
  · rw [hget]; simp
  · exact absurd hd hnodel

theorem Batch.get_write_value (b : Batch) (s : Store) (k v : Bytes)
    (hnodel : BatchOp.del k ∉ b) (hput : ∀ v', BatchOp.put k v' ∈ b → v' = v)
    (hsrc : s.get k = some v ∨ ∃ v', BatchOp.put k v' ∈ b) :
    (Batch.write b s).get k = some v := by
  rcases Batch.get_write_cases b s k with ⟨hno, hget⟩ | ⟨v', hv, hget⟩ | ⟨hd, _⟩
  · rw [hget]
    rcases hsrc with h | ⟨v', hv⟩
    · exact h
    · exact absurd rfl (hno _ hv)
  · rw [hget, hput v' hv]
  · exact absurd hd hnodel

theorem window_keeps (nils : List Uint256) (ops : List (Bytes × Bytes)) (k : Bytes)
    (hpres : mapGet ops (bytes2Hex k) ≠ none)
    (h1 : ∀ x ∈ nils, k ≠ nilKey x)
    (h2 : ∀ x ∈ nils, mapGet ops (bytes2Hex (nilKey x)) ≠ some (bytes2Hex k)) :
    ∃ v, BatchOp.put k v ∈ opsPuts (nilsOps nils ops) := by
  have hkeep := nilsOps_get_untouched (bytes2Hex k) nils ops
    (fun x hx hh => h1 x hx (bytes2Hex_inj hh)) h2
  rw [← hkeep] at hpres
  obtain ⟨v, hv⟩ := Option.ne_none_iff_exists'.mp hpres
  refine ⟨hex2Bytes v, ?_⟩
  unfold opsPuts
  refine List.mem_map.mpr ⟨_, mapGet_some_mem hv, ?_⟩
  simp only [hex2Bytes_bytes2Hex]

theorem ledgerInv_step (env : Env) (ex ex1 : Exchange) (pks : List Uint512) (num : Nat)
    (uxtos : List (PkrKey × List Uxto)) (nils : List Uint256)
    (seen : List (Uint512 × Uxto)) (published : List Uint256)
    (hinv : LedgerInv ex.db seen published)
    (hc : commitWindow env ex pks num uxtos nils = some ex1)
    (hok : (indexBlocks env ex [] uxtos nils).map (fun r => r.1) = some none)
    (hU : IdsUnique (seen ++ windowUxtos uxtos)) :
    LedgerInv ex1.db (seen ++ windowUxtos uxtos) (published ++ nils) := by
  obtain ⟨b1, ops, hg⟩ := indexBlocks_no_error env ex uxtos nils hok
  have hdb := commitWindow_db_ok env ex ex1 pks num uxtos nils b1 ops hc hg
  have hops := window_ops env ex.db uxtos nils pks num b1 ops none hg
  obtain ⟨_, hO2⟩ := indexGroups_origin env uxtos [] [] none b1 ops hg
  obtain ⟨_, _, hP⟩ := indexGroups_present env uxtos [] [] b1 ops hg
  obtain ⟨_, hT, hR, hPK, hNIL, hLive⟩ := hinv
  have hputRoot : ∀ a ∈ windowUxtos uxtos, ∃ data, BatchOp.put (rootKey a.2.Root) data ∈
      (b1 ++ delsOf ex.db (nilsElse nils ops) ++ opsPuts (nilsOps nils ops))
        ++ numPuts pks num := by
    intro a ha
    obtain ⟨_, ⟨d, hd⟩, _⟩ := hP a ha
    exact ⟨d, List.mem_append_left _ (List.mem_append_left _ (List.mem_append_left _ hd))⟩
  have hputOps : ∀ k v, BatchOp.put k v ∈ opsPuts (nilsOps nils ops) → BatchOp.put k v ∈
      (b1 ++ delsOf ex.db (nilsElse nils ops) ++ opsPuts (nilsOps nils ops))
        ++ numPuts pks num :=
    fun k v h => List.mem_append_left _ (List.mem_append_right _ h)
  generalize (b1 ++ delsOf ex.db (nilsElse nils ops) ++ opsPuts (nilsOps nils ops))
    ++ numPuts pks num = B at hdb hops hputRoot hputOps
  generalize windowUxtos uxtos = W at hU hops hO2 hP hputRoot ⊢
  have hS : ∀ a ∈ seen, a ∈ seen ++ W := fun a h => List.mem_append_left _ h
  have hWm : ∀ a ∈ W, a ∈ seen ++ W := fun a h => List.mem_append_right _ h
  have htkn : ∀ a ∈ seen ++ W, ∃ tkn, a.2.Asset.Tkn = some tkn := by
    intro a ha
    rcases List.mem_append.mp ha with h | h
    · exact Option.ne_none_iff_exists'.mp (hT a h)
    · exact Option.ne_none_iff_exists'.mp (hP a h).1
  have hkey : ∀ a ∈ seen ++ W, ∃ cur : Uint256,
      indexPkKey a.1 a.2 = uxtoPkKey a.1 cur.val (some a.2.Root) := by
    intro a ha
    obtain ⟨tkn, ht⟩ := htkn a ha
    exact ⟨tkn.Currency, indexPkKey_tkn ht⟩
  have hsame : ∀ a ∈ seen ++ W, ∀ b ∈ seen ++ W, indexPkKey a.1 a.2 = indexPkKey b.1 b.2 →
      a.2.Nil = b.2.Nil ∧ a.2.Root = b.2.Root := by
    intro a ha b hb hk
    obtain ⟨ca, hka⟩ := hkey a ha
    obtain ⟨cb, hkb⟩ := hkey b hb
    rw [hka, hkb] at hk
    obtain ⟨_, _, hroot⟩ := uxtoPkKey_inj hk
    exact (hU a ha b hb (Or.inr (Or.inr (Or.inr hroot)))).2
  have hnilPk : ∀ (x : Uint256) (data : Bytes), ex.db.get (nilKey x) = some data →
      ∃ (pk : Uint512) (cur root : Uint256), data = uxtoPkKey pk cur.val (some root) := by
    intro x data hd
    obtain ⟨a, ha, hv, _⟩ := hNIL x data hd
    obtain ⟨cur, hk⟩ := hkey a (hS a ha)
    exact ⟨a.1, cur, a.2.Root, by rw [hv, hk]⟩
  have hval : ∀ (x : Uint256) (val : Bytes), mapGet ops (bytes2Hex (nilKey x)) = some val →
      ∃ b ∈ W, (b.2.Nil = x ∨ b.2.Root = x) ∧ val = bytes2Hex (indexPkKey b.1 b.2) := by
    intro x val hget
    obtain hin | ⟨b, hb, hof⟩ := hO2 _ (mapGet_some_mem hget)
    · simp at hin
    · obtain ⟨cb, hkb⟩ := hkey b (hWm b hb)
      rcases hof with hof | hof | hof
      · simp only [Prod.mk.injEq] at hof
        rw [hkb] at hof
        exact absurd (bytes2Hex_inj hof.1) (nilKey_ne_pkKey x b.1 cb b.2.Root)
      · simp only [Prod.mk.injEq] at hof
        exact ⟨b, hb, Or.inl (nilKey_inj (bytes2Hex_inj hof.1)).symm, hof.2⟩
      · simp only [Prod.mk.injEq] at hof
        exact ⟨b, hb, Or.inr (nilKey_inj (bytes2Hex_inj hof.1)).symm, hof.2⟩
  have hputW : ∀ a ∈ W, a.2.Nil ∉ nils → a.2.Root ∉ nils →
      (∃ v, BatchOp.put (indexPkKey a.1 a.2) v ∈ B) ∧
      (∃ v, BatchOp.put (nilKey a.2.Nil) v ∈ B) ∧
      (∃ v, BatchOp.put (nilKey a.2.Root) v ∈ B) := by
    intro a ha hn hr
    obtain ⟨_, _, h3, h4, h5⟩ := hP a ha
    obtain ⟨cur, hk⟩ := hkey a (hWm a ha)
    have halias : ∀ y : Uint256, y ∉ nils → mapGet ops (bytes2Hex (nilKey y)) ≠ none →
        ∃ v, BatchOp.put (nilKey y) v ∈ B := by
      intro y hy hpres
      obtain ⟨v, hv⟩ := window_keeps nils ops (nilKey y) hpres
        (fun x hx hh => hy (by rw [nilKey_inj hh]; exact hx))
        (by
          intro x hx hget
          obtain ⟨b, hb, _, hval'⟩ := hval x _ hget
          obtain ⟨cb, hkb⟩ := hkey b (hWm b hb)
          rw [hkb] at hval'
          exact nilKey_ne_pkKey _ _ _ _ (bytes2Hex_inj hval'))
      exact ⟨v, hputOps _ _ hv⟩
    refine ⟨?_, halias _ hn h4, halias _ hr h5⟩
    obtain ⟨v, hv⟩ := window_keeps nils ops (indexPkKey a.1 a.2) h3
      (fun x _ hh => nilKey_ne_pkKey x a.1 cur a.2.Root (by rw [← hh, hk]))
      (by
        intro x hx hget
        obtain ⟨b, hb, hbx, hval'⟩ := hval x _ hget
        obtain ⟨hnil, hroot⟩ := hsame a (hWm a ha) b (hWm b hb) (bytes2Hex_inj hval')
        rcases hbx with hbx | hbx
        · exact hn (by rw [hnil, hbx]; exact hx)
        · exact hr (by rw [hroot, hbx]; exact hx))
    exact ⟨v, hputOps _ _ hv⟩
  rw [hdb]
  refine ⟨hU, ?_, ?_, ?_, ?_, ?_⟩
  · intro a ha
    obtain ⟨tkn, h⟩ := htkn a ha
    rw [h]; simp
  · intro root hne
    rcases Batch.get_write_cases B ex.db (rootKey root) with ⟨_, hget⟩ | ⟨v, hv, _⟩ | ⟨_, hget⟩
    · rw [hget] at hne
      obtain ⟨a, ha, h⟩ := hR root hne
      exact ⟨a, hS a ha, h⟩
    · rcases (hops _ hv).put_cases with ⟨a, ha, h⟩ | ⟨pkr, n, h⟩ | ⟨pk, h⟩ | ⟨a, ha, h, _⟩ |
        ⟨a, ha, x, _, h, _⟩
      · exact ⟨a, hWm a ha, (rootKey_inj h).symm⟩
      · exact absurd h (rootKey_ne_pkrKey _ _ _)
      · exact absurd h (rootKey_ne_numKey _ _)
      · obtain ⟨cur, hk⟩ := hkey a (hWm a ha)
        rw [hk] at h
        exact absurd h (rootKey_ne_pkKey _ _ _ _)
      · exact absurd h (rootKey_ne_nilKey _ _)
    · exact absurd hget hne
  · intro pk cur root hne
    rcases Batch.get_write_cases B ex.db (uxtoPkKey pk cur.val (some root)) with
      ⟨_, hget⟩ | ⟨v, hv, _⟩ | ⟨_, hget⟩
    · rw [hget] at hne
      obtain ⟨a, ha, h⟩ := hPK pk cur root hne
      exact ⟨a, hS a ha, h⟩
    · rcases (hops _ hv).put_cases with ⟨a, ha, h⟩ | ⟨pkr, n, h⟩ | ⟨pk', h⟩ | ⟨a, ha, h, _⟩ |
        ⟨a, ha, x, _, h, _⟩
      · exact absurd h.symm (rootKey_ne_pkKey _ _ _ _)
      · exact absurd h (pkKey_ne_pkrKey _ _ _ _ _)
      · exact absurd h (pkKey_ne_numKey _ _ _ _)
      · exact ⟨a, hWm a ha, h.symm⟩
      · exact absurd h.symm (nilKey_ne_pkKey _ _ _ _)
    · exact absurd hget hne
  · intro x v hget0
    rcases Batch.get_write_cases B ex.db (nilKey x) with ⟨_, hget⟩ | ⟨v', hv, hget⟩ | ⟨_, hget⟩
    · rw [hget] at hget0
      obtain ⟨a, ha, h⟩ := hNIL x v hget0
      exact ⟨a, hS a ha, h⟩
    · rw [hget] at hget0
      have hvv : v' = v := Option.some.inj hget0
      rcases (hops _ hv).put_cases with ⟨a, ha, h⟩ | ⟨pkr, n, h⟩ | ⟨pk', h⟩ | ⟨a, ha, h, _⟩ |
        ⟨a, ha, y, hy, h, hval'⟩
      · exact absurd h.symm (rootKey_ne_nilKey _ _)
      · exact absurd h (nilKey_ne_pkrKey _ _ _)
      · exact absurd h (nilKey_ne_numKey _ _)
      · obtain ⟨cur, hk⟩ := hkey a (hWm a ha)
        rw [hk] at h
        exact absurd h (nilKey_ne_pkKey _ _ _ _)
      · have hxy : x = y := nilKey_inj h
        refine ⟨a, hWm a ha, by rw [← hvv, hval'], ?_⟩
        rw [hxy]; exact hy
    · rw [hget] at hget0
      cases hget0
  · intro a ha hn hr
    have hn1 : a.2.Nil ∉ published := fun h => hn (List.mem_append_left _ h)
    have hn2 : a.2.Nil ∉ nils := fun h => hn (List.mem_append_right _ h)
    have hr1 : a.2.Root ∉ published := fun h => hr (List.mem_append_left _ h)
    have hr2 : a.2.Root ∉ nils := fun h => hr (List.mem_append_right _ h)
    obtain ⟨cur, hk⟩ := hkey a ha
    have hsrc : (ex.db.get (rootKey a.2.Root) ≠ none ∨
          ∃ v, BatchOp.put (rootKey a.2.Root) v ∈ B) ∧
        (ex.db.get (indexPkKey a.1 a.2) ≠ none ∨
          ∃ v, BatchOp.put (indexPkKey a.1 a.2) v ∈ B) ∧
        (ex.db.get (nilKey a.2.Nil) = some (indexPkKey a.1 a.2) ∨
          ∃ v, BatchOp.put (nilKey a.2.Nil) v ∈ B) ∧
        (ex.db.get (nilKey a.2.Root) = some (indexPkKey a.1 a.2) ∨
          ∃ v, BatchOp.put (nilKey a.2.Root) v ∈ B) := by
      rcases List.mem_append.mp ha with h | h
      · obtain ⟨h1, h2, h3, h4⟩ := hLive a h hn1 hr1
        exact ⟨Or.inl h1, Or.inl h2, Or.inl h3, Or.inl h4⟩
      · obtain ⟨h2, h3, h4⟩ := hputW a h hn2 hr2
        exact ⟨Or.inr (hputRoot a h), Or.inr h2, Or.inr h3, Or.inr h4⟩
    obtain ⟨hs1, hs2, hs3, hs4⟩ := hsrc
    have hnodelRoot : BatchOp.del (rootKey a.2.Root) ∉ B := by
      intro hd
      rcases (hops _ hd).del_cases with ⟨x, _, h⟩ | ⟨x, _, h⟩
      · exact rootKey_ne_nilKey _ _ h
      · obtain ⟨pk', cur', root', h'⟩ := hnilPk x _ h
        exact rootKey_ne_pkKey _ _ _ _ h'
    have hnodelPk : BatchOp.del (indexPkKey a.1 a.2) ∉ B := by
      intro hd
      rcases (hops _ hd).del_cases with ⟨x, _, h⟩ | ⟨x, hx, h⟩
      · rw [hk] at h
        exact nilKey_ne_pkKey _ _ _ _ h.symm
      · obtain ⟨w, hw, hv, hwx⟩ := hNIL x _ h
        obtain ⟨hnil, hroot⟩ := hsame a ha w (hS w hw) hv
        rcases hwx with hwx | hwx
        · exact hn2 (by rw [hnil, hwx]; exact hx)
        · exact hr2 (by rw [hroot, hwx]; exact hx)
    have hnodelNil : ∀ y : Uint256, y ∉ nils → BatchOp.del (nilKey y) ∉ B := by
      intro y hy hd
      rcases (hops _ hd).del_cases with ⟨x, hx, h⟩ | ⟨x, _, h⟩
      · exact hy (by rw [nilKey_inj h]; exact hx)
      · obtain ⟨pk', cur', root', h'⟩ := hnilPk x _ h
        exact nilKey_ne_pkKey _ _ _ _ h'
    have hputNil : ∀ y : Uint256, (a.2.Nil = y ∨ a.2.Root = y) → ∀ v,
        BatchOp.put (nilKey y) v ∈ B → v = indexPkKey a.1 a.2 := by
      intro y hy v hv
      rcases (hops _ hv).put_cases with ⟨b, hb, h⟩ | ⟨pkr, n, h⟩ | ⟨pk', h⟩ | ⟨b, hb, h, _⟩ |
        ⟨b, hb, z, hz, h, hval'⟩
      · exact absurd h.symm (rootKey_ne_nilKey _ _)
      · exact absurd h (nilKey_ne_pkrKey _ _ _)
      · exact absurd h (nilKey_ne_numKey _ _)
      · obtain ⟨cb, hkb⟩ := hkey b (hWm b hb)
        rw [hkb] at h
        exact absurd h (nilKey_ne_pkKey _ _ _ _)
      · have hyz : y = z := nilKey_inj h
        rw [← hyz] at hz
        have hshare : SharesId a.2 b.2 := by
          rcases hy with hy | hy <;> rcases hz with hz | hz
          · exact Or.inl (by rw [hy, hz])
          · exact Or.inr (Or.inl (by rw [hy, hz]))
          · exact Or.inr (Or.inr (Or.inl (by rw [hy, hz])))
          · exact Or.inr (Or.inr (Or.inr (by rw [hy, hz])))
        rw [hval']
        exact ((hU a ha b (hWm b hb) hshare).1).symm
    exact ⟨Batch.get_write_present B ex.db _ hnodelRoot hs1,
      Batch.get_write_present B ex.db _ hnodelPk hs2,
      Batch.get_write_value B ex.db _ _ (hnodelNil _ hn2) (hputNil _ (Or.inl rfl)) hs3,
      Batch.get_write_value B ex.db _ _ (hnodelNil _ hr2) (hputNil _ (Or.inr rfl)) hs4⟩

theorem ledgerInv_empty : LedgerInv [] [] [] := by
  refine ⟨?_, ?_, ?_, ?_, ?_, ?_⟩
  · intro a ha; simp at ha
  · intro a ha; simp at ha
  · intro root h; exact absurd rfl h
  · intro pk cur root h; exact absurd rfl h
  · intro x v h; simp [Store.get, mapGet] at h
  · intro a ha; simp at ha

theorem scanned_ledgerInv (env : Env) (s : Store) (seen : List (Uint512 × Uxto))
    (published : List Uint256) (h : Scanned env s seen published) :
    LedgerInv s seen published := by
  induction h with
  | empty => exact ledgerInv_empty
  | commit ex ex1 pks num uxtos nils seen published _ hc hok hU ih =>
    exact ledgerInv_step env ex ex1 pks num uxtos nils seen published ih hc hok hU

theorem scanned_reachable (env : Env) (s : Store) (seen : List (Uint512 × Uxto))
    (published : List Uint256) (h : Scanned env s seen published) : Reachable env s := by
  induction h with
  | empty => exact Reachable.empty
  | commit ex ex1 pks num uxtos nils seen published _ hc _ _ ih =>
    exact Reachable.commit ex ex1 pks num uxtos nils ih hc

theorem LedgerInv.indexed {s : Store} {seen : List (Uint512 × Uxto)} {published : List Uint256}
    (h : LedgerInv s seen published) (a : Uint512 × Uxto) (ha : a ∈ seen)
    (hn : a.2.Nil ∉ published) (hr : a.2.Root ∉ published) : Indexed s a := by
  obtain ⟨hU, hT, _, hPK, _, hLive⟩ := h
  obtain ⟨h1, h2, h3, h4⟩ := hLive a ha hn hr
  obtain ⟨tkn, ht⟩ := Option.ne_none_iff_exists'.mp (hT a ha)
  have hk := @indexPkKey_tkn a.1 a.2 tkn ht
  rw [hk] at h2 h3 h4
  refine ⟨h1, tkn, ht, h2, ?_, h3, h4⟩
  intro pk cur hne
  obtain ⟨b, hb, hkb⟩ := hPK pk cur a.2.Root hne
  obtain ⟨tb, htb⟩ := Option.ne_none_iff_exists'.mp (hT b hb)
  have hkb' := @indexPkKey_tkn b.1 b.2 tb htb
  have hroot : b.2.Root = a.2.Root := by
    rw [hkb'] at hkb
    exact (uxtoPkKey_inj hkb).2.2
  have := (hU b hb a ha (Or.inr (Or.inr (Or.inr hroot)))).1
  rw [← hkb, this, hk]

/-- C8 (amended): take an index state reached from the empty store by committing scan windows
that `indexBlocks` indexes without an error, with the UTXOs scanned and the nullifiers
published on the way, where a root or a nullifier names one output. The state is reachable;
every record `ROOT || root` in it belongs to a scanned UTXO; and every scanned UTXO of which
neither the nullifier nor the root has been published has its record `ROOT || root`, exactly
one entry `PK || pk || currency || root` for its root, and the two aliases `NIL || nil` and
`NIL || root`, which both hold that `PK` key. Every `PK` entry has its record and every alias
holds a `PK` key whose record exists. -/
theorem scanned_unspent_indexed (env : Env) (s : Store) (seen : List (Uint512 × Uxto))
    (published : List Uint256) (h : Scanned env s seen published) :
    Reachable env s ∧
    (∀ root, s.get (rootKey root) ≠ none → ∃ a ∈ seen, a.2.Root = root) ∧
    (∀ a ∈ seen, a.2.Nil ∉ published → a.2.Root ∉ published → Indexed s a) ∧
    IndexSound s :=
  ⟨scanned_reachable env s seen published h,
   (scanned_ledgerInv env s seen published h).2.2.1,
   fun a ha hn hr => (scanned_ledgerInv env s seen published h).indexed a ha hn hr,
   reachable_indexSound env s (scanned_reachable env s seen published h)⟩

set_option maxRecDepth 1000000 in
theorem scanned_exC5 : Scanned demoEnv exC5.db [(alicePk, uxtoC5)] [] :=
  Scanned.commit ex0 exC5 [alicePk] 6
    (if [uxtoC5] = [] then [] else [(aliceKey, [uxtoC5])]) [] [] [] Scanned.empty commit_exC5
    (by decide) (by decide)

set_option maxRecDepth 1000000 in
theorem scanned_exC9next :
    Scanned demoEnv exC9next.db [(alicePk, uxtoC5), (alicePk, mkUxto 10 11 seroCurrency 4)]
      [fill256 9] :=
  Scanned.commit exC5 exC9next [alicePk] 7 [(aliceKey, [mkUxto 10 11 seroCurrency 4])]
    [fill256 9] [(alicePk, uxtoC5)] [] scanned_exC5
    (some_getD_of_isSome _ exC5 (by decide)) (by decide) (by decide)

theorem scanned_unspent_indexed_witness :
    Scanned demoEnv exC9next.db [(alicePk, uxtoC5), (alicePk, mkUxto 10 11 seroCurrency 4)]
      [fill256 9] ∧
    (Reachable demoEnv exC9next.db ∧
     (∀ root, exC9next.db.get (rootKey root) ≠ none →
       ∃ a ∈ [(alicePk, uxtoC5), (alicePk, mkUxto 10 11 seroCurrency 4)], a.2.Root = root) ∧
     (∀ a ∈ [(alicePk, uxtoC5), (alicePk, mkUxto 10 11 seroCurrency 4)],
       a.2.Nil ∉ [fill256 9] → a.2.Root ∉ [fill256 9] → Indexed exC9next.db a) ∧
     IndexSound exC9next.db) :=
  ⟨scanned_exC9next, scanned_unspent_indexed demoEnv _ _ _ scanned_exC9next⟩

end Sero
